import Mathlib

/-!
# xspeedhack: the time virtualization engine of `src/cpp/speedhack.c`

A shallow embedding of the clock state, the affine clock transform, the
re-anchoring speed update, the interposed entry points and the control
channel read loop, followed by theorems about them.

Conventions of the embedding (x86-64 Linux, LP64, SSE2 arithmetic):

* `int64_t`, `time_t` and `long` values are integers kept in range by `wrap64`
  (two's complement wrap-around) after every addition and subtraction;
* a `double` is either a finite value `(-1)^neg * m * 2^e`, an infinity or a
  NaN; every arithmetic result is rounded to 53 significant bits, to nearest,
  ties to even, with gradual underflow and overflow to infinity;
* converting a `double` to `int64_t` truncates toward zero and yields
  `INT64_MIN` when the truncated value is not representable (`cvttsd2si`);
* the global mutex only serialises accesses, so a locked read of the globals
  is a read of the current `ClockState`;
* every interposed entry point starts with `ensure_init()`, which is modelled
  once, by `ensure_init`; the definitions of the entry points describe the
  statements that follow it, in the clock state `st` that initialisation and
  the speed updates since have produced.
-/

namespace XSpeedHack

/-! ## Machine integers -/

/-- Least value of `int64_t`. -/
def INT64_MIN : Int := -9223372036854775808

/-- Greatest value of `int64_t`. -/
def INT64_MAX : Int := 9223372036854775807

/-- Membership in the range of `int64_t`. -/
def inInt64 (x : Int) : Prop := INT64_MIN ≤ x ∧ x ≤ INT64_MAX

instance (x : Int) : Decidable (inInt64 x) := by
  unfold inInt64; exact inferInstance

/-- Two's complement reduction of an integer into the range of `int64_t`. -/
def wrap64 (x : Int) : Int := (x + 9223372036854775808) % 18446744073709551616 - 9223372036854775808

/-! ## IEEE-754 binary64 -/

/-- Values of the C type `double`: `finite neg m e` denotes `(-1)^neg * m * 2^e`. -/
inductive Double where
  | finite (neg : Bool) (m : Nat) (e : Int)
  | inf (neg : Bool)
  | nan
  deriving DecidableEq

/-- Worker of `bitlen`: halve until zero, at most `fuel` times. -/
def bitlenAux : Nat → Nat → Nat
  | 0, _ => 0
  | fuel + 1, n => if n = 0 then 0 else bitlenAux fuel (n / 2) + 1

/-- Number of significant bits of `n` (0 for 0). -/
def bitlen (n : Nat) : Nat := bitlenAux n n

/-- Round `N / 2^sh` to the nearest integer, ties to the even one. -/
def roundMant (N sh : Nat) : Nat :=
  if 2 * (N % 2 ^ sh) < 2 ^ sh then N / 2 ^ sh
  else if 2 ^ sh < 2 * (N % 2 ^ sh) then N / 2 ^ sh + 1
  else if (N / 2 ^ sh) % 2 = 0 then N / 2 ^ sh
  else N / 2 ^ sh + 1

/-- Exponent of the least positive (subnormal) binary64 value, `2^-1074`. -/
def EMIN : Int := -1074

/-- Number of low bits of `N` that do not fit a binary64 significand when the
exact value is `N * 2^e`: the excess over 53 bits, or the distance of `e`
below the subnormal exponent, whichever is larger. -/
def roundShift (N : Nat) (e : Int) : Nat := max (bitlen N - 53) (EMIN - e).toNat

/-- The rounded significand scaled back to the unit `2^e` of the input: the
value `roundFin` produces for `N * 2^e` is `roundUnits N e * 2^e`. -/
def roundUnits (N : Nat) (e : Int) : Nat := roundMant N (roundShift N e) * 2 ^ roundShift N e

/-- Round the exact value `(-1)^neg * N * 2^e` to binary64. -/
def roundFin (neg : Bool) (N : Nat) (e : Int) : Double :=
  let sh := roundShift N e
  let m := roundMant N sh
  if m ≠ 0 ∧ 1024 < (bitlen m : Int) + (e + sh) then Double.inf neg
  else Double.finite neg m (e + sh)

/-- The conversion `(double)x` of an `int64_t`: the magnitude is rounded to 53
significant bits and kept as an integer significand with exponent 0. -/
def ofInt64 (x : Int) : Double :=
  Double.finite (decide (x < 0))
    (roundMant x.natAbs (bitlen x.natAbs - 53) * 2 ^ (bitlen x.natAbs - 53)) 0

/-- Product of two doubles. -/
def fmul : Double → Double → Double
  | Double.nan, _ => Double.nan
  | _, Double.nan => Double.nan
  | Double.inf n1, Double.inf n2 => Double.inf (xor n1 n2)
  | Double.inf n1, Double.finite n2 m2 _ => if m2 = 0 then Double.nan else Double.inf (xor n1 n2)
  | Double.finite n1 m1 _, Double.inf n2 => if m1 = 0 then Double.nan else Double.inf (xor n1 n2)
  | Double.finite n1 m1 e1, Double.finite n2 m2 e2 => roundFin (xor n1 n2) (m1 * m2) (e1 + e2)

/-- Quotient of two doubles. For finite operands the quotient of the
significands is computed with `bitlen m2 + 55` extra bits and a sticky bit for
the remainder, which is enough to round it correctly. -/
def fdiv : Double → Double → Double
  | Double.nan, _ => Double.nan
  | _, Double.nan => Double.nan
  | Double.inf _, Double.inf _ => Double.nan
  | Double.inf n1, Double.finite n2 _ _ => Double.inf (xor n1 n2)
  | Double.finite n1 _ _, Double.inf n2 => Double.finite (xor n1 n2) 0 0
  | Double.finite n1 m1 e1, Double.finite n2 m2 e2 =>
      if m2 = 0 then (if m1 = 0 then Double.nan else Double.inf (xor n1 n2))
      else
        roundFin (xor n1 n2)
          (2 * (m1 * 2 ^ (bitlen m2 + 55) / m2)
            + (if m1 * 2 ^ (bitlen m2 + 55) % m2 = 0 then 0 else 1))
          (e1 - e2 - (bitlen m2 + 55 : Nat) - 1)

/-- Integer part of the magnitude `m * 2^e`. -/
def truncMag (m : Nat) (e : Int) : Nat :=
  if 0 ≤ e then m * 2 ^ e.toNat else m / 2 ^ (-e).toNat

/-- Truncation of a double toward zero, as an unbounded integer; `none` for
infinities and NaN. -/
def Double.trunc : Double → Option Int
  | Double.finite neg m e => some (if neg then -(truncMag m e : Int) else (truncMag m e : Int))
  | Double.inf _ => none
  | Double.nan => none

/-- The conversion `(int64_t)d`. -/
def toInt64 (d : Double) : Int :=
  match d.trunc with
  | some v => if inInt64 v then v else INT64_MIN
  | none => INT64_MIN

/-- The comparison `d >= 0.0`. -/
def Double.ge0 : Double → Bool
  | Double.finite neg m _ => !neg || decide (m = 0)
  | Double.inf neg => !neg
  | Double.nan => false

/-- The comparison `d <= 0.0`. -/
def Double.le0 : Double → Bool
  | Double.finite neg m _ => neg || decide (m = 0)
  | Double.inf neg => neg
  | Double.nan => false

/-- The comparison `d > 0.0`. -/
def Double.gt0 : Double → Bool
  | Double.finite neg m _ => !neg && decide (m ≠ 0)
  | Double.inf neg => !neg
  | Double.nan => false

/-- The comparison `d < 0.0`. -/
def Double.lt0 : Double → Bool
  | Double.finite neg m _ => neg && decide (m ≠ 0)
  | Double.inf neg => neg
  | Double.nan => false

/-- Finite doubles (neither infinity nor NaN). -/
def Double.isFinite : Double → Bool
  | Double.finite _ _ _ => true
  | _ => false

/-- The real number a finite double denotes (0 for infinities and NaN). -/
def Double.toRat : Double → ℚ
  | Double.finite neg m e => (if neg then -1 else 1) * (m : ℚ) * (2 : ℚ) ^ e
  | _ => 0

/-- The value of a `float` object holding the four bytes `b0 b1 b2 b3` in
memory order (little-endian binary32), converted to `double`; the widening
conversion is exact. -/
def float_of_bytes (b0 b1 b2 b3 : Nat) : Double :=
  let bits := b0 % 256 + 256 * (b1 % 256) + 65536 * (b2 % 256) + 16777216 * (b3 % 256)
  let neg := decide (2147483648 ≤ bits)
  let ex := bits / 8388608 % 256
  let frac := bits % 8388608
  if ex = 255 then (if frac = 0 then Double.inf neg else Double.nan)
  else if ex = 0 then Double.finite neg frac (-149)
  else Double.finite neg (8388608 + frac) ((ex : Int) - 150)

/-! ## Clock state -/

/-- The global clock state of `speedhack.c`. -/
structure ClockState where
  g_speed : Double
  g_real_base_mono_ns : Int
  g_scaled_base_mono_ns : Int
  g_real_base_rt_ns : Int
  g_scaled_base_rt_ns : Int
  g_scale_realtime : Bool

/-- The C type `struct timespec`. -/
structure Timespec where
  tv_sec : Int
  tv_nsec : Int
  deriving DecidableEq

/-- Source: `timespec_to_ns`. -/
def timespec_to_ns (ts : Timespec) : Int :=
  wrap64 (wrap64 (ts.tv_sec * 1000000000) + ts.tv_nsec)

/-- Source: `ns_to_timespec`. -/
def ns_to_timespec (ns : Int) : Timespec :=
  if ns < 0 then { tv_sec := 0, tv_nsec := 0 }
  else { tv_sec := ns / 1000000000, tv_nsec := ns % 1000000000 }

/-- Linux clock identifiers. -/
def CLOCK_REALTIME : Int := 0
/-- Linux clock identifier. -/
def CLOCK_MONOTONIC : Int := 1
/-- Linux clock identifier. -/
def CLOCK_MONOTONIC_RAW : Int := 4
/-- Linux clock identifier. -/
def CLOCK_REALTIME_COARSE : Int := 5
/-- Linux clock identifier. -/
def CLOCK_MONOTONIC_COARSE : Int := 6
/-- Linux clock identifier. -/
def CLOCK_BOOTTIME : Int := 7

/-- Source: `is_monotonic_clock`. -/
def is_monotonic_clock (clk_id : Int) : Bool :=
  if clk_id = CLOCK_MONOTONIC then true
  else if clk_id = CLOCK_MONOTONIC_RAW then true
  else if clk_id = CLOCK_MONOTONIC_COARSE then true
  else if clk_id = CLOCK_BOOTTIME then true
  else false

/-- Source: `is_realtime_clock`. -/
def is_realtime_clock (clk_id : Int) : Bool :=
  if clk_id = CLOCK_REALTIME then true
  else if clk_id = CLOCK_REALTIME_COARSE then true
  else false

/-- Source: `get_speed`. -/
def get_speed (st : ClockState) : Double := st.g_speed

/-- Source: `scale_monotonic_ns`. -/
def scale_monotonic_ns (st : ClockState) (real_ns : Int) : Int :=
  wrap64 (st.g_scaled_base_mono_ns
    + toInt64 (fmul (ofInt64 (wrap64 (real_ns - st.g_real_base_mono_ns))) st.g_speed))

/-- Source: `scale_realtime_ns`. -/
def scale_realtime_ns (st : ClockState) (real_ns : Int) : Int :=
  wrap64 (st.g_scaled_base_rt_ns
    + toInt64 (fmul (ofInt64 (wrap64 (real_ns - st.g_real_base_rt_ns))) st.g_speed))

/-- Source: `update_speed`. The two arguments `now_real_mono` and `now_real_rt`
are the values `real_monotonic_ns()` and `real_realtime_ns()` return at the
top of the function. -/
def update_speed (st : ClockState) (now_real_mono now_real_rt : Int) (new_speed : Double) :
    ClockState :=
  let now_scaled_mono := wrap64 (st.g_scaled_base_mono_ns
    + toInt64 (fmul (ofInt64 (wrap64 (now_real_mono - st.g_real_base_mono_ns))) st.g_speed))
  let now_scaled_rt := wrap64 (st.g_scaled_base_rt_ns
    + toInt64 (fmul (ofInt64 (wrap64 (now_real_rt - st.g_real_base_rt_ns))) st.g_speed))
  { g_speed := new_speed
    g_real_base_mono_ns := now_real_mono
    g_scaled_base_mono_ns := now_scaled_mono
    g_real_base_rt_ns := if st.g_scale_realtime then now_real_rt else st.g_real_base_rt_ns
    g_scaled_base_rt_ns := if st.g_scale_realtime then now_scaled_rt else st.g_scaled_base_rt_ns
    g_scale_realtime := st.g_scale_realtime }

/-- The double `1.0`, the initial value of `g_speed`. -/
def one : Double := Double.finite false 1 0

/-- Source: the clock state `init_real_symbols` builds: both anchors of each
domain are the reading of the real clock at attach time, the speed is the
initial `1.0`, and the flag is set iff `XSH_SCALE_REALTIME` is `"1"`. -/
def init_state (mono_now rt_now : Int) (scale_rt : Bool) : ClockState :=
  { g_speed := one
    g_real_base_mono_ns := mono_now
    g_scaled_base_mono_ns := mono_now
    g_real_base_rt_ns := rt_now
    g_scaled_base_rt_ns := rt_now
    g_scale_realtime := scale_rt }

/-! ## Overflow-free computations, timespec order -/

/-- The affine transform `scaled_base + (int64_t)((double)(real_ns - real_base) * speed)`
is computed without leaving the range of `int64_t`: the difference, the
truncated product and the sum are all representable. -/
def noOverflow (real_base scaled_base : Int) (speed : Double) (real_ns : Int) : Prop :=
  inInt64 (real_ns - real_base) ∧
  match (fmul (ofInt64 (real_ns - real_base)) speed).trunc with
  | some t => inInt64 t ∧ inInt64 (scaled_base + t)
  | none => False

instance (real_base scaled_base : Int) (speed : Double) (real_ns : Int) :
    Decidable (noOverflow real_base scaled_base speed real_ns) := by
  unfold noOverflow
  cases (fmul (ofInt64 (real_ns - real_base)) speed).trunc <;> exact inferInstance

/-- No overflow in `scale_monotonic_ns st real_ns`. -/
def monoNoOverflow (st : ClockState) (real_ns : Int) : Prop :=
  noOverflow st.g_real_base_mono_ns st.g_scaled_base_mono_ns st.g_speed real_ns

instance (st : ClockState) (real_ns : Int) : Decidable (monoNoOverflow st real_ns) := by
  unfold monoNoOverflow; exact inferInstance

/-- Chronological order on `struct timespec` values: not later than. -/
def Timespec.le (a b : Timespec) : Prop :=
  a.tv_sec < b.tv_sec ∨ (a.tv_sec = b.tv_sec ∧ a.tv_nsec ≤ b.tv_nsec)

instance (a b : Timespec) : Decidable (Timespec.le a b) := by
  unfold Timespec.le; exact inferInstance

/-! ## Clock read dispatcher -/

/-- The real `clock_gettime`: from the clock id and the output buffer (`none`
for a null pointer) to the return code and the buffer after the call. -/
abbrev clock_gettime_fn := Int → Option Timespec → Int × Option Timespec

/-- Source: the interposed `clock_gettime`, from the statement after
`ensure_init()` on (that call is modelled by `ensure_init`); `st` is the clock
state that initialisation and the speed updates since have produced.
`real_clock_gettime` is `none` when the symbol was not resolved, a case that
initialisation does not get past; `tp` is the caller's buffer (`none` for
`NULL`). Returns the return code and the caller's buffer after the call. The
test `tp == NULL` is modelled as it is written; the C library declares the
buffer non-null, so a compiler may remove the test, and the result for a null
buffer after a successful real call is that of the source text only. -/
def clock_gettime (st : ClockState) (real_clock_gettime : Option clock_gettime_fn)
    (clk_id : Int) (tp : Option Timespec) : Int × Option Timespec :=
  match real_clock_gettime with
  | none => (-1, tp)
  | some real =>
    let r := real clk_id tp
    if r.1 ≠ 0 ∨ tp = none then r
    else
      match r.2 with
      | none => r
      | some t =>
        if is_monotonic_clock clk_id then
          (r.1, some (ns_to_timespec (scale_monotonic_ns st (timespec_to_ns t))))
        else if st.g_scale_realtime && is_realtime_clock clk_id then
          (r.1, some (ns_to_timespec (scale_realtime_ns st (timespec_to_ns t))))
        else r

/-! ## Runs of reads and speed updates -/

/-- One step of a run of the clock state authority, in the global order the
lock establishes: a Monotonic read at a real reading, or a call of
`update_speed` with its two real readings and the new speed. -/
inductive ClockEvent where
  | read (real_ns : Int)
  | set_speed (now_real_mono now_real_rt : Int) (new_speed : Double)

/-- The virtual readings the Monotonic reads of a run return, in order. -/
def run : ClockState → List ClockEvent → List Int
  | _, [] => []
  | st, ClockEvent.read r :: evs => scale_monotonic_ns st r :: run st evs
  | st, ClockEvent.set_speed m w s :: evs => run (update_speed st m w s) evs

/-- A run is admissible from the last real Monotonic reading `last`: the real
readings never decrease, every new speed is `>= 0`, and no Monotonic
computation of the run leaves the range of `int64_t`. -/
def runOk : ClockState → Int → List ClockEvent → Prop
  | _, _, [] => True
  | st, last, ClockEvent.read r :: evs => last ≤ r ∧ monoNoOverflow st r ∧ runOk st r evs
  | st, last, ClockEvent.set_speed m w s :: evs =>
      last ≤ m ∧ s.ge0 = true ∧ monoNoOverflow st m ∧ runOk (update_speed st m w s) m evs

/-- A run has non-decreasing real readings and speeds `>= 0`, with no
requirement on overflow. -/
def runReal : Int → List ClockEvent → Prop
  | _, [] => True
  | last, ClockEvent.read r :: evs => last ≤ r ∧ runReal r evs
  | last, ClockEvent.set_speed m _ s :: evs => last ≤ m ∧ s.ge0 = true ∧ runReal m evs

/-! ## Auxiliary quantities of the rounding proofs -/

/-- Magnitude of `(int64_t)((double)x * speed)` for `|x| = n` and a finite
speed of significand `ms` and exponent `es`, before the range check. -/
def mulMag (n ms : Nat) (es : Int) : Nat :=
  truncMag (roundUnits (roundUnits n 0 * ms) es) es

/-- The exact value `N * 2^e` is below `2^53`, the range in which every
integer is a binary64 value. -/
def smallVal (N : Nat) (e : Int) : Prop :=
  if 0 ≤ e then N * 2 ^ e.toNat < 2 ^ 53 else N < 2 ^ (53 + (-e).toNat)

/-! ## Control channel -/

/-- Outcome of one `read(client_fd, buf + received, 4 - received)`: `data bytes`
for a return value `n = bytes.length` with the bytes it stored, `eof` for
`n == 0`, `eintr` for `n < 0` with `errno == EINTR`, `error` for `n < 0` with
another `errno`. -/
inductive ReadResult where
  | data (bytes : List Nat)
  | eof
  | eintr
  | error

/-- One iteration of the inner read loop as the environment decides it: what
`read` returns, and what the real clocks would read if `update_speed` is
called in this iteration. -/
structure ReadEvent where
  result : ReadResult
  now_real_mono : Int
  now_real_rt : Int

/-- The variables of the inner read loop of `socket_thread_main`, with the
list of the buffers decoded so far on this connection. -/
structure LoopState where
  st : ClockState
  buf : List Nat
  received : Nat
  decoded : List (List Nat)

/-- Storing `bytes` at `buf + off`. -/
def writeBuf (buf : List Nat) (off : Nat) (bytes : List Nat) : List Nat :=
  buf.take off ++ bytes ++ buf.drop (off + bytes.length)

/-- The `float` that `memcpy(&speed_val, buf, sizeof(float))` yields. -/
def float_of_buf (buf : List Nat) : Double :=
  float_of_bytes (buf.getD 0 0) (buf.getD 1 0) (buf.getD 2 0) (buf.getD 3 0)

/-- Source: one iteration of the inner `while (1)` of `socket_thread_main`;
`none` is `break`. -/
def read_step (ls : LoopState) (ev : ReadEvent) : Option LoopState :=
  match ev.result with
  | ReadResult.eof => none
  | ReadResult.error => none
  | ReadResult.eintr => some ls
  | ReadResult.data bytes =>
    if bytes.length = 0 then none
    else
      if ls.received + bytes.length = 4 then
        some { st := if (float_of_buf (writeBuf ls.buf ls.received bytes)).ge0
                     then update_speed ls.st ev.now_real_mono ev.now_real_rt
                       (float_of_buf (writeBuf ls.buf ls.received bytes))
                     else ls.st
               buf := writeBuf ls.buf ls.received bytes
               received := 0
               decoded := ls.decoded ++ [writeBuf ls.buf ls.received bytes] }
      else
        some { st := ls.st
               buf := writeBuf ls.buf ls.received bytes
               received := ls.received + bytes.length
               decoded := ls.decoded }

/-- Source: the inner `while (1)` of `socket_thread_main`, run on the outcomes
of its successive `read` calls until it breaks. -/
def read_loop (ls : LoopState) : List ReadEvent → LoopState
  | [] => ls
  | ev :: evs =>
    match read_step ls ev with
    | none => ls
    | some ls1 => read_loop ls1 evs

/-- One accepted connection: the indeterminate initial content of the local
`buf[4]` and the outcomes of the `read` calls on it. -/
structure Connection where
  buf0 : List Nat
  events : List ReadEvent

/-- Source: the body of the outer `while (1)` for one accepted connection;
`buf` and `received = 0` are fresh locals. Returns the clock state and the
buffers decoded on this connection. -/
def serve_connection (st : ClockState) (c : Connection) : ClockState × List (List Nat) :=
  let ls := read_loop { st := st, buf := c.buf0, received := 0, decoded := [] } c.events
  (ls.st, ls.decoded)

/-- Source: the outer `while (1)` of `socket_thread_main` over the accepted
connections, in order. -/
def serve : ClockState → List Connection → ClockState × List (List Nat)
  | st, [] => (st, [])
  | st, c :: cs =>
    ((serve (serve_connection st c).1 cs).1,
      (serve_connection st c).2 ++ (serve (serve_connection st c).1 cs).2)

/-- Spec: the consecutive 4-byte messages of a byte stream; a trailing
fragment of fewer than 4 bytes is discarded. -/
def messages : List Nat → List (List Nat)
  | b0 :: b1 :: b2 :: b3 :: rest => [b0, b1, b2, b3] :: messages rest
  | _ => []

/-- The byte stream the peer sent on a connection, as the `read` calls
delivered it before the loop broke. -/
def delivered : List ReadEvent → List Nat
  | [] => []
  | ev :: evs =>
    match ev.result with
    | ReadResult.data bytes => if bytes.length = 0 then [] else bytes ++ delivered evs
    | ReadResult.eintr => delivered evs
    | ReadResult.eof => []
    | ReadResult.error => []

/-- The contract of `read`: a call asked for `4 - received` bytes returns at
most that many. -/
def readsOk : Nat → List ReadEvent → Prop
  | _, [] => True
  | received, ev :: evs =>
    match ev.result with
    | ReadResult.data bytes =>
        bytes.length ≤ 4 - received ∧ readsOk ((received + bytes.length) % 4) evs
    | ReadResult.eintr => readsOk received evs
    | ReadResult.eof => True
    | ReadResult.error => True

/-! ## Sleep dispatchers -/

/-- The real `nanosleep`: from the request and the remainder buffer (`none`
for a null pointer) to the return code and the remainder buffer after the
call. -/
abbrev nanosleep_fn := Option Timespec → Option Timespec → Int × Option Timespec

/-- The real `clock_nanosleep`: clock id, flags, request and remainder buffer
to the return code and the remainder buffer after the call. -/
abbrev clock_nanosleep_fn :=
  Int → Int → Option Timespec → Option Timespec → Int × Option Timespec

/-- The flag bit `TIMER_ABSTIME` (1 on Linux) is set in `flags`. -/
def timer_abstime (flags : Int) : Bool := decide (flags % 2 ≠ 0)

/-- Source: the interposed `nanosleep`, from the statement after
`ensure_init()` on (that call is modelled by `ensure_init`, and is passed only
in a process in which `real_clock_gettime` was resolved). `real_nanosleep` is
`none` when the symbol was not resolved; `req` and `rem` are the caller's
request and remainder buffer (`none` for `NULL`); `rem_real0` is the
indeterminate initial content of the local `rem_real`. Returns the return code
and the caller's remainder buffer after the call. -/
def nanosleep (st : ClockState) (real_nanosleep : Option nanosleep_fn)
    (req rem : Option Timespec) (rem_real0 : Timespec) : Int × Option Timespec :=
  match real_nanosleep with
  | none => (-1, rem)
  | some real =>
    match req with
    | none => real none rem
    | some rq =>
      if (get_speed st).le0 then real (some rq) rem
      else
        let r := real
          (some (ns_to_timespec (toInt64 (fdiv (ofInt64 (timespec_to_ns rq)) (get_speed st)))))
          (if rem = none then none else some rem_real0)
        if r.1 ≠ 0 ∧ rem ≠ none then
          (r.1, some (ns_to_timespec (toInt64
            (fmul (ofInt64 (timespec_to_ns (r.2.getD rem_real0))) (get_speed st)))))
        else (r.1, rem)

/-- Source: the interposed `clock_nanosleep`, from the statement after
`ensure_init()` on; arguments as for `nanosleep`. The unresolved case also
sets `errno = ENOSYS`. -/
def clock_nanosleep (st : ClockState) (real_clock_nanosleep : Option clock_nanosleep_fn)
    (clk_id flags : Int) (req rem : Option Timespec) (rem_real0 : Timespec) :
    Int × Option Timespec :=
  match real_clock_nanosleep with
  | none => (-1, rem)
  | some real =>
    match req with
    | none => real clk_id flags none rem
    | some rq =>
      if timer_abstime flags then real clk_id flags (some rq) rem
      else if (get_speed st).le0 then real clk_id flags (some rq) rem
      else
        let r := real clk_id flags
          (some (ns_to_timespec (toInt64 (fdiv (ofInt64 (timespec_to_ns rq)) (get_speed st)))))
          (if rem = none then none else some rem_real0)
        if r.1 ≠ 0 ∧ rem ≠ none then
          (r.1, some (ns_to_timespec (toInt64
            (fmul (ofInt64 (timespec_to_ns (r.2.getD rem_real0))) (get_speed st)))))
        else (r.1, rem)

/-! ## Wall-clock dispatchers -/

/-- The C type `struct timeval`. -/
structure Timeval where
  tv_sec : Int
  tv_usec : Int
  deriving DecidableEq

/-- The timezone argument of `gettimeofday`, which the dispatcher only passes
on: `none` for a null pointer, else the content of the object. -/
abbrev TzArg := Option (Int × Int)

/-- The real `gettimeofday`: from the output buffer (`none` for a null
pointer) and the timezone argument to the return code and the buffer after
the call. -/
abbrev gettimeofday_fn := Option Timeval → TzArg → Int × Option Timeval

/-- The real `time`: from the output location (`none` for a null pointer) to
the value returned and the location after the call. -/
abbrev time_fn := Option Int → Int × Option Int

/-- Source: the interposed `gettimeofday`, from the statement after
`ensure_init()` on (that call is modelled by `ensure_init`, and is passed only
in a process in which `real_clock_gettime` was resolved). `real_gettimeofday`
is `none` when the symbol was not resolved; `tv` is the caller's buffer (`none`
for `NULL`). Returns the return code and the caller's buffer after the call.
The divisions are C divisions, which truncate toward zero. The test
`tv == NULL` is modelled as it is written; the C library declares the buffer
non-null, so a compiler may remove the test, and the result for a null buffer
after a successful real call is that of the source text only. -/
def gettimeofday (st : ClockState) (real_gettimeofday : Option gettimeofday_fn)
    (tv : Option Timeval) (tz : TzArg) : Int × Option Timeval :=
  match real_gettimeofday with
  | none => (-1, tv)
  | some real =>
    let r := real tv tz
    if r.1 ≠ 0 ∨ tv = none then r
    else
      match r.2 with
      | none => r
      | some t =>
        if st.g_scale_realtime then
          (r.1, some
            { tv_sec := Int.tdiv (scale_realtime_ns st
                (wrap64 (wrap64 (t.tv_sec * 1000000000) + wrap64 (t.tv_usec * 1000)))) 1000000000
              tv_usec := Int.tdiv (Int.tmod (scale_realtime_ns st
                (wrap64 (wrap64 (t.tv_sec * 1000000000) + wrap64 (t.tv_usec * 1000))))
                1000000000) 1000 })
        else r

/-- Source: the interposed `time`, from the statement after `ensure_init()`
on (that call is modelled by `ensure_init`, and is passed only in a process in
which `real_clock_gettime` was resolved). `real_time` and `real_clock_gettime`
are `none` when the symbol was not resolved; `tloc` is the caller's location
(`none` for `NULL`); `ts0` is the indeterminate initial content of the local
`ts`. The result is `none` when the function calls through a null function
pointer, else the value returned and the caller's location after the call. -/
def time (st : ClockState) (real_time : Option time_fn)
    (real_clock_gettime : Option clock_gettime_fn) (tloc : Option Int) (ts0 : Timespec) :
    Option (Int × Option Int) :=
  match real_time with
  | none => some (-1, tloc)
  | some rt =>
    if st.g_scale_realtime = false then some (rt tloc)
    else
      match real_clock_gettime with
      | none => none
      | some cg =>
        if (cg CLOCK_REALTIME (some ts0)).1 ≠ 0 then some (rt tloc)
        else
          some (Int.tdiv (scale_realtime_ns st
                  (timespec_to_ns ((cg CLOCK_REALTIME (some ts0)).2.getD ts0))) 1000000000,
                if tloc = none then none
                else some (Int.tdiv (scale_realtime_ns st
                  (timespec_to_ns ((cg CLOCK_REALTIME (some ts0)).2.getD ts0))) 1000000000))

/-! ## The resolved symbols, initialisation, `usleep` and `sleep` -/

/-- The function pointers `init_real_symbols` obtains from `dlsym`; `none` is
a null pointer (the symbol was not found). -/
structure RealSymbols where
  real_clock_gettime : Option clock_gettime_fn
  real_clock_nanosleep : Option clock_nanosleep_fn
  real_nanosleep : Option nanosleep_fn
  real_gettimeofday : Option gettimeofday_fn
  real_time : Option time_fn
  real_sleep : Option (Int → Int)
  real_usleep : Option (Int → Int)

/-- Source: `real_monotonic_ns`. `none` when it calls through a null
`real_clock_gettime`; `ts0` is the indeterminate initial content of the local
`ts`. -/
def real_monotonic_ns (real_clock_gettime : Option clock_gettime_fn) (ts0 : Timespec) :
    Option Int :=
  match real_clock_gettime with
  | none => none
  | some cg =>
    if (cg CLOCK_MONOTONIC (some ts0)).1 ≠ 0 then some 0
    else some (timespec_to_ns ((cg CLOCK_MONOTONIC (some ts0)).2.getD ts0))

/-- Source: `real_realtime_ns`; as `real_monotonic_ns`. -/
def real_realtime_ns (real_clock_gettime : Option clock_gettime_fn) (ts0 : Timespec) :
    Option Int :=
  match real_clock_gettime with
  | none => none
  | some cg =>
    if (cg CLOCK_REALTIME (some ts0)).1 ≠ 0 then some 0
    else some (timespec_to_ns ((cg CLOCK_REALTIME (some ts0)).2.getD ts0))

/-- Source: the clock-state part of `init_real_symbols`, once the symbols are
looked up and `XSH_SCALE_REALTIME` is read; `none` when it calls through a null
function pointer. -/
def init_real_symbols (syms : RealSymbols) (scale_rt : Bool) (ts0 : Timespec) :
    Option ClockState :=
  match real_monotonic_ns syms.real_clock_gettime ts0,
    real_realtime_ns syms.real_clock_gettime ts0 with
  | some m, some w => some (init_state m w scale_rt)
  | _, _ => none

/-- Source: `ensure_init`, the body of the constructor that runs when the
library is loaded and the first statement of every interposed entry point:
`pthread_once` runs `init_real_symbols` unless it has run before. `once` is the
clock state an earlier run has left (`none` before the first run); the result
is the clock state after the call, `none` when initialisation calls through a
null function pointer. Initialisation reads the real clock without testing
`real_clock_gettime`, so an entry point gets past `ensure_init()` only in a
process in which that symbol was resolved. -/
def ensure_init (syms : RealSymbols) (scale_rt : Bool) (ts0 : Timespec)
    (once : Option ClockState) : Option ClockState :=
  match once with
  | some st => some st
  | none => init_real_symbols syms scale_rt ts0

/-- Source: the interposed `usleep`, which calls the interposed `nanosleep`
with a null remainder; `usec` is reduced to the 32 bits of `useconds_t`. -/
def usleep (st : ClockState) (syms : RealSymbols) (usec : Nat) (rem_real0 : Timespec) : Int :=
  (nanosleep st syms.real_nanosleep
    (some { tv_sec := ((usec % 4294967296 / 1000000 : Nat) : Int)
            tv_nsec := ((usec % 4294967296 % 1000000 * 1000 : Nat) : Int) })
    none rem_real0).1

/-- Source: the interposed `sleep`, which calls the interposed `nanosleep`;
`seconds` is reduced to the 32 bits of `unsigned int`, `rem0` is the
indeterminate initial content of the local `rem`, and the result is the value
of the `unsigned int` returned. -/
def sleep (st : ClockState) (syms : RealSymbols) (seconds : Nat) (rem0 rem_real0 : Timespec) :
    Int :=
  if (nanosleep st syms.real_nanosleep
      (some { tv_sec := ((seconds % 4294967296 : Nat) : Int), tv_nsec := 0 })
      (some rem0) rem_real0).1 = 0 then 0
  else
    ((nanosleep st syms.real_nanosleep
      (some { tv_sec := ((seconds % 4294967296 : Nat) : Int), tv_nsec := 0 })
      (some rem0) rem_real0).2.getD rem0).tv_sec % 4294967296

/-! ## Concrete states and stand-ins for the real primitives, for the worked examples -/

/-- The clock state after the control message `28 6b 6e 4e` (the float `1e9`)
arrives at real reading 0 of a process attached at reading 0, and again nine
real seconds later. -/
def fast_state : ClockState :=
  update_speed (update_speed (init_state 0 0 false) 0 0 (float_of_bytes 40 107 110 78))
    9000000000 9000000000 (float_of_bytes 40 107 110 78)

/-- The clock state of a process attached at real reading 0 after the control
message `00 00 7a 44` (the float `1000.0`) arrives at reading 0. -/
def thousand_state : ClockState :=
  update_speed (init_state 0 0 false) 0 0 (float_of_bytes 0 0 122 68)

/-- The clock state of a process attached at real reading 1000 after the
control message `00 00 00 40` (the float `2.0`) arrives at reading 1700. -/
def double_state : ClockState :=
  update_speed (init_state 1000 5000 false) 1700 5700 (float_of_bytes 0 0 0 64)

/-- The clock state after the control message `00 00 00 00` (the float `0.0`)
arrives at reading 1700 of a process attached at reading 1000. -/
def frozen_state : ClockState :=
  update_speed (init_state 1000 5000 false) 1700 5700 (float_of_bytes 0 0 0 0)

/-- The clock state after the control message `01 00 80 3f` (the float next
above `1.0`) arrives at reading 0 of a process attached at reading 0. -/
def nudged_state : ClockState :=
  update_speed (init_state 0 0 false) 0 0 (float_of_bytes 1 0 128 63)

/-- The clock state after the control message `01 00 00 00` (the least positive
float, `2^-149`) arrives at reading 0 of a process attached at reading 0. -/
def crawl_state : ClockState :=
  update_speed (init_state 0 0 false) 0 0 (float_of_bytes 1 0 0 0)



/-- A connection on which the peer sends the message `2.0` and three more
bytes, delivered in short reads of 2, 2 and 3 bytes with an interrupted read
in between, and then disconnects. -/
def conn_split : Connection :=
  { buf0 := [0, 0, 0, 0]
    events :=
      [{ result := ReadResult.data [0, 0], now_real_mono := 10, now_real_rt := 20 },
       { result := ReadResult.data [0, 64], now_real_mono := 11, now_real_rt := 21 },
       { result := ReadResult.eintr, now_real_mono := 12, now_real_rt := 22 },
       { result := ReadResult.data [1, 2, 3], now_real_mono := 13, now_real_rt := 23 },
       { result := ReadResult.eof, now_real_mono := 14, now_real_rt := 24 }] }

/-- A connection on which the peer sends the message `1.0` in one piece. -/
def conn_whole : Connection :=
  { buf0 := [9, 9, 9, 9]
    events :=
      [{ result := ReadResult.data [0, 0, 128, 63], now_real_mono := 30, now_real_rt := 40 },
       { result := ReadResult.eof, now_real_mono := 31, now_real_rt := 41 }] }

/-- The read loop at the start of a connection of a freshly attached process. -/
def fresh_loop : LoopState :=
  { st := init_state 1000 5000 false, buf := [0, 0, 0, 0], received := 0, decoded := [] }

/-- A read that delivers the message `-1.0` (bytes `00 00 80 bf`) in one piece. -/
def minus_one_event : ReadEvent :=
  { result := ReadResult.data [0, 0, 128, 191], now_real_mono := 2000, now_real_rt := 6000 }

/-- A read that delivers the whole message `00 00 c0 7f`, a quiet NaN. -/
def nan_event : ReadEvent :=
  { result := ReadResult.data [0, 0, 192, 127], now_real_mono := 2000, now_real_rt := 6000 }

/-- A stand-in for the real `nanosleep` that returns at once and reports, as
its return code, the number of nanoseconds it was asked to sleep. -/
def echo_nanosleep : nanosleep_fn := fun req rem =>
  match req with
  | some t => (t.tv_sec * 1000000000 + t.tv_nsec, rem)
  | none => (-1, rem)

/-- A stand-in for a real `nanosleep` that is interrupted with one day and one
nanosecond left to sleep. -/
def interrupted_nanosleep : nanosleep_fn := fun _ rem =>
  (-1, rem.map (fun _ => { tv_sec := 86400, tv_nsec := 1 }))





/-- A stand-in for the real `clock_nanosleep` that behaves as `echo_nanosleep`. -/
def echo_clock_nanosleep : clock_nanosleep_fn := fun _ _ req rem => echo_nanosleep req rem

/-- A stand-in for the real `clock_gettime` that succeeds and stores the
reading 1790000000 s and 5000 ns, whatever the clock. -/
def fixed_clock_gettime : clock_gettime_fn := fun _ tp =>
  (0, tp.map (fun _ => { tv_sec := 1790000000, tv_nsec := 5000 }))

/-- A stand-in for the real `gettimeofday` that succeeds and stores the
reading 1790000000 s and 5 microseconds. -/
def fixed_gettimeofday : gettimeofday_fn := fun tv _ =>
  (0, tv.map (fun _ => { tv_sec := 1790000000, tv_usec := 5 }))

/-- A stand-in for the real `time` that returns and stores 1790000000. -/
def fixed_time : time_fn := fun tloc => (1790000000, tloc.map (fun _ => 1790000000))

/-- A stand-in for a real `nanosleep` that sleeps the whole request: it
returns 0 and leaves the remainder buffer alone. -/
def ok_nanosleep : nanosleep_fn := fun _ rem => (0, rem)

/-- A stand-in for the real `clock_nanosleep` that sleeps the whole request. -/
def ok_clock_nanosleep : clock_nanosleep_fn := fun _ _ _ rem => (0, rem)

/-- A symbol table in which `dlsym` found every symbol except `clock_gettime`. -/
def clock_gettime_missing : RealSymbols :=
  { real_clock_gettime := none
    real_clock_nanosleep := some ok_clock_nanosleep
    real_nanosleep := some ok_nanosleep
    real_gettimeofday := some fixed_gettimeofday
    real_time := some fixed_time
    real_sleep := some (fun _ => 0)
    real_usleep := some (fun _ => 0) }

/-- A symbol table in which `dlsym` found every symbol except `nanosleep`. -/
def nanosleep_missing : RealSymbols :=
  { real_clock_gettime := some fixed_clock_gettime
    real_clock_nanosleep := some ok_clock_nanosleep
    real_nanosleep := none
    real_gettimeofday := some fixed_gettimeofday
    real_time := some fixed_time
    real_sleep := some (fun _ => 0)
    real_usleep := some (fun _ => 0) }

/-- The clock state after the control message `28 6b 6e 4e` (the float `1e9`)
arrives at WallClock reading 1790000000 s of a process attached at that
reading with wall-clock scaling enabled. -/
def fast_wall_state : ClockState :=
  update_speed (init_state 0 1790000000000000000 true) 0 1790000000000000000
    (float_of_bytes 40 107 110 78)

/-- The clock state of a process attached at Monotonic reading 100 s after the
control message `28 6b 6e 4e` (the float `1e9`) arrives at that same reading. -/
def late_fast_state : ClockState :=
  update_speed (init_state 100000000000 1790000000000000000 false) 100000000000
    1790000000000000000 (float_of_bytes 40 107 110 78)

/-- The clock state after the control message `cd cc cc 3d` (the float `0.1`)
arrives at reading 0 of a process attached at reading 0. -/
def tenth_state : ClockState :=
  update_speed (init_state 0 0 false) 0 0 (float_of_bytes 205 204 204 61)

/-- A stand-in for a real `nanosleep` that is interrupted at once: it reports
the whole duration it was asked to sleep as left. -/
def whole_left_nanosleep : nanosleep_fn := fun req _ => (-1, req)

/-- A symbol table in which `dlsym` found every symbol; the real `nanosleep` is
interrupted at once. -/
def all_resolved : RealSymbols :=
  { real_clock_gettime := some fixed_clock_gettime
    real_clock_nanosleep := some ok_clock_nanosleep
    real_nanosleep := some whole_left_nanosleep
    real_gettimeofday := some fixed_gettimeofday
    real_time := some fixed_time
    real_sleep := some (fun _ => 0)
    real_usleep := some (fun _ => 0) }

/-- The clock state after the control message `40 00 00 3f` (the float
`0.5 + 2^-18`) arrives at reading 0 of a process attached at reading 0. -/
def half_plus_state : ClockState :=
  update_speed (init_state 0 0 false) 0 0 (float_of_bytes 64 0 0 63)

/-- The clock state after the control message `00 00 40 40` (the float `3.0`)
arrives at reading 0 of a process attached at reading 0. -/
def three_state : ClockState :=
  update_speed (init_state 0 0 false) 0 0 (float_of_bytes 0 0 64 64)

/-! ## Machine integer lemmas -/

theorem inInt64_wrap64 (x : Int) : inInt64 (wrap64 x) := by
  unfold inInt64 wrap64 INT64_MIN INT64_MAX
  omega

theorem wrap64_of_inInt64 {x : Int} (h : inInt64 x) : wrap64 x = x := by
  unfold inInt64 INT64_MIN INT64_MAX at h
  unfold wrap64
  omega

theorem wrap64_wrap64 (x : Int) : wrap64 (wrap64 x) = wrap64 x :=
  wrap64_of_inInt64 (inInt64_wrap64 x)

theorem wrap64_add_zero (x : Int) : wrap64 (wrap64 x + 0) = wrap64 x := by
  rw [add_zero, wrap64_wrap64]

/-! ## Rounding: bit length, nearest-even, monotonicity -/

theorem bitlenAux_spec (fuel : Nat) : ∀ n : Nat, n ≤ fuel →
    n < 2 ^ bitlenAux fuel n ∧ (n ≠ 0 → 2 ^ (bitlenAux fuel n - 1) ≤ n) := by
  induction fuel with
  | zero =>
    intro n hn
    have : n = 0 := by omega
    subst this
    simp [bitlenAux]
  | succ fuel ih =>
    intro n hn
    by_cases h0 : n = 0
    · subst h0
      simp [bitlenAux]
    · have hhalf : n / 2 ≤ fuel := by omega
      obtain ⟨h1, h2⟩ := ih (n / 2) hhalf
      simp only [bitlenAux, if_neg h0, Nat.add_sub_cancel]
      constructor
      · rw [pow_succ]; omega
      · intro _
        by_cases hh : n / 2 = 0
        · have hb : bitlenAux fuel (n / 2) = 0 := by
            rw [hh]; cases fuel <;> simp [bitlenAux]
          rw [hb]; simp; omega
        · have h3 := h2 hh
          have hpos : bitlenAux fuel (n / 2) ≠ 0 := by
            intro hz
            rw [hz] at h1
            simp at h1
            exact hh h1
          obtain ⟨b, hb⟩ := Nat.exists_eq_succ_of_ne_zero hpos
          rw [hb] at h3 ⊢
          simp only [Nat.succ_sub_one] at h3
          rw [Nat.succ_eq_add_one, pow_succ]
          omega

theorem lt_two_pow_bitlen (n : Nat) : n < 2 ^ bitlen n := (bitlenAux_spec n n le_rfl).1

theorem two_pow_bitlen_le {n : Nat} (h : n ≠ 0) : 2 ^ (bitlen n - 1) ≤ n :=
  (bitlenAux_spec n n le_rfl).2 h

theorem bitlen_le_of_lt {n k : Nat} (h : n < 2 ^ k) : bitlen n ≤ k := by
  by_cases h0 : n = 0
  · subst h0; simp [bitlen, bitlenAux]
  · have h1 := two_pow_bitlen_le h0
    have h2 : 2 ^ (bitlen n - 1) < 2 ^ k := lt_of_le_of_lt h1 h
    have h3 := (Nat.pow_lt_pow_iff_right (by decide : 1 < 2)).1 h2
    omega

theorem bitlen_mono {a b : Nat} (h : a ≤ b) : bitlen a ≤ bitlen b :=
  bitlen_le_of_lt (lt_of_le_of_lt h (lt_two_pow_bitlen b))

theorem bitlen_pos {n : Nat} (h : n ≠ 0) : 0 < bitlen n := by
  have := lt_two_pow_bitlen n
  by_contra hc
  have hz : bitlen n = 0 := by omega
  rw [hz] at this
  simp at this
  exact h this

theorem lt_bitlen_of_le {n k : Nat} (h : 2 ^ k ≤ n) : k < bitlen n := by
  have h2 : 2 ^ k < 2 ^ bitlen n := lt_of_le_of_lt h (lt_two_pow_bitlen n)
  exact (Nat.pow_lt_pow_iff_right (by decide : 1 < 2)).1 h2

theorem div_le_roundMant (N sh : Nat) : N / 2 ^ sh ≤ roundMant N sh := by
  unfold roundMant
  split_ifs <;> omega

theorem roundMant_le_div_succ (N sh : Nat) : roundMant N sh ≤ N / 2 ^ sh + 1 := by
  unfold roundMant
  split_ifs <;> omega

theorem roundMant_of_mod_eq_zero {N sh : Nat} (h : N % 2 ^ sh = 0) :
    roundMant N sh = N / 2 ^ sh := by
  have hP : 0 < 2 ^ sh := Nat.pow_pos (by decide)
  unfold roundMant
  rw [h]
  simp [hP]

theorem roundMant_mul_pow (c sh : Nat) : roundMant (c * 2 ^ sh) sh = c := by
  have hP : 0 < 2 ^ sh := Nat.pow_pos (by decide)
  rw [roundMant_of_mod_eq_zero (Nat.mul_mod_left c (2 ^ sh)), Nat.mul_div_cancel c hP]

/-- Rounding does not cross a multiple of the rounding unit, from below. -/
theorem le_roundMant_of_mul_le {c N sh : Nat} (h : c * 2 ^ sh ≤ N) : c ≤ roundMant N sh := by
  have hP : 0 < 2 ^ sh := Nat.pow_pos (by decide)
  exact le_trans ((Nat.le_div_iff_mul_le hP).2 h) (div_le_roundMant N sh)

/-- Rounding does not cross a multiple of the rounding unit, from above. -/
theorem roundMant_le_of_le_mul {c N sh : Nat} (h : N ≤ c * 2 ^ sh) : roundMant N sh ≤ c := by
  have hP : 0 < 2 ^ sh := Nat.pow_pos (by decide)
  rcases Nat.eq_or_lt_of_le h with heq | hlt
  · rw [heq, roundMant_mul_pow]
  · have : N / 2 ^ sh < c := (Nat.div_lt_iff_lt_mul hP).2 hlt
    have := roundMant_le_div_succ N sh
    omega

theorem roundMant_mono {N N' : Nat} (sh : Nat) (h : N ≤ N') :
    roundMant N sh ≤ roundMant N' sh := by
  have hP : 0 < 2 ^ sh := Nat.pow_pos (by decide)
  have hq : N / 2 ^ sh ≤ N' / 2 ^ sh := Nat.div_le_div_right h
  rcases Nat.eq_or_lt_of_le hq with heq | hlt
  · have e1 := Nat.div_add_mod N (2 ^ sh)
    have e2 := Nat.div_add_mod N' (2 ^ sh)
    rw [heq] at e1
    have hr : N % 2 ^ sh ≤ N' % 2 ^ sh := by omega
    unfold roundMant
    rw [heq]
    split_ifs <;> omega
  · have h1 := roundMant_le_div_succ N sh
    have h2 := div_le_roundMant N' sh
    omega

theorem roundShift_mono {N N' : Nat} (e : Int) (h : N ≤ N') :
    roundShift N e ≤ roundShift N' e := by
  have := bitlen_mono h
  unfold roundShift
  omega

theorem roundUnits_mono {N N' : Nat} (e : Int) (h : N ≤ N') :
    roundUnits N e ≤ roundUnits N' e := by
  unfold roundUnits
  rcases Nat.eq_or_lt_of_le (roundShift_mono e h) with heq | hlt
  · rw [heq]
    exact Nat.mul_le_mul_right _ (roundMant_mono _ h)
  · -- the two values are separated by a power of two
    generalize hs : roundShift N e = sh at hlt ⊢
    generalize hs' : roundShift N' e = sh' at hlt ⊢
    have hb' : bitlen N' = sh' + 53 := by
      unfold roundShift at hs hs'
      omega
    have hb : bitlen N ≤ sh' + 52 := by
      unfold roundShift at hs hs'
      omega
    have hN' : N' ≠ 0 := by
      intro h0
      rw [h0] at hb'
      simp [bitlen, bitlenAux] at hb'
    have hlow : 2 ^ (sh' + 52) ≤ N' := by
      have := two_pow_bitlen_le hN'
      rw [hb'] at this
      simpa using this
    have hup : N ≤ 2 ^ (sh' + 52) :=
      le_trans (le_of_lt (lt_two_pow_bitlen N)) (Nat.pow_le_pow_right (by decide) hb)
    have e1 : 2 ^ (sh' + 52) = 2 ^ (sh' + 52 - sh) * 2 ^ sh := by
      rw [← pow_add]; congr 1; omega
    have e2 : 2 ^ (sh' + 52) = 2 ^ 52 * 2 ^ sh' := by
      rw [Nat.add_comm sh' 52, pow_add]
    have hup' : N ≤ 2 ^ (sh' + 52 - sh) * 2 ^ sh := by rw [← e1]; exact hup
    have hlow' : 2 ^ 52 * 2 ^ sh' ≤ N' := by rw [← e2]; exact hlow
    have h1 : roundMant N sh ≤ 2 ^ (sh' + 52 - sh) := roundMant_le_of_le_mul hup'
    have h2 : 2 ^ 52 ≤ roundMant N' sh' := le_roundMant_of_mul_le hlow'
    calc roundMant N sh * 2 ^ sh ≤ 2 ^ (sh' + 52 - sh) * 2 ^ sh := Nat.mul_le_mul_right _ h1
      _ = 2 ^ 52 * 2 ^ sh' := by rw [← e1, e2]
      _ ≤ roundMant N' sh' * 2 ^ sh' := Nat.mul_le_mul_right _ h2

theorem truncMag_mono {m m' : Nat} (e : Int) (h : m ≤ m') : truncMag m e ≤ truncMag m' e := by
  unfold truncMag
  split_ifs
  · exact Nat.mul_le_mul_right _ h
  · exact Nat.div_le_div_right h

theorem truncMag_shift (m sh : Nat) (e : Int) :
    truncMag (m * 2 ^ sh) e = truncMag m (e + sh) := by
  unfold truncMag
  by_cases he : 0 ≤ e
  · have he' : 0 ≤ e + (sh : Int) := by omega
    rw [if_pos he, if_pos he', mul_assoc, ← pow_add]
    congr 2
    omega
  · rw [if_neg he]
    by_cases he' : 0 ≤ e + (sh : Int)
    · rw [if_pos he']
      have hsplit : sh = (e + sh).toNat + (-e).toNat := by omega
      have : m * 2 ^ sh = m * 2 ^ (e + sh).toNat * 2 ^ (-e).toNat := by
        rw [mul_assoc, ← pow_add, ← hsplit]
      rw [this, Nat.mul_div_cancel _ (Nat.pow_pos (by decide))]
    · rw [if_neg he']
      have hsplit : (-e).toNat = (-(e + sh)).toNat + sh := by omega
      rw [hsplit, pow_add, Nat.mul_div_mul_right _ _ (Nat.pow_pos (by decide))]

/-! ## Rounding: zero -/

theorem bitlen_zero : bitlen 0 = 0 := rfl

theorem roundMant_zero (sh : Nat) : roundMant 0 sh = 0 := by
  simp [roundMant]

theorem roundFin_zero (neg : Bool) (e : Int) :
    roundFin neg 0 e = Double.finite neg 0 (e + roundShift 0 e) := by
  simp [roundFin, roundMant_zero]

theorem ofInt64_zero : ofInt64 0 = Double.finite false 0 0 := by
  simp [ofInt64, roundMant_zero]

theorem toInt64_finite_zero (neg : Bool) (e : Int) : toInt64 (Double.finite neg 0 e) = 0 := by
  have h : truncMag 0 e = 0 := by simp [truncMag]
  cases neg <;> simp [toInt64, Double.trunc, h, inInt64, INT64_MIN, INT64_MAX]

/-- The product of a finite double with zero is a zero, and converts to 0. -/
theorem toInt64_fmul_zero_left (n1 : Bool) (e1 : Int) (n2 : Bool) (m2 : Nat) (e2 : Int) :
    toInt64 (fmul (Double.finite n1 0 e1) (Double.finite n2 m2 e2)) = 0 := by
  simp only [fmul, Nat.zero_mul, roundFin_zero, toInt64_finite_zero]

theorem toInt64_fmul_zero_right (n1 : Bool) (m1 : Nat) (e1 : Int) (n2 : Bool) (e2 : Int) :
    toInt64 (fmul (Double.finite n1 m1 e1) (Double.finite n2 0 e2)) = 0 := by
  simp only [fmul, Nat.mul_zero, roundFin_zero, toInt64_finite_zero]

/-! ## Re-anchoring -/

/-- C3: postcondition of `update_speed new_speed` called with the real readings
`(m, w)`: the Monotonic anchor becomes `(m, scale_monotonic_ns st m)`; the
WallClock anchor becomes `(w, scale_realtime_ns st w)` if wall-clock scaling is
enabled and is unchanged if not; the speed becomes `new_speed`; the
scale-realtime flag is unchanged. -/
theorem update_speed_postcondition (st : ClockState) (m w : Int) (new_speed : Double) :
    (update_speed st m w new_speed).g_real_base_mono_ns = m ∧
    (update_speed st m w new_speed).g_scaled_base_mono_ns = scale_monotonic_ns st m ∧
    (update_speed st m w new_speed).g_real_base_rt_ns
      = (if st.g_scale_realtime then w else st.g_real_base_rt_ns) ∧
    (update_speed st m w new_speed).g_scaled_base_rt_ns
      = (if st.g_scale_realtime then scale_realtime_ns st w else st.g_scaled_base_rt_ns) ∧
    (update_speed st m w new_speed).g_speed = new_speed ∧
    (update_speed st m w new_speed).g_scale_realtime = st.g_scale_realtime :=
  ⟨rfl, rfl, rfl, rfl, rfl, rfl⟩

/-- Reading the Monotonic domain at the new anchor, for a finite new speed. -/
theorem scale_monotonic_ns_at_anchor (st : ClockState) (m w : Int) (neg : Bool) (ms : Nat)
    (es : Int) :
    scale_monotonic_ns (update_speed st m w (Double.finite neg ms es)) m
      = scale_monotonic_ns st m := by
  have h0 : wrap64 (m - m) = 0 := by simp [wrap64]
  simp only [scale_monotonic_ns, update_speed, h0, ofInt64_zero, toInt64_fmul_zero_left,
    wrap64_add_zero]

/-- Reading the WallClock domain at the new anchor, for a finite new speed. -/
theorem scale_realtime_ns_at_anchor (st : ClockState) (m w : Int) (neg : Bool) (ms : Nat)
    (es : Int) (hrt : st.g_scale_realtime = true) :
    scale_realtime_ns (update_speed st m w (Double.finite neg ms es)) w
      = scale_realtime_ns st w := by
  have h0 : wrap64 (w - w) = 0 := by simp [wrap64]
  simp only [scale_realtime_ns, update_speed, hrt, if_true, h0, ofInt64_zero,
    toInt64_fmul_zero_left, wrap64_add_zero]

/-- C1 (amended): continuity. For every clock state, every finite new speed
`>= 0` and every pair of real readings handed to `update_speed`, the Monotonic
virtual time at `m` right after the update equals the one right before it, and
likewise for WallClock at `w` when wall-clock scaling is enabled. -/
theorem update_speed_continuous (st : ClockState) (m w : Int) (s : Double)
    (hs : s.ge0 = true) (hfin : s.isFinite = true) :
    scale_monotonic_ns (update_speed st m w s) m = scale_monotonic_ns st m ∧
    (st.g_scale_realtime = false ∨
      scale_realtime_ns (update_speed st m w s) w = scale_realtime_ns st w) := by
  cases s with
  | finite neg ms es =>
    refine ⟨scale_monotonic_ns_at_anchor st m w neg ms es, ?_⟩
    cases hrt : st.g_scale_realtime with
    | false => exact Or.inl rfl
    | true => exact Or.inr (scale_realtime_ns_at_anchor st m w neg ms es hrt)
  | inf neg => simp [Double.isFinite] at hfin
  | nan => simp [Double.isFinite] at hfin

/-- Witness of C1 (amended): doubling the speed of a freshly attached state. -/
theorem update_speed_continuous_witness :
    (float_of_bytes 0 0 0 64).ge0 = true ∧ (float_of_bytes 0 0 0 64).isFinite = true ∧
    scale_monotonic_ns (update_speed (init_state 1000 5000 true) 1700 5700
      (float_of_bytes 0 0 0 64)) 1700 = scale_monotonic_ns (init_state 1000 5000 true) 1700 :=
  ⟨by decide, by decide,
    (update_speed_continuous (init_state 1000 5000 true) 1700 5700 (float_of_bytes 0 0 0 64)
      (by decide) (by decide)).1⟩

/-- C1 (as stated) fails: the control message `00 00 80 7f` decodes to `+inf`,
which passes the `>= 0` test; after `update_speed` with it the Monotonic virtual
time at the very reading of the update is `INT64_MIN + 1700` instead of the
`1700` it was before. -/
theorem update_speed_inf_discontinuous :
    (float_of_bytes 0 0 128 127).ge0 = true ∧
    scale_monotonic_ns (init_state 1000 5000 false) 1700 = 1700 ∧
    scale_monotonic_ns (update_speed (init_state 1000 5000 false) 1700 5700
      (float_of_bytes 0 0 128 127)) 1700 = -9223372036854774108 := by
  decide

/-- Reading a frozen state: every read returns the old state's reading at the
freeze. -/
theorem scale_monotonic_ns_frozen (st : ClockState) (m w r : Int) (neg : Bool) (e : Int) :
    scale_monotonic_ns (update_speed st m w (Double.finite neg 0 e)) r
      = scale_monotonic_ns st m := by
  simp only [scale_monotonic_ns, update_speed, ofInt64, toInt64_fmul_zero_right,
    wrap64_add_zero]

/-- C6: freeze semantics. After `update_speed` with a zero speed at the
Monotonic reading `m`, `scale_monotonic_ns` returns, for every real reading `r`,
exactly the virtual time the old state gave at `m`; and every run of Monotonic
reads that follows, with no `update_speed` in between, returns that value at
every read. -/
theorem freeze_semantics (st : ClockState) (m w : Int) (neg : Bool) (e : Int) :
    (∀ r : Int, scale_monotonic_ns (update_speed st m w (Double.finite neg 0 e)) r
      = scale_monotonic_ns st m) ∧
    (∀ rs : List Int, run (update_speed st m w (Double.finite neg 0 e))
        (rs.map ClockEvent.read) = rs.map (fun _ => scale_monotonic_ns st m)) := by
  refine ⟨fun r => scale_monotonic_ns_frozen st m w r neg e, ?_⟩
  intro rs
  induction rs with
  | nil => rfl
  | cons r rs ih =>
    simp only [List.map_cons, run, scale_monotonic_ns_frozen]
    rw [ih]

/-! ## The product `(double)x * speed` and its truncation -/

theorem roundShift_zero_exp (n : Nat) : roundShift n 0 = bitlen n - 53 := by
  simp [roundShift, EMIN]

theorem ofInt64_eq (x : Int) :
    ofInt64 x = Double.finite (decide (x < 0)) (roundUnits x.natAbs 0) 0 := by
  simp only [ofInt64, roundUnits, roundShift_zero_exp]

theorem roundUnits_zero (e : Int) : roundUnits 0 e = 0 := by
  simp [roundUnits, roundMant_zero]

theorem truncMag_zero (e : Int) : truncMag 0 e = 0 := by
  simp [truncMag]

theorem mulMag_zero_right (n : Nat) (es : Int) : mulMag n 0 es = 0 := by
  simp [mulMag, roundUnits_zero, truncMag_zero]

theorem mulMag_mono {n n' : Nat} (ms : Nat) (es : Int) (h : n ≤ n') :
    mulMag n ms es ≤ mulMag n' ms es := by
  unfold mulMag
  exact truncMag_mono _ (roundUnits_mono _ (Nat.mul_le_mul_right _ (roundUnits_mono _ h)))

/-- Whenever rounding yields a finite double, its truncation is the truncation
of the rounded magnitude in the input's own unit. -/
theorem trunc_roundFin {neg : Bool} {N : Nat} {e : Int} {t : Int}
    (h : (roundFin neg N e).trunc = some t) :
    t = if neg then -(truncMag (roundUnits N e) e : Int) else (truncMag (roundUnits N e) e : Int) := by
  unfold roundFin at h
  simp only at h
  split_ifs at h with hov
  · simp [Double.trunc] at h
  · simp only [Double.trunc, Option.some.injEq] at h
    rw [← h]
    simp only [roundUnits, truncMag_shift]

theorem trunc_fmul_ofInt64 {x : Int} {ns : Bool} {ms : Nat} {es : Int} {t : Int}
    (h : (fmul (ofInt64 x) (Double.finite ns ms es)).trunc = some t) :
    t = if xor (decide (x < 0)) ns then -(mulMag x.natAbs ms es : Int)
        else (mulMag x.natAbs ms es : Int) := by
  rw [ofInt64_eq] at h
  simp only [fmul, zero_add] at h
  exact trunc_roundFin h

/-- The truncated product is monotone in the integer factor when the speed
is `>= 0`. -/
theorem trunc_fmul_mono {s : Double} (hs : s.ge0 = true) {x y : Int} (hxy : x ≤ y) {tx ty : Int}
    (hx : (fmul (ofInt64 x) s).trunc = some tx) (hy : (fmul (ofInt64 y) s).trunc = some ty) :
    tx ≤ ty := by
  cases s with
  | nan => simp [ofInt64, fmul, Double.trunc] at hx
  | inf n =>
    simp only [ofInt64, fmul] at hx
    split_ifs at hx <;> simp [Double.trunc] at hx
  | finite ns ms es =>
    have ex := trunc_fmul_ofInt64 hx
    have ey := trunc_fmul_ofInt64 hy
    by_cases hms : ms = 0
    · subst hms
      simp only [mulMag_zero_right] at ex ey
      simp at ex ey
      omega
    · have hns : ns = false := by
        simp only [Double.ge0, Bool.or_eq_true, Bool.not_eq_true', decide_eq_true_eq] at hs
        rcases hs with h | h
        · exact h
        · exact absurd h hms
      subst hns
      simp only [Bool.xor_false, decide_eq_true_eq] at ex ey
      by_cases hx0 : x < 0
      · by_cases hy0 : y < 0
        · rw [if_pos hx0] at ex
          rw [if_pos hy0] at ey
          have : y.natAbs ≤ x.natAbs := by omega
          have := mulMag_mono ms es this
          omega
        · rw [if_pos hx0] at ex
          rw [if_neg hy0] at ey
          omega
      · have hy0 : ¬ y < 0 := by omega
        rw [if_neg hx0] at ex
        rw [if_neg hy0] at ey
        have : x.natAbs ≤ y.natAbs := by omega
        have := mulMag_mono ms es this
        omega

/-- The truncated product of a non-negative integer with a speed `>= 0` is
non-negative. -/
theorem trunc_fmul_nonneg {s : Double} (hs : s.ge0 = true) {x : Int} (hx0 : 0 ≤ x) {t : Int}
    (hx : (fmul (ofInt64 x) s).trunc = some t) : 0 ≤ t := by
  cases s with
  | nan => simp [ofInt64, fmul, Double.trunc] at hx
  | inf n =>
    simp only [ofInt64, fmul] at hx
    split_ifs at hx <;> simp [Double.trunc] at hx
  | finite ns ms es =>
    have h0 : (fmul (ofInt64 0) (Double.finite ns ms es)).trunc = some 0 := by
      rw [ofInt64_zero]
      simp only [fmul, Nat.zero_mul, roundFin_zero, Double.trunc, truncMag_zero]
      simp
    exact trunc_fmul_mono hs hx0 h0 hx

theorem noOverflow_iff (rb vb : Int) (s : Double) (r : Int) :
    noOverflow rb vb s r ↔ inInt64 (r - rb) ∧
      ∃ t, (fmul (ofInt64 (r - rb)) s).trunc = some t ∧ inInt64 t ∧ inInt64 (vb + t) := by
  unfold noOverflow
  cases h : (fmul (ofInt64 (r - rb)) s).trunc with
  | none => simp
  | some t => simp

/-- Without overflow the machine computation is the exact affine formula. -/
theorem scale_eq_of_noOverflow {rb vb : Int} {s : Double} {r t : Int}
    (hd : inInt64 (r - rb)) (ht : (fmul (ofInt64 (r - rb)) s).trunc = some t)
    (h1 : inInt64 t) (h2 : inInt64 (vb + t)) :
    wrap64 (vb + toInt64 (fmul (ofInt64 (wrap64 (r - rb))) s)) = vb + t := by
  rw [wrap64_of_inInt64 hd]
  have : toInt64 (fmul (ofInt64 (r - rb)) s) = t := by
    simp only [toInt64, ht, if_pos h1]
  rw [this, wrap64_of_inInt64 h2]

/-! ## Monotonicity within one state -/

theorem ns_to_timespec_mono {a b : Int} (h : a ≤ b) :
    Timespec.le (ns_to_timespec a) (ns_to_timespec b) := by
  unfold Timespec.le ns_to_timespec
  split_ifs <;> dsimp only <;> omega

/-- Monotonicity of the affine transform where it does not overflow. -/
theorem scale_mono_of_noOverflow {rb vb : Int} {s : Double} (hs : s.ge0 = true) {r1 r2 : Int}
    (h12 : r1 ≤ r2) (h1 : noOverflow rb vb s r1) (h2 : noOverflow rb vb s r2) :
    wrap64 (vb + toInt64 (fmul (ofInt64 (wrap64 (r1 - rb))) s))
      ≤ wrap64 (vb + toInt64 (fmul (ofInt64 (wrap64 (r2 - rb))) s)) := by
  obtain ⟨hd1, t1, ht1, hr1, hv1⟩ := (noOverflow_iff rb vb s r1).1 h1
  obtain ⟨hd2, t2, ht2, hr2, hv2⟩ := (noOverflow_iff rb vb s r2).1 h2
  rw [scale_eq_of_noOverflow hd1 ht1 hr1 hv1, scale_eq_of_noOverflow hd2 ht2 hr2 hv2]
  have : t1 ≤ t2 := trunc_fmul_mono hs (by omega : r1 - rb ≤ r2 - rb) ht1 ht2
  omega

theorem clock_gettime_monotonic (st : ClockState) (clk_id : Int) (t buf : Timespec)
    (hclk : is_monotonic_clock clk_id = true) :
    clock_gettime st (some (fun _ _ => (0, some t))) clk_id (some buf)
      = (0, some (ns_to_timespec (scale_monotonic_ns st (timespec_to_ns t)))) := by
  simp [clock_gettime, hclk]

/-- C4 (amended): monotonicity within one state. For every clock state with
speed `>= 0` and every two real readings `r1 <= r2` whose transforms do not
overflow `int64_t`, `scale_monotonic_ns st r1 <= scale_monotonic_ns st r2`, and
the timespec `clock_gettime` returns on a Monotonic-class clock for a real
timespec of `r1` nanoseconds is not later than the one for `r2`. -/
theorem scale_monotonic_ns_mono (st : ClockState) (r1 r2 : Int)
    (hs : st.g_speed.ge0 = true) (h12 : r1 ≤ r2)
    (h1 : monoNoOverflow st r1) (h2 : monoNoOverflow st r2) :
    scale_monotonic_ns st r1 ≤ scale_monotonic_ns st r2 ∧
    ∀ (clk_id : Int) (t1 t2 buf : Timespec), is_monotonic_clock clk_id = true →
      timespec_to_ns t1 = r1 → timespec_to_ns t2 = r2 →
      ∃ o1 o2 : Timespec,
        clock_gettime st (some (fun _ _ => (0, some t1))) clk_id (some buf) = (0, some o1) ∧
        clock_gettime st (some (fun _ _ => (0, some t2))) clk_id (some buf) = (0, some o2) ∧
        Timespec.le o1 o2 := by
  have hm : scale_monotonic_ns st r1 ≤ scale_monotonic_ns st r2 :=
    scale_mono_of_noOverflow hs h12 h1 h2
  refine ⟨hm, ?_⟩
  intro clk_id t1 t2 buf hclk e1 e2
  refine ⟨_, _, clock_gettime_monotonic st clk_id t1 buf hclk,
    clock_gettime_monotonic st clk_id t2 buf hclk, ?_⟩
  rw [e1, e2]
  exact ns_to_timespec_mono hm

/-- Witness of C4 (amended): a state running at speed 2.0, read one and two
real seconds after its anchor. -/
theorem scale_monotonic_ns_mono_witness :
    (update_speed (init_state 1000 5000 false) 1700 5700 (float_of_bytes 0 0 0 64)).g_speed.ge0
      = true ∧
    scale_monotonic_ns (update_speed (init_state 1000 5000 false) 1700 5700
        (float_of_bytes 0 0 0 64)) 1000001700
      ≤ scale_monotonic_ns (update_speed (init_state 1000 5000 false) 1700 5700
        (float_of_bytes 0 0 0 64)) 2000001700 :=
  ⟨by decide,
    (scale_monotonic_ns_mono (update_speed (init_state 1000 5000 false) 1700 5700
      (float_of_bytes 0 0 0 64)) 1000001700 2000001700 (by decide) (by decide) (by decide)
      (by decide)).1⟩

/-- C4 (as stated) fails: in `fast_state` (speed `1e9`, anchored at nine real
seconds) the reading at the anchor is `9 * 10^18` ns, and the reading one real
second later wraps around `int64_t` to a negative value; `clock_gettime` returns
9000000000 s for the earlier reading and 0 s for the later one. -/
theorem scale_monotonic_ns_wraps :
    fast_state.g_speed.ge0 = true ∧
    scale_monotonic_ns fast_state 9000000000 = 9000000000000000000 ∧
    scale_monotonic_ns fast_state 10000000000 = -8446744073709551616 ∧
    clock_gettime fast_state (some (fun _ _ => (0, some { tv_sec := 9, tv_nsec := 0 })))
      CLOCK_MONOTONIC (some { tv_sec := 0, tv_nsec := 0 })
      = (0, some { tv_sec := 9000000000, tv_nsec := 0 }) ∧
    clock_gettime fast_state (some (fun _ _ => (0, some { tv_sec := 10, tv_nsec := 0 })))
      CLOCK_MONOTONIC (some { tv_sec := 0, tv_nsec := 0 })
      = (0, some { tv_sec := 0, tv_nsec := 0 }) := by
  decide

/-! ## Monotonicity across speed changes -/

theorem run_sorted_aux (evs : List ClockEvent) : ∀ (st : ClockState) (last lo : Int),
    (∀ r, last ≤ r → monoNoOverflow st r → lo ≤ scale_monotonic_ns st r) →
    st.g_speed.ge0 = true → runOk st last evs →
    (∀ v ∈ run st evs, lo ≤ v) ∧ (run st evs).Pairwise (fun a b => a ≤ b) := by
  induction evs with
  | nil =>
    intro st last lo _ _ _
    simp [run]
  | cons ev evs ih =>
    intro st last lo hlo hs hok
    cases ev with
    | read r =>
      obtain ⟨hlr, hno, hrest⟩ := hok
      have hv : lo ≤ scale_monotonic_ns st r := hlo r hlr hno
      have hnext : ∀ r', r ≤ r' → monoNoOverflow st r' →
          scale_monotonic_ns st r ≤ scale_monotonic_ns st r' :=
        fun r' hr' hno' => scale_mono_of_noOverflow hs hr' hno hno'
      obtain ⟨hall, hpair⟩ := ih st r (scale_monotonic_ns st r) hnext hs hrest
      simp only [run, List.mem_cons, List.pairwise_cons]
      refine ⟨?_, hall, hpair⟩
      intro v hvmem
      rcases hvmem with rfl | hmem
      · exact hv
      · exact le_trans hv (hall v hmem)
    | set_speed m w s =>
      obtain ⟨hlm, hsge, hno, hrest⟩ := hok
      have hbase : lo ≤ scale_monotonic_ns st m := hlo m hlm hno
      have hnext : ∀ r, m ≤ r → monoNoOverflow (update_speed st m w s) r →
          lo ≤ scale_monotonic_ns (update_speed st m w s) r := by
        intro r hr hno'
        obtain ⟨hd, t, ht, hr1, hv1⟩ := (noOverflow_iff _ _ _ _).1 hno'
        have hscale : scale_monotonic_ns (update_speed st m w s) r
            = scale_monotonic_ns st m + t := scale_eq_of_noOverflow hd ht hr1 hv1
        have ht0 : 0 ≤ t := trunc_fmul_nonneg hsge (by
          show 0 ≤ r - (update_speed st m w s).g_real_base_mono_ns
          simp only [update_speed]
          omega) ht
        rw [hscale]
        omega
      exact ih (update_speed st m w s) m lo hnext hsge hrest

/-- C5 (amended): Monotonic virtual time across speed changes. Starting from
the initial state (anchors equal, speed 1.0), for every finite sequence of
Monotonic reads and `update_speed` calls taken in one global order, with
non-decreasing real readings, every new speed `>= 0` and no computation of the
run overflowing `int64_t`, the sequence of virtual readings returned is
non-decreasing. -/
theorem virtual_time_monotone (mono_now rt_now : Int) (scale_rt : Bool) (evs : List ClockEvent)
    (hok : runOk (init_state mono_now rt_now scale_rt) mono_now evs) :
    (run (init_state mono_now rt_now scale_rt) evs).Pairwise (fun a b => a ≤ b) := by
  refine (run_sorted_aux evs (init_state mono_now rt_now scale_rt) mono_now INT64_MIN ?_ ?_ hok).2
  · intro r _ _
    exact (inInt64_wrap64 _).1
  · rfl

/-- Witness of C5 (amended): attach at one real second, read, double the
speed at two seconds, read at three, freeze at four, read at five. -/
theorem virtual_time_monotone_witness :
    runOk (init_state 1000000000 0 false) 1000000000
      [ClockEvent.read 1500000000,
       ClockEvent.set_speed 2000000000 1000000000 (float_of_bytes 0 0 0 64),
       ClockEvent.read 3000000000,
       ClockEvent.set_speed 4000000000 3000000000 (float_of_bytes 0 0 0 0),
       ClockEvent.read 5000000000] ∧
    (run (init_state 1000000000 0 false)
      [ClockEvent.read 1500000000,
       ClockEvent.set_speed 2000000000 1000000000 (float_of_bytes 0 0 0 64),
       ClockEvent.read 3000000000,
       ClockEvent.set_speed 4000000000 3000000000 (float_of_bytes 0 0 0 0),
       ClockEvent.read 5000000000]).Pairwise (fun a b => a ≤ b) :=
  ⟨⟨by decide, by decide, by decide, by decide, by decide, by decide, by decide, by decide,
      by decide, by decide, by decide, by decide, trivial⟩,
    virtual_time_monotone 1000000000 0 false _
      ⟨by decide, by decide, by decide, by decide, by decide, by decide, by decide, by decide,
        by decide, by decide, by decide, by decide, trivial⟩⟩

/-- C5 (as stated) fails: a process attached at real reading 0 receives the
speed `1e9` at reading 0, reads the clock nine real seconds later, receives
`1e9` again at that moment and reads the clock one real second later; the real
readings never decrease and both speeds are `>= 0`, yet the second virtual
reading is smaller than the first. -/
theorem virtual_time_goes_backwards :
    runReal 0
      [ClockEvent.set_speed 0 0 (float_of_bytes 40 107 110 78),
       ClockEvent.read 9000000000,
       ClockEvent.set_speed 9000000000 9000000000 (float_of_bytes 40 107 110 78),
       ClockEvent.read 10000000000] ∧
    run (init_state 0 0 false)
      [ClockEvent.set_speed 0 0 (float_of_bytes 40 107 110 78),
       ClockEvent.read 9000000000,
       ClockEvent.set_speed 9000000000 9000000000 (float_of_bytes 40 107 110 78),
       ClockEvent.read 10000000000]
      = [9000000000000000000, -8446744073709551616] :=
  ⟨⟨by decide, by decide, by decide, by decide, by decide, by decide, trivial⟩, by decide⟩

/-! ## Rounding in the range where every integer is representable -/

theorem roundMant_shift_zero (N : Nat) : roundMant N 0 = N := by
  simp [roundMant, Nat.mod_one]

theorem roundUnits_of_shift_zero {N : Nat} {e : Int} (h : roundShift N e = 0) :
    roundUnits N e = N := by
  simp [roundUnits, h, roundMant_shift_zero]

theorem roundUnits_small {n : Nat} (h : n < 2 ^ 53) : roundUnits n 0 = n := by
  apply roundUnits_of_shift_zero
  have := bitlen_le_of_lt h
  rw [roundShift_zero_exp]
  omega

/-- For a negative exponent `e = -k` and a value below `2^53`, at most `k`
bits are rounded away: the rounding unit is not coarser than 1. -/
theorem roundShift_le_of_small {N : Nat} {e : Int} (he : e < 0)
    (h : N < 2 ^ (53 + (-e).toNat)) : roundShift N e ≤ (-e).toNat := by
  have := bitlen_le_of_lt h
  unfold roundShift EMIN
  omega

/-- Floor and ceiling bounds of the truncated rounded value, negative
exponent. -/
theorem truncMag_roundUnits_bounds {N : Nat} {e : Int} (he : e < 0)
    (h : N < 2 ^ (53 + (-e).toNat)) :
    N / 2 ^ (-e).toNat ≤ truncMag (roundUnits N e) e ∧
    truncMag (roundUnits N e) e ≤ (N + 2 ^ (-e).toNat - 1) / 2 ^ (-e).toNat := by
  have hsh := roundShift_le_of_small he h
  generalize hk : (-e).toNat = k at hsh h ⊢
  generalize hs : roundShift N e = sh at hsh
  have hP : 0 < 2 ^ k := Nat.pow_pos (by decide)
  have hsplit : 2 ^ k = 2 ^ (k - sh) * 2 ^ sh := by
    rw [← pow_add]; congr 1; omega
  have htm : truncMag (roundUnits N e) e = roundMant N sh * 2 ^ sh / 2 ^ k := by
    unfold truncMag roundUnits
    rw [if_neg (by omega), hk, hs]
  rw [htm]
  constructor
  · -- floor
    rw [Nat.le_div_iff_mul_le hP]
    have h1 : N / 2 ^ k * 2 ^ k ≤ N := Nat.div_mul_le_self N (2 ^ k)
    have h2 : N / 2 ^ k * 2 ^ (k - sh) * 2 ^ sh ≤ N := by
      rw [mul_assoc, ← hsplit]; exact h1
    have h3 := le_roundMant_of_mul_le h2
    calc N / 2 ^ k * 2 ^ k = N / 2 ^ k * 2 ^ (k - sh) * 2 ^ sh := by rw [mul_assoc, ← hsplit]
      _ ≤ roundMant N sh * 2 ^ sh := Nat.mul_le_mul_right _ h3
  · -- ceiling
    have h1 : N ≤ (N + 2 ^ k - 1) / 2 ^ k * 2 ^ k := by
      have := Nat.div_add_mod (N + 2 ^ k - 1) (2 ^ k)
      have := Nat.mod_lt (N + 2 ^ k - 1) hP
      have e1 : (N + 2 ^ k - 1) / 2 ^ k * 2 ^ k = 2 ^ k * ((N + 2 ^ k - 1) / 2 ^ k) :=
        Nat.mul_comm _ _
      omega
    have h2 : N ≤ (N + 2 ^ k - 1) / 2 ^ k * 2 ^ (k - sh) * 2 ^ sh := by
      rw [mul_assoc, ← hsplit]; exact h1
    have h3 := roundMant_le_of_le_mul h2
    have h4 : roundMant N sh * 2 ^ sh ≤ (N + 2 ^ k - 1) / 2 ^ k * 2 ^ k := by
      calc roundMant N sh * 2 ^ sh ≤ (N + 2 ^ k - 1) / 2 ^ k * 2 ^ (k - sh) * 2 ^ sh :=
            Nat.mul_le_mul_right _ h3
        _ = (N + 2 ^ k - 1) / 2 ^ k * 2 ^ k := by rw [mul_assoc, ← hsplit]
    exact Nat.div_le_of_le_mul (by rw [Nat.mul_comm (2 ^ k)]; exact h4)

/-- In integer form: the truncated rounded value times `2^k` is within `2^k`
of `N`, strictly. -/
theorem truncMag_roundUnits_near {N : Nat} {e : Int} (he : e < 0)
    (h : N < 2 ^ (53 + (-e).toNat)) :
    N < truncMag (roundUnits N e) e * 2 ^ (-e).toNat + 2 ^ (-e).toNat ∧
    truncMag (roundUnits N e) e * 2 ^ (-e).toNat < N + 2 ^ (-e).toNat := by
  obtain ⟨h1, h2⟩ := truncMag_roundUnits_bounds he h
  generalize (-e).toNat = k at h1 h2 ⊢
  generalize truncMag (roundUnits N e) e = t at h1 h2 ⊢
  have hP : 0 < 2 ^ k := Nat.pow_pos (by decide)
  constructor
  · have a1 := Nat.div_add_mod N (2 ^ k)
    have a2 := Nat.mod_lt N hP
    have a3 : N / 2 ^ k * 2 ^ k ≤ t * 2 ^ k := Nat.mul_le_mul_right _ h1
    have a4 : N / 2 ^ k * 2 ^ k = 2 ^ k * (N / 2 ^ k) := Nat.mul_comm _ _
    omega
  · have b1 : t * 2 ^ k ≤ (N + 2 ^ k - 1) / 2 ^ k * 2 ^ k := Nat.mul_le_mul_right _ h2
    have b2 := Nat.div_mul_le_self (N + 2 ^ k - 1) (2 ^ k)
    omega

theorem two_zpow_of_nonneg {e : Int} (he : 0 ≤ e) :
    (2 : ℚ) ^ e = ((2 ^ e.toNat : ℕ) : ℚ) := by
  obtain ⟨k, rfl⟩ := Int.eq_ofNat_of_zero_le he
  simp

theorem two_zpow_of_neg {e : Int} (he : e < 0) :
    (2 : ℚ) ^ e = ((2 : ℚ) ^ (-e).toNat)⁻¹ := by
  have hk : e = -((-e).toNat : ℤ) := by omega
  conv_lhs => rw [hk]
  rw [zpow_neg, zpow_natCast]

theorem smallVal_of_rat {N : Nat} {e : Int} (h : (N : ℚ) * (2 : ℚ) ^ e < 2 ^ 53) :
    smallVal N e := by
  unfold smallVal
  split_ifs with he
  · have e1 : (2 : ℚ) ^ e = ((2 ^ e.toNat : ℕ) : ℚ) := two_zpow_of_nonneg he
    rw [e1] at h
    have h' : ((N * 2 ^ e.toNat : ℕ) : ℚ) < ((2 ^ 53 : ℕ) : ℚ) := by
      push_cast; push_cast at h; exact h
    exact_mod_cast h'
  · have hk : e = -((-e).toNat : ℤ) := by omega
    have hP : (0 : ℚ) < 2 ^ (-e).toNat := by positivity
    have e1 : (2 : ℚ) ^ e = ((2 : ℚ) ^ (-e).toNat)⁻¹ := two_zpow_of_neg (by omega)
    rw [e1, ← div_eq_mul_inv, div_lt_iff₀ hP] at h
    have h' : ((N : ℕ) : ℚ) < ((2 ^ (53 + (-e).toNat) : ℕ) : ℚ) := by
      push_cast; rw [pow_add]; exact h
    exact_mod_cast h'

/-- Below `2^53` rounding never overflows to infinity. -/
theorem roundFin_of_smallVal (neg : Bool) {N : Nat} {e : Int} (h : smallVal N e) :
    roundFin neg N e
      = Double.finite neg (roundMant N (roundShift N e)) (e + roundShift N e) := by
  unfold roundFin
  simp only
  rw [if_neg]
  rintro ⟨hm, hov⟩
  unfold smallVal at h
  split_ifs at h with he
  · have hN : N < 2 ^ 53 :=
      lt_of_le_of_lt (Nat.le_mul_of_pos_right N (Nat.pow_pos (by decide))) h
    have hb := bitlen_le_of_lt hN
    have hsh : roundShift N e = 0 := by
      unfold roundShift EMIN; omega
    rw [hsh, roundMant_shift_zero] at hov hm
    have h1 := two_pow_bitlen_le hm
    have h2 : 2 ^ (bitlen N - 1) * 2 ^ e.toNat < 2 ^ 53 :=
      lt_of_le_of_lt (Nat.mul_le_mul_right _ h1) h
    rw [← pow_add] at h2
    have h3 := (Nat.pow_lt_pow_iff_right (by decide : 1 < 2)).1 h2
    omega
  · have he' : e < 0 := by omega
    have hsh := roundShift_le_of_small he' h
    generalize roundShift N e = sh at hsh hov hm
    generalize hk : (-e).toNat = k at hsh h
    have hsplit : 2 ^ (53 + k) = 2 ^ (53 + k - sh) * 2 ^ sh := by
      rw [← pow_add]; congr 1; omega
    have h1 : roundMant N sh ≤ 2 ^ (53 + k - sh) :=
      roundMant_le_of_le_mul (by rw [← hsplit]; exact le_of_lt h)
    have h2 : roundMant N sh < 2 ^ (53 + k - sh + 1) :=
      lt_of_le_of_lt h1 (Nat.pow_lt_pow_right (by decide) (by omega))
    have h3 := bitlen_le_of_lt h2
    omega

/-- Below `2^53` the truncated rounded value is within one unit of the exact
value. -/
theorem truncMag_roundUnits_rat {N : Nat} {e : Int} (h : smallVal N e) :
    |((truncMag (roundUnits N e) e : ℕ) : ℚ) - (N : ℚ) * (2 : ℚ) ^ e| < 1 := by
  unfold smallVal at h
  split_ifs at h with he
  · have hN : N < 2 ^ 53 :=
      lt_of_le_of_lt (Nat.le_mul_of_pos_right N (Nat.pow_pos (by decide))) h
    have hb := bitlen_le_of_lt hN
    have hsh : roundShift N e = 0 := by
      unfold roundShift EMIN; omega
    rw [roundUnits_of_shift_zero hsh]
    have e1 : (2 : ℚ) ^ e = ((2 ^ e.toNat : ℕ) : ℚ) := two_zpow_of_nonneg he
    unfold truncMag
    rw [if_pos he, e1]
    push_cast
    simp
  · have he' : e < 0 := by omega
    obtain ⟨h1, h2⟩ := truncMag_roundUnits_near he' h
    generalize truncMag (roundUnits N e) e = t at h1 h2 ⊢
    have hk : e = -((-e).toNat : ℤ) := by omega
    have e1 : (2 : ℚ) ^ e = ((2 : ℚ) ^ (-e).toNat)⁻¹ := two_zpow_of_neg (by omega)
    generalize (-e).toNat = k at h1 h2 e1
    have hP : (0 : ℚ) < 2 ^ k := by positivity
    have q1 : (N : ℚ) < (t : ℚ) * 2 ^ k + 2 ^ k := by exact_mod_cast h1
    have q2 : (t : ℚ) * 2 ^ k < (N : ℚ) + 2 ^ k := by exact_mod_cast h2
    rw [e1, ← div_eq_mul_inv, abs_lt]
    constructor
    · have : (N : ℚ) / 2 ^ k < t + 1 := by
        rw [div_lt_iff₀ hP]; linarith
      linarith
    · have : (t : ℚ) - 1 < (N : ℚ) / 2 ^ k := by
        rw [lt_div_iff₀ hP]; linarith
      linarith

/-! ## Affine correctness -/

theorem gt0_finite {s : Double} (hpos : s.gt0 = true) (hfin : s.isFinite = true) :
    ∃ ms es, ms ≠ 0 ∧ s = Double.finite false ms es := by
  cases s with
  | nan => simp [Double.isFinite] at hfin
  | inf n => simp [Double.isFinite] at hfin
  | finite ns ms es =>
    simp only [Double.gt0, Bool.and_eq_true, Bool.not_eq_true', decide_eq_true_eq] at hpos
    obtain ⟨h1, h2⟩ := hpos
    subst h1
    exact ⟨ms, es, h2, rfl⟩

/-- The product `(double)x * speed` truncated, for a positive finite speed and
operands below `2^53`: a finite double whose truncation is within one of the
exact product. -/
theorem trunc_fmul_near {x : Int} {ms : Nat} {es : Int} (hx : x.natAbs < 2 ^ 53)
    (hprod : (x.natAbs : ℚ) * ((ms : ℚ) * (2 : ℚ) ^ es) < 2 ^ 53) :
    ∃ t : Int, (fmul (ofInt64 x) (Double.finite false ms es)).trunc = some t ∧
      |(t : ℚ) - (x : ℚ) * ((ms : ℚ) * (2 : ℚ) ^ es)| < 1 := by
  have hsmall : smallVal (x.natAbs * ms) es := by
    apply smallVal_of_rat
    push_cast
    rw [mul_assoc]
    exact hprod
  have hnear := truncMag_roundUnits_rat hsmall
  have hfm : fmul (ofInt64 x) (Double.finite false ms es)
      = Double.finite (decide (x < 0)) (roundMant (x.natAbs * ms) (roundShift (x.natAbs * ms) es))
          (es + roundShift (x.natAbs * ms) es) := by
    rw [ofInt64_eq, roundUnits_small hx]
    simp only [fmul, zero_add, Bool.xor_false]
    exact roundFin_of_smallVal _ hsmall
  have htr : truncMag (roundMant (x.natAbs * ms) (roundShift (x.natAbs * ms) es))
      (es + roundShift (x.natAbs * ms) es) = truncMag (roundUnits (x.natAbs * ms) es) es := by
    rw [roundUnits, truncMag_shift]
  generalize truncMag (roundUnits (x.natAbs * ms) es) es = T at hnear htr
  rw [hfm]
  simp only [Double.trunc, htr, decide_eq_true_eq]
  push_cast at hnear
  by_cases hx0 : x < 0
  · refine ⟨-(T : Int), by rw [if_pos hx0], ?_⟩
    have hxabs : (x : ℚ) = -((x.natAbs : ℕ) : ℚ) := by
      rw [Nat.cast_natAbs, abs_of_neg hx0]
      push_cast; ring
    rw [hxabs]
    have : ((-(T : Int) : ℤ) : ℚ) - -((x.natAbs : ℕ) : ℚ) * ((ms : ℚ) * 2 ^ es)
        = -((T : ℚ) - (x.natAbs : ℚ) * (ms : ℚ) * 2 ^ es) := by
      push_cast; ring
    rw [this, abs_neg]
    exact hnear
  · refine ⟨(T : Int), by rw [if_neg hx0], ?_⟩
    have hxabs : (x : ℚ) = ((x.natAbs : ℕ) : ℚ) := by
      rw [Nat.cast_natAbs, abs_of_nonneg (by omega : 0 ≤ x)]
    rw [hxabs]
    have : (((T : Int) : ℤ) : ℚ) - ((x.natAbs : ℕ) : ℚ) * ((ms : ℚ) * 2 ^ es)
        = (T : ℚ) - (x.natAbs : ℚ) * (ms : ℚ) * 2 ^ es := by
      push_cast; ring
    rw [this]
    exact hnear

theorem inInt64_of_near {t : Int} {x : ℚ} (hx : |x| < 2 ^ 53) (ht : |(t : ℚ) - x| < 1) :
    inInt64 t := by
  rw [abs_lt] at hx ht
  have h1 : (t : ℚ) < 2 ^ 53 + 1 := by linarith [hx.2, ht.2]
  have h2 : -(2 ^ 53 + 1 : ℚ) < (t : ℚ) := by linarith [hx.1, ht.1]
  have h1' : t < 2 ^ 53 + 1 := by exact_mod_cast h1
  have h2' : -(2 ^ 53 + 1) < t := by exact_mod_cast h2
  unfold inInt64 INT64_MIN INT64_MAX
  constructor <;> omega

theorem between_floor_ceil {t : Int} {x : ℚ} (ht : |(t : ℚ) - x| < 1) : ⌊x⌋ ≤ t ∧ t ≤ ⌈x⌉ := by
  rw [abs_lt] at ht
  constructor
  · have h1 : ((⌊x⌋ : ℤ) : ℚ) ≤ x := Int.floor_le x
    have h2 : ((⌊x⌋ : ℤ) : ℚ) < (t : ℚ) + 1 := by linarith [ht.1]
    have h3 : ⌊x⌋ < t + 1 := by exact_mod_cast h2
    omega
  · have h1 : x ≤ ((⌈x⌉ : ℤ) : ℚ) := Int.le_ceil x
    have h2 : (t : ℚ) < ((⌈x⌉ : ℤ) : ℚ) + 1 := by linarith [ht.2]
    have h3 : t < ⌈x⌉ + 1 := by exact_mod_cast h2
    omega

/-- The affine transform on an anchor `(rb, vb)` with a positive finite speed,
for a delta and a product below `2^53` and a result inside `int64_t`. -/
theorem affine_near (rb vb : Int) (s : Double) (D : Int)
    (hpos : s.gt0 = true) (hfin : s.isFinite = true)
    (hD : D.natAbs < 2 ^ 53) (hprod : (D.natAbs : ℚ) * s.toRat < 2 ^ 53)
    (hlo : inInt64 (vb + ⌊(D : ℚ) * s.toRat⌋)) (hhi : inInt64 (vb + ⌈(D : ℚ) * s.toRat⌉)) :
    |((wrap64 (vb + toInt64 (fmul (ofInt64 (wrap64 (rb + D - rb))) s)) : ℤ) : ℚ)
        - ((vb : ℚ) + (D : ℚ) * s.toRat)| < 1 := by
  obtain ⟨ms, es, hms, rfl⟩ := gt0_finite hpos hfin
  have hrat : (Double.finite false ms es).toRat = (ms : ℚ) * (2 : ℚ) ^ es := by
    simp [Double.toRat]
  rw [hrat] at hprod hlo hhi ⊢
  obtain ⟨t, ht, hnear⟩ := trunc_fmul_near hD hprod
  have hDr : inInt64 D := by
    unfold inInt64 INT64_MIN INT64_MAX
    have : (2 : Nat) ^ 53 = 9007199254740992 := by norm_num
    omega
  have hsub : rb + D - rb = D := by omega
  have hxabs : |(D : ℚ) * ((ms : ℚ) * (2 : ℚ) ^ es)| < 2 ^ 53 := by
    have hnn : (0 : ℚ) ≤ (ms : ℚ) * (2 : ℚ) ^ es := by positivity
    rw [abs_mul, abs_of_nonneg hnn]
    have : |(D : ℚ)| = ((D.natAbs : ℕ) : ℚ) := by
      rw [Nat.cast_natAbs]; push_cast; rfl
    rw [this]
    exact hprod
  have htr : inInt64 t := inInt64_of_near hxabs hnear
  obtain ⟨hfl, hcl⟩ := between_floor_ceil hnear
  have hsum : inInt64 (vb + t) := by
    unfold inInt64 at hlo hhi ⊢
    constructor <;> omega
  rw [hsub] at *
  have hscale := @scale_eq_of_noOverflow 0 vb (Double.finite false ms es) D t
    (by simpa using hDr) (by simpa using ht) htr hsum
  simp only [sub_zero] at hscale
  rw [hscale]
  have : (((vb + t : ℤ)) : ℚ) - ((vb : ℚ) + (D : ℚ) * ((ms : ℚ) * (2 : ℚ) ^ es))
      = (t : ℚ) - (D : ℚ) * ((ms : ℚ) * (2 : ℚ) ^ es) := by
    push_cast; ring
  rw [this]
  exact hnear

/-- C2 (amended): affine correctness. For every finite speed `> 0`, every
anchor and every delta `D` such that `|D|` and `|D| * speed` are below `2^53`
and `virtual_base + D * speed`, rounded down and rounded up, is inside
`int64_t`, `scale_monotonic_ns (real_base + D)` differs from the exact value
`virtual_base + D * speed` by less than one nanosecond, and is `virtual_base`
exactly when `D = 0`. -/
theorem scale_monotonic_ns_affine (st : ClockState) (D : Int)
    (hpos : st.g_speed.gt0 = true) (hfin : st.g_speed.isFinite = true)
    (hD : D.natAbs < 2 ^ 53) (hprod : (D.natAbs : ℚ) * st.g_speed.toRat < 2 ^ 53)
    (hlo : inInt64 (st.g_scaled_base_mono_ns + ⌊(D : ℚ) * st.g_speed.toRat⌋))
    (hhi : inInt64 (st.g_scaled_base_mono_ns + ⌈(D : ℚ) * st.g_speed.toRat⌉)) :
    |((scale_monotonic_ns st (st.g_real_base_mono_ns + D) : ℤ) : ℚ)
        - ((st.g_scaled_base_mono_ns : ℚ) + (D : ℚ) * st.g_speed.toRat)| < 1 ∧
    (D ≠ 0 ∨ scale_monotonic_ns st (st.g_real_base_mono_ns + D) = st.g_scaled_base_mono_ns) := by
  have hmain := affine_near st.g_real_base_mono_ns st.g_scaled_base_mono_ns st.g_speed D
    hpos hfin hD hprod hlo hhi
  refine ⟨hmain, ?_⟩
  by_cases hD0 : D = 0
  · right
    subst hD0
    have h : |((scale_monotonic_ns st (st.g_real_base_mono_ns + 0) : ℤ) : ℚ)
        - ((st.g_scaled_base_mono_ns : ℚ) + ((0 : ℤ) : ℚ) * st.g_speed.toRat)| < 1 := hmain
    simp only [Int.cast_zero, zero_mul, add_zero] at h ⊢
    have h' : |(((scale_monotonic_ns st st.g_real_base_mono_ns
        - st.g_scaled_base_mono_ns : ℤ)) : ℚ)| < 1 := by
      push_cast
      exact h
    have h'' : |scale_monotonic_ns st st.g_real_base_mono_ns
        - st.g_scaled_base_mono_ns| < 1 := by exact_mod_cast h'
    rw [abs_lt] at h''
    omega
  · left; exact hD0

theorem double_state_speed : double_state.g_speed = Double.finite false 8388608 (-22) := by
  decide

theorem double_state_toRat : double_state.g_speed.toRat = 2 := by
  rw [double_state_speed]
  norm_num [Double.toRat]

theorem thousand_state_speed : thousand_state.g_speed = Double.finite false 16384000 (-14) := by
  decide

theorem thousand_state_toRat : thousand_state.g_speed.toRat = 1000 := by
  rw [thousand_state_speed]
  norm_num [Double.toRat]

/-- Witness of C2 (amended): speed 2.0, three nanoseconds after the anchor. -/
theorem scale_monotonic_ns_affine_witness :
    |((scale_monotonic_ns double_state (double_state.g_real_base_mono_ns + 3) : ℤ) : ℚ)
        - ((double_state.g_scaled_base_mono_ns : ℚ) + ((3 : ℤ) : ℚ) * double_state.g_speed.toRat)|
      < 1 :=
  (scale_monotonic_ns_affine double_state 3 (by decide) (by decide) (by decide)
    (by rw [double_state_toRat]; norm_num)
    (by
      rw [double_state_toRat]
      have : ⌊((3 : ℤ) : ℚ) * 2⌋ = 6 := by
        rw [Int.floor_eq_iff]; norm_num
      rw [this]; decide)
    (by
      rw [double_state_toRat]
      have : ⌈((3 : ℤ) : ℚ) * 2⌉ = 6 := by
        rw [Int.ceil_eq_iff]; norm_num
      rw [this]; decide)).1

/-- C2 (as stated) fails: at speed 1000.0 with the anchor `(0, 0)`, one day and
one nanosecond after the anchor the exact virtual time is 86400000000001000 ns
but `scale_monotonic_ns` returns 86400000000000992, eight nanoseconds less. -/
theorem scale_monotonic_ns_affine_fails :
    thousand_state.g_speed.gt0 = true ∧
    thousand_state.g_real_base_mono_ns = 0 ∧
    thousand_state.g_scaled_base_mono_ns = 0 ∧
    thousand_state.g_speed.toRat = 1000 ∧
    scale_monotonic_ns thousand_state (0 + 86400000000001) = 86400000000000992 ∧
    ¬ |((scale_monotonic_ns thousand_state
            (thousand_state.g_real_base_mono_ns + 86400000000001) : ℤ) : ℚ)
        - ((thousand_state.g_scaled_base_mono_ns : ℚ)
            + ((86400000000001 : ℤ) : ℚ) * thousand_state.g_speed.toRat)| < 1 := by
  have h1 : thousand_state.g_real_base_mono_ns = 0 := by decide
  have h2 : thousand_state.g_scaled_base_mono_ns = 0 := by decide
  have h3 : scale_monotonic_ns thousand_state (0 + 86400000000001) = 86400000000000992 := by
    decide
  refine ⟨by decide, h1, h2, thousand_state_toRat, h3, ?_⟩
  rw [h1, h2, h3, thousand_state_toRat]
  norm_num

/-! ## Control channel: framing -/

theorem messages_of_short {l : List Nat} (h : l.length < 4) : messages l = [] := by
  match l, h with
  | [], _ => rfl
  | [_], _ => rfl
  | [_, _], _ => rfl
  | [_, _, _], _ => rfl
  | _ :: _ :: _ :: _ :: _, h => simp at h; omega

theorem messages_append_four {l : List Nat} (h : l.length = 4) (rest : List Nat) :
    messages (l ++ rest) = l :: messages rest := by
  match l, h with
  | [b0, b1, b2, b3], _ => rfl

theorem writeBuf_length {buf : List Nat} {k : Nat} {bs : List Nat} (hb : buf.length = 4)
    (hk : k + bs.length ≤ 4) : (writeBuf buf k bs).length = 4 := by
  simp only [writeBuf, List.length_append, List.length_take, List.length_drop, hb]
  omega

theorem writeBuf_take {buf : List Nat} {k : Nat} {bs : List Nat} (hb : buf.length = 4)
    (hk : k + bs.length ≤ 4) : (writeBuf buf k bs).take (k + bs.length) = buf.take k ++ bs := by
  have hlen : (buf.take k ++ bs).length = k + bs.length := by
    simp only [List.length_append, List.length_take, hb]
    omega
  unfold writeBuf
  rw [← hlen, List.take_left]

theorem writeBuf_full {buf : List Nat} {k : Nat} {bs : List Nat} (hb : buf.length = 4)
    (hk : k + bs.length = 4) : writeBuf buf k bs = buf.take k ++ bs := by
  unfold writeBuf
  rw [hk, List.drop_of_length_le (by omega), List.append_nil]

/-- The invariant of the inner read loop: the buffers decoded are the ones
decoded before, followed by the messages of the pending bytes and the bytes
still to be delivered. -/
theorem read_loop_decoded (evs : List ReadEvent) : ∀ ls : LoopState,
    ls.buf.length = 4 → ls.received < 4 → readsOk ls.received evs →
    (read_loop ls evs).decoded
      = ls.decoded ++ messages (ls.buf.take ls.received ++ delivered evs) := by
  induction evs with
  | nil =>
    intro ls hb hr _
    have hshort : (ls.buf.take ls.received ++ delivered []).length < 4 := by
      simp only [delivered, List.append_nil, List.length_take, hb]
      omega
    simp [read_loop, messages_of_short hshort]
  | cons ev evs ih =>
    intro ls hb hr hok
    have hpend : (ls.buf.take ls.received).length < 4 := by
      simp only [List.length_take, hb]
      omega
    cases hres : ev.result with
    | eof => simp [read_loop, read_step, delivered, hres, messages_of_short hpend]
    | error => simp [read_loop, read_step, delivered, hres, messages_of_short hpend]
    | eintr =>
      have hok' : readsOk ls.received evs := by
        simpa [readsOk, hres] using hok
      simp only [read_loop, read_step, delivered, hres]
      exact ih ls hb hr hok'
    | data bs =>
      simp only [readsOk, hres] at hok
      obtain ⟨hlen, hok'⟩ := hok
      by_cases h0 : bs.length = 0
      · simp [read_loop, read_step, delivered, hres, h0, messages_of_short hpend]
      · by_cases h4 : ls.received + bs.length = 4
        · simp only [read_loop, read_step, delivered, hres, h0, h4, if_true, if_false]
          rw [h4] at hok'
          have hwl := writeBuf_length hb (le_of_eq h4)
          rw [ih _ hwl (Nat.succ_pos 3) hok']
          simp only [List.take_zero, List.nil_append]
          rw [← List.append_assoc (ls.buf.take ls.received) bs, ← writeBuf_full hb h4,
            messages_append_four hwl]
          simp
        · have hlt : ls.received + bs.length < 4 := by omega
          simp only [read_loop, read_step, delivered, hres, h0, h4, if_false]
          rw [Nat.mod_eq_of_lt hlt] at hok'
          have hwl := writeBuf_length hb (le_of_lt hlt)
          rw [ih _ hwl hlt hok']
          simp only
          rw [writeBuf_take hb (le_of_lt hlt), List.append_assoc]

theorem serve_connection_decoded (st : ClockState) (c : Connection) (hb : c.buf0.length = 4)
    (hok : readsOk 0 c.events) :
    (serve_connection st c).2 = messages (delivered c.events) := by
  have h := read_loop_decoded c.events
    { st := st, buf := c.buf0, received := 0, decoded := [] } hb (Nat.succ_pos 3) hok
  simpa [serve_connection] using h

/-- C8: message framing is independent of how reads are split. For every
sequence of connections whose `read` calls respect the contract of `read`
(whatever the split into short reads and the interleaved interrupted reads),
the buffers the read loop decodes are exactly the consecutive 4-byte chunks of
each connection's byte stream, connection by connection: a trailing fragment of
fewer than 4 bytes is discarded and does not carry over. -/
theorem framing_independent_of_splits (cs : List Connection) :
    ∀ st : ClockState, (∀ c ∈ cs, c.buf0.length = 4 ∧ readsOk 0 c.events) →
    (serve st cs).2 = (cs.map (fun c => messages (delivered c.events))).flatten := by
  induction cs with
  | nil => intro st _; rfl
  | cons c cs ih =>
    intro st h
    have hc := h c (List.mem_cons_self c cs)
    have hrest : ∀ c' ∈ cs, c'.buf0.length = 4 ∧ readsOk 0 c'.events :=
      fun c' hc' => h c' (List.mem_cons_of_mem c hc')
    simp only [serve, List.map_cons, List.flatten_cons]
    rw [serve_connection_decoded st c hc.1 hc.2, ih _ hrest]

/-- Witness of C8: two connections, the first delivered in short reads and
ending in a three-byte fragment. -/
theorem framing_independent_of_splits_witness :
    (∀ c ∈ [conn_split, conn_whole], c.buf0.length = 4 ∧ readsOk 0 c.events) ∧
    (serve (init_state 0 0 false) [conn_split, conn_whole]).2
      = ([conn_split, conn_whole].map (fun c => messages (delivered c.events))).flatten ∧
    ([conn_split, conn_whole].map (fun c => messages (delivered c.events))).flatten
      = [[0, 0, 0, 64], [0, 0, 128, 63]] :=
  have h : ∀ c ∈ [conn_split, conn_whole], c.buf0.length = 4 ∧ readsOk 0 c.events := by
    intro c hc
    simp only [List.mem_cons, List.mem_singleton, List.not_mem_nil, or_false] at hc
    rcases hc with rfl | rfl
    · exact ⟨rfl, by simp [conn_split, readsOk]⟩
    · exact ⟨rfl, by simp [conn_whole, readsOk]⟩
  ⟨h, framing_independent_of_splits [conn_split, conn_whole] (init_state 0 0 false) h, by decide⟩

/-! ## Control channel: which values are applied -/

theorem ge0_false_of_lt0 {d : Double} (h : d.lt0 = true) : d.ge0 = false := by
  cases d with
  | nan => simp [Double.lt0] at h
  | inf n => simpa [Double.lt0, Double.ge0] using h
  | finite n m e =>
    simp only [Double.lt0, Bool.and_eq_true, decide_eq_true_eq] at h
    simp [Double.ge0, h.1, h.2]

/-- C7: control values are applied iff they are `>= 0`. When a read completes a
4-byte message `b0 b1 b2 b3` (however the earlier bytes of the message were
delivered), the loop does not break, starts the next message with
`received = 0` and goes on to process the later reads of the connection; if
the decoded float is negative the clock state is unchanged; if it is `>= 0`
the clock state is the one `update_speed` produces and its speed is that
value; and whenever it is not `>= 0` (negative or NaN) the clock state is
unchanged, so a value is applied if and only if it is `>= 0`. -/
theorem control_message_applied (ls : LoopState) (ev : ReadEvent) (bs : List Nat)
    (b0 b1 b2 b3 : Nat) (hb : ls.buf.length = 4) (hres : ev.result = ReadResult.data bs)
    (hne : bs ≠ []) (hmsg : ls.buf.take ls.received ++ bs = [b0, b1, b2, b3]) :
    ∃ ls1 : LoopState, read_step ls ev = some ls1 ∧ ls1.received = 0 ∧
      (∀ rest, read_loop ls (ev :: rest) = read_loop ls1 rest) ∧
      ((float_of_bytes b0 b1 b2 b3).lt0 = true → ls1.st = ls.st) ∧
      ((float_of_bytes b0 b1 b2 b3).ge0 = true →
        ls1.st = update_speed ls.st ev.now_real_mono ev.now_real_rt (float_of_bytes b0 b1 b2 b3) ∧
        ls1.st.g_speed = float_of_bytes b0 b1 b2 b3) ∧
      ((float_of_bytes b0 b1 b2 b3).ge0 = false → ls1.st = ls.st) := by
  have hlen0 : bs.length ≠ 0 := by
    intro h
    exact hne (List.length_eq_zero.1 h)
  have hlen : ls.received + bs.length = 4 := by
    have h := congrArg List.length hmsg
    simp only [List.length_append, List.length_take, hb, List.length_cons, List.length_nil] at h
    omega
  have hw : writeBuf ls.buf ls.received bs = [b0, b1, b2, b3] := by
    rw [writeBuf_full hb hlen, hmsg]
  have hf : float_of_buf [b0, b1, b2, b3] = float_of_bytes b0 b1 b2 b3 := rfl
  have hstep : read_step ls ev = some
      { st := if (float_of_bytes b0 b1 b2 b3).ge0
              then update_speed ls.st ev.now_real_mono ev.now_real_rt (float_of_bytes b0 b1 b2 b3)
              else ls.st
        buf := [b0, b1, b2, b3]
        received := 0
        decoded := ls.decoded ++ [[b0, b1, b2, b3]] } := by
    simp only [read_step, hres, hlen0, hlen, if_true, if_false, hw, hf]
  refine ⟨_, hstep, rfl, ?_, ?_, ?_, ?_⟩
  · intro rest
    simp only [read_loop, hstep]
  · intro hneg
    simp only [ge0_false_of_lt0 hneg]
    rfl
  · intro hge
    simp only [hge, if_true]
    exact ⟨trivial, rfl⟩
  · intro hnge
    simp only [hnge]
    rfl

/-- Witness of C7: the message `-1.0` arriving in one read at the start of a
connection leaves the clock state unchanged and the loop running, and so does
the NaN message `00 00 c0 7f`, which is neither negative nor `>= 0`. -/
theorem control_message_applied_witness :
    (float_of_bytes 0 0 128 191).lt0 = true ∧
    (∃ ls1 : LoopState, read_step fresh_loop minus_one_event = some ls1 ∧ ls1.received = 0 ∧
      (∀ rest, read_loop fresh_loop (minus_one_event :: rest) = read_loop ls1 rest) ∧
      ((float_of_bytes 0 0 128 191).lt0 = true → ls1.st = fresh_loop.st) ∧
      ((float_of_bytes 0 0 128 191).ge0 = true →
        ls1.st = update_speed fresh_loop.st minus_one_event.now_real_mono
          minus_one_event.now_real_rt (float_of_bytes 0 0 128 191) ∧
        ls1.st.g_speed = float_of_bytes 0 0 128 191) ∧
      ((float_of_bytes 0 0 128 191).ge0 = false → ls1.st = fresh_loop.st)) ∧
    float_of_bytes 0 0 192 127 = Double.nan ∧
    (float_of_bytes 0 0 192 127).lt0 = false ∧ (float_of_bytes 0 0 192 127).ge0 = false ∧
    (∃ ls1 : LoopState, read_step fresh_loop nan_event = some ls1 ∧ ls1.st = fresh_loop.st) :=
  ⟨by decide,
    control_message_applied fresh_loop minus_one_event [0, 0, 128, 191] 0 0 128 191 rfl rfl
      (by decide) rfl,
    by decide, by decide, by decide,
    (control_message_applied fresh_loop nan_event [0, 0, 192, 127] 0 0 192 127 rfl rfl
      (by decide) rfl).imp
      (fun _ h => ⟨h.1, h.2.2.2.2.2 (by decide)⟩)⟩

/-! ## Rounding a quotient -/

/-- The truncated rounded value is at least every integer below the exact
value (negative exponent, value below `2^53`). -/
theorem le_truncMag_roundUnits {N : Nat} {e : Int} (he : e < 0)
    (h : N < 2 ^ (53 + (-e).toNat)) {j : Nat} (hj : j * 2 ^ (-e).toNat ≤ N) :
    j ≤ truncMag (roundUnits N e) e := by
  have hsh := roundShift_le_of_small he h
  generalize hk : (-e).toNat = k at hsh h hj
  generalize hs : roundShift N e = sh at hsh
  have hP : 0 < 2 ^ k := Nat.pow_pos (by decide)
  have hsplit : 2 ^ k = 2 ^ (k - sh) * 2 ^ sh := by
    rw [← pow_add]; congr 1; omega
  have htm : truncMag (roundUnits N e) e = roundMant N sh * 2 ^ sh / 2 ^ k := by
    unfold truncMag roundUnits
    rw [if_neg (by omega), hk, hs]
  rw [htm, Nat.le_div_iff_mul_le hP]
  have h2 : j * 2 ^ (k - sh) * 2 ^ sh ≤ N := by
    rw [mul_assoc, ← hsplit]; exact hj
  have h3 := le_roundMant_of_mul_le h2
  calc j * 2 ^ k = j * 2 ^ (k - sh) * 2 ^ sh := by rw [mul_assoc, ← hsplit]
    _ ≤ roundMant N sh * 2 ^ sh := Nat.mul_le_mul_right _ h3

/-- The truncated rounded value is at most every integer above the exact
value (negative exponent, value below `2^53`). -/
theorem truncMag_roundUnits_le {N : Nat} {e : Int} (he : e < 0)
    (h : N < 2 ^ (53 + (-e).toNat)) {j : Nat} (hj : N ≤ j * 2 ^ (-e).toNat) :
    truncMag (roundUnits N e) e ≤ j := by
  have hsh := roundShift_le_of_small he h
  generalize hk : (-e).toNat = k at hsh h hj
  generalize hs : roundShift N e = sh at hsh
  have hP : 0 < 2 ^ k := Nat.pow_pos (by decide)
  have hsplit : 2 ^ k = 2 ^ (k - sh) * 2 ^ sh := by
    rw [← pow_add]; congr 1; omega
  have htm : truncMag (roundUnits N e) e = roundMant N sh * 2 ^ sh / 2 ^ k := by
    unfold truncMag roundUnits
    rw [if_neg (by omega), hk, hs]
  rw [htm]
  have h2 : N ≤ j * 2 ^ (k - sh) * 2 ^ sh := by
    rw [mul_assoc, ← hsplit]; exact hj
  have h3 := roundMant_le_of_le_mul h2
  have h4 : roundMant N sh * 2 ^ sh ≤ j * 2 ^ k := by
    calc roundMant N sh * 2 ^ sh ≤ j * 2 ^ (k - sh) * 2 ^ sh := Nat.mul_le_mul_right _ h3
      _ = j * 2 ^ k := by rw [mul_assoc, ← hsplit]
  exact Nat.div_le_of_le_mul (by rw [Nat.mul_comm (2 ^ k)]; exact h4)

/-- The quotient with a sticky bit is at least every even number below twice
the exact quotient `A / ms`. -/
theorem sticky_lower {A ms c : Nat} (hms : 0 < ms) (h : c * ms ≤ A) :
    2 * c ≤ 2 * (A / ms) + (if A % ms = 0 then 0 else 1) := by
  have : c ≤ A / ms := (Nat.le_div_iff_mul_le hms).2 h
  omega

/-- The quotient with a sticky bit is at most every even number above twice
the exact quotient `A / ms`. -/
theorem sticky_upper {A ms c : Nat} (h : A ≤ c * ms) :
    2 * (A / ms) + (if A % ms = 0 then 0 else 1) ≤ 2 * c := by
  have h1 : A / ms ≤ c := Nat.div_le_of_le_mul (by rw [Nat.mul_comm]; exact h)
  split_ifs with hr
  · omega
  · have h2 : A / ms ≠ c := by
      intro heq
      have h3 := Nat.div_add_mod A ms
      rw [heq, Nat.mul_comm] at h3
      have : 0 < A % ms := Nat.pos_of_ne_zero hr
      omega
    omega

theorem sticky_lt {A ms c : Nat} (hms : 0 < ms) (h : A < c * ms) :
    2 * (A / ms) + (if A % ms = 0 then 0 else 1) < 2 * c := by
  have h1 : A / ms < c := (Nat.div_lt_iff_lt_mul hms).2 h
  split_ifs <;> omega

/-- The quotient `n / (ms * 2^es)` as a quotient of two naturals, once the
exponent is split as `es = k - (K + 1)`. -/
theorem quot_eq_nat_div (n ms k K : Nat) (es : Int) (hes : es = (k : Int) - ((K : Int) + 1)) :
    (n : ℚ) / ((ms : ℚ) * (2 : ℚ) ^ es)
      = ((n * 2 ^ (K + 1) : ℕ) : ℚ) / ((ms * 2 ^ k : ℕ) : ℚ) := by
  have h2 : (2 : ℚ) ^ es = (2 : ℚ) ^ k / (2 : ℚ) ^ (K + 1) := by
    rw [hes, zpow_sub₀ (two_ne_zero), zpow_natCast]
    congr 1
    have : ((K : Int) + 1) = ((K + 1 : ℕ) : Int) := by push_cast; rfl
    rw [this, zpow_natCast]
  have hK : (0 : ℚ) < (2 : ℚ) ^ (K + 1) := by positivity
  rw [h2]
  push_cast
  field_simp

/-- A quotient below `2^53` of a positive integer by a positive double leaves
at least four fraction bits in the extended quotient. -/
theorem quot_exp_pos {n ms : Nat} {es : Int} (hn : n ≠ 0) (hms : ms ≠ 0)
    (hq : (n : ℚ) / ((ms : ℚ) * (2 : ℚ) ^ es) < 2 ^ 53) :
    1 ≤ es + ((bitlen ms + 55 : ℕ) : Int) + 1 := by
  by_contra hcon
  have hes : es < 0 := by omega
  have hmsq : (0 : ℚ) < (ms : ℚ) := by exact_mod_cast Nat.pos_of_ne_zero hms
  have hP : (0 : ℚ) < (2 : ℚ) ^ (-es).toNat := by positivity
  rw [two_zpow_of_neg hes, ← div_eq_mul_inv, div_div_eq_mul_div, div_lt_iff₀ hmsq] at hq
  have hq' : ((n * 2 ^ (-es).toNat : ℕ) : ℚ) < ((2 ^ 53 * ms : ℕ) : ℚ) := by
    push_cast; exact hq
  have hqn : n * 2 ^ (-es).toNat < 2 ^ 53 * ms := by exact_mod_cast hq'
  have hms2 : ms < 2 ^ bitlen ms := lt_two_pow_bitlen ms
  have h1 : 2 ^ (bitlen ms + 56) ≤ 2 ^ (-es).toNat :=
    Nat.pow_le_pow_right (by decide) (by omega)
  have h2 : 2 ^ (-es).toNat ≤ n * 2 ^ (-es).toNat :=
    Nat.le_mul_of_pos_left _ (Nat.pos_of_ne_zero hn)
  have h3 : 2 ^ 53 * ms < 2 ^ 53 * 2 ^ bitlen ms :=
    Nat.mul_lt_mul_of_pos_left hms2 (Nat.pow_pos (by decide))
  have h4 : 2 ^ 53 * 2 ^ bitlen ms ≤ 2 ^ (bitlen ms + 56) := by
    rw [← pow_add]
    exact Nat.pow_le_pow_right (by decide) (by omega)
  omega

/-- The extended quotient with its sticky bit, rounded and truncated, is
within one of the exact quotient when that is below `2^53`. -/
theorem divMag_near {n ms : Nat} {es : Int} (hn : n ≠ 0) (hms : ms ≠ 0)
    (hq : (n : ℚ) / ((ms : ℚ) * (2 : ℚ) ^ es) < 2 ^ 53) :
    smallVal (2 * (n * 2 ^ (bitlen ms + 55) / ms)
        + (if n * 2 ^ (bitlen ms + 55) % ms = 0 then 0 else 1))
      (0 - es - ((bitlen ms + 55 : ℕ) : Int) - 1) ∧
    |((truncMag (roundUnits (2 * (n * 2 ^ (bitlen ms + 55) / ms)
          + (if n * 2 ^ (bitlen ms + 55) % ms = 0 then 0 else 1))
          (0 - es - ((bitlen ms + 55 : ℕ) : Int) - 1))
        (0 - es - ((bitlen ms + 55 : ℕ) : Int) - 1) : ℕ) : ℚ)
      - (n : ℚ) / ((ms : ℚ) * (2 : ℚ) ^ es)| < 1 := by
  have hk1 := quot_exp_pos hn hms hq
  have hmpos : 0 < ms := Nat.pos_of_ne_zero hms
  generalize hK : bitlen ms + 55 = K at hk1 ⊢
  generalize he' : 0 - es - (K : Int) - 1 = e'
  have hneg : e' < 0 := by omega
  obtain ⟨k, hk⟩ : ∃ k : Nat, (-e').toNat = k + 1 := ⟨(-e').toNat - 1, by omega⟩
  have hqeq := quot_eq_nat_div n ms (k + 1) K es (by omega)
  have hden : (0 : ℚ) < ((ms * 2 ^ (k + 1) : ℕ) : ℚ) := by
    have : 0 < ms * 2 ^ (k + 1) := Nat.mul_pos hmpos (Nat.pow_pos (by decide))
    exact_mod_cast this
  have hq0 : (0 : ℚ) ≤ (n : ℚ) / ((ms : ℚ) * (2 : ℚ) ^ es) := by positivity
  generalize hA : n * 2 ^ K = A
  have hA2 : n * 2 ^ (K + 1) = 2 * A := by rw [← hA, pow_succ]; ring
  generalize hN : 2 * (A / ms) + (if A % ms = 0 then 0 else 1) = N
  -- the value is small
  have hI1 : 2 * A < 2 ^ 53 * (ms * 2 ^ (k + 1)) := by
    rw [hqeq, div_lt_iff₀ hden] at hq
    have hq' : ((n * 2 ^ (K + 1) : ℕ) : ℚ) < ((2 ^ 53 * (ms * 2 ^ (k + 1)) : ℕ) : ℚ) := by
      push_cast; push_cast at hq; exact hq
    rw [← hA2]
    exact_mod_cast hq'
  have hNlt : N < 2 ^ (53 + (k + 1)) := by
    have h1 : A < 2 ^ (52 + (k + 1)) * ms := by
      have e1 : 2 ^ 53 * (ms * 2 ^ (k + 1)) = 2 * (2 ^ (52 + (k + 1)) * ms) := by
        rw [pow_add 2 52 (k + 1)]; ring
      omega
    have h2 := sticky_lt hmpos h1
    rw [hN] at h2
    have e2 : 2 ^ (53 + (k + 1)) = 2 * 2 ^ (52 + (k + 1)) := by
      rw [show 53 + (k + 1) = (52 + (k + 1)) + 1 from by omega, pow_succ]; ring
    omega
  have hsmall : smallVal N e' := by
    unfold smallVal
    rw [if_neg (by omega), hk]
    exact hNlt
  refine ⟨hsmall, ?_⟩
  have hNlt' : N < 2 ^ (53 + (-e').toNat) := by rw [hk]; exact hNlt
  -- lower and upper bounds against naturals
  have hlow : ∀ j : Nat, (j : ℚ) ≤ (n : ℚ) / ((ms : ℚ) * (2 : ℚ) ^ es) →
      j ≤ truncMag (roundUnits N e') e' := by
    intro j hj
    rw [hqeq, le_div_iff₀ hden] at hj
    have hj' : ((j * (ms * 2 ^ (k + 1)) : ℕ) : ℚ) ≤ ((n * 2 ^ (K + 1) : ℕ) : ℚ) := by
      push_cast; push_cast at hj; exact hj
    have hjn : j * (ms * 2 ^ (k + 1)) ≤ n * 2 ^ (K + 1) := by exact_mod_cast hj'
    have e1 : j * (ms * 2 ^ (k + 1)) = 2 * (j * 2 ^ k * ms) := by rw [pow_succ]; ring
    have h1 : j * 2 ^ k * ms ≤ A := by omega
    have h2 := sticky_lower hmpos h1
    rw [hN] at h2
    apply le_truncMag_roundUnits hneg hNlt'
    rw [hk]
    have e2 : j * 2 ^ (k + 1) = 2 * (j * 2 ^ k) := by rw [pow_succ]; ring
    omega
  have hupp : ∀ j : Nat, (n : ℚ) / ((ms : ℚ) * (2 : ℚ) ^ es) ≤ (j : ℚ) →
      truncMag (roundUnits N e') e' ≤ j := by
    intro j hj
    rw [hqeq, div_le_iff₀ hden] at hj
    have hj' : ((n * 2 ^ (K + 1) : ℕ) : ℚ) ≤ ((j * (ms * 2 ^ (k + 1)) : ℕ) : ℚ) := by
      push_cast; push_cast at hj; exact hj
    have hjn : n * 2 ^ (K + 1) ≤ j * (ms * 2 ^ (k + 1)) := by exact_mod_cast hj'
    have e1 : j * (ms * 2 ^ (k + 1)) = 2 * (j * 2 ^ k * ms) := by rw [pow_succ]; ring
    have h1 : A ≤ j * 2 ^ k * ms := by omega
    have h2 := sticky_upper h1
    rw [hN] at h2
    apply truncMag_roundUnits_le hneg hNlt'
    rw [hk]
    have e2 : j * 2 ^ (k + 1) = 2 * (j * 2 ^ k) := by rw [pow_succ]; ring
    omega
  generalize (n : ℚ) / ((ms : ℚ) * (2 : ℚ) ^ es) = q at hq0 hlow hupp
  generalize truncMag (roundUnits N e') e' = T at hlow hupp
  have h1 : (⌊q⌋₊ : ℚ) ≤ (T : ℚ) := by exact_mod_cast hlow _ (Nat.floor_le hq0)
  have h2 : (T : ℚ) ≤ (⌈q⌉₊ : ℚ) := by exact_mod_cast hupp _ (Nat.le_ceil q)
  have h3 : q < (⌊q⌋₊ : ℚ) + 1 := Nat.lt_floor_add_one q
  have h4 : (⌈q⌉₊ : ℚ) < q + 1 := Nat.ceil_lt_add_one hq0
  rw [abs_lt]
  constructor <;> linarith

/-- The quotient `(double)x / speed` truncated, for a positive finite speed and
operands below `2^53`: a finite double whose truncation is within one of the
exact quotient. -/
theorem trunc_fdiv_near {x : Int} {ms : Nat} {es : Int} (hms : ms ≠ 0)
    (hx : x.natAbs < 2 ^ 53)
    (hq : (x.natAbs : ℚ) / ((ms : ℚ) * (2 : ℚ) ^ es) < 2 ^ 53) :
    ∃ t : Int, (fdiv (ofInt64 x) (Double.finite false ms es)).trunc = some t ∧
      |(t : ℚ) - (x : ℚ) / ((ms : ℚ) * (2 : ℚ) ^ es)| < 1 := by
  rw [ofInt64_eq, roundUnits_small hx]
  simp only [fdiv, if_neg hms, Bool.xor_false]
  by_cases hn : x.natAbs = 0
  · have hx0 : x = 0 := Int.natAbs_eq_zero.1 hn
    subst hx0
    refine ⟨0, ?_, by simp⟩
    simp [roundFin_zero, Double.trunc, truncMag_zero]
  · obtain ⟨hsmall, hnear⟩ := divMag_near hn hms hq
    rw [roundFin_of_smallVal _ hsmall]
    have htr := fun (N : Nat) (e : Int) => truncMag_shift (roundMant N (roundShift N e))
      (roundShift N e) e
    simp only [Double.trunc, ← htr, decide_eq_true_eq]
    rw [← roundUnits] at *
    generalize truncMag (roundUnits _ _) _ = T at hnear ⊢
    by_cases hx0 : x < 0
    · refine ⟨-(T : Int), by rw [if_pos hx0], ?_⟩
      have hxabs : (x : ℚ) = -((x.natAbs : ℕ) : ℚ) := by
        rw [Nat.cast_natAbs, abs_of_neg hx0]
        push_cast; ring
      rw [hxabs]
      have : ((-(T : Int) : ℤ) : ℚ) - -((x.natAbs : ℕ) : ℚ) / ((ms : ℚ) * 2 ^ es)
          = -((T : ℚ) - (x.natAbs : ℚ) / ((ms : ℚ) * 2 ^ es)) := by
        push_cast; ring
      rw [this, abs_neg]
      exact hnear
    · refine ⟨(T : Int), by rw [if_neg hx0], ?_⟩
      have hxabs : (x : ℚ) = ((x.natAbs : ℕ) : ℚ) := by
        rw [Nat.cast_natAbs, abs_of_nonneg (by omega : 0 ≤ x)]
      rw [hxabs]
      exact_mod_cast hnear

/-! ## Relative sleeps -/

theorem le0_false_of_gt0 {d : Double} (h : d.gt0 = true) : d.le0 = false := by
  cases d with
  | nan => simp [Double.gt0] at h
  | inf n => simpa [Double.gt0, Double.le0] using h
  | finite n m e =>
    simp only [Double.gt0, Bool.and_eq_true, Bool.not_eq_true', decide_eq_true_eq] at h
    simp [Double.le0, h.1, h.2]

/-- The real duration the sleep dispatchers compute, for a finite speed `> 0`
and operands below `2^53`. -/
theorem sleep_duration_near (s : Double) (d : Int) (hpos : s.gt0 = true)
    (hfin : s.isFinite = true) (hd : d.natAbs < 2 ^ 53)
    (hq : (d.natAbs : ℚ) / s.toRat < 2 ^ 53) :
    |((toInt64 (fdiv (ofInt64 d) s) : ℤ) : ℚ) - (d : ℚ) / s.toRat| < 1 := by
  obtain ⟨ms, es, hms, rfl⟩ := gt0_finite hpos hfin
  have hrat : (Double.finite false ms es).toRat = (ms : ℚ) * (2 : ℚ) ^ es := by
    simp [Double.toRat]
  rw [hrat] at hq ⊢
  obtain ⟨t, ht, hnear⟩ := trunc_fdiv_near hms hd hq
  have hqabs : |(d : ℚ) / ((ms : ℚ) * (2 : ℚ) ^ es)| < 2 ^ 53 := by
    have hnn : (0 : ℚ) < (ms : ℚ) * (2 : ℚ) ^ es := by
      have : (0 : ℚ) < (ms : ℚ) := by exact_mod_cast Nat.pos_of_ne_zero hms
      positivity
    rw [abs_div, abs_of_pos hnn]
    have : |(d : ℚ)| = ((d.natAbs : ℕ) : ℚ) := by
      rw [Nat.cast_natAbs]; push_cast; rfl
    rw [this]
    exact hq
  have htr : inInt64 t := inInt64_of_near hqabs hnear
  have : toInt64 (fdiv (ofInt64 d) (Double.finite false ms es)) = t := by
    simp only [toInt64, ht, if_pos htr]
  rw [this]
  exact hnear

theorem ns_to_timespec_of_nonneg {a : Int} (h : 0 ≤ a) :
    ns_to_timespec a = { tv_sec := a / 1000000000, tv_nsec := a % 1000000000 } := by
  unfold ns_to_timespec
  rw [if_neg (by omega)]

theorem ns_to_timespec_of_nonpos {a : Int} (h : a ≤ 0) :
    ns_to_timespec a = { tv_sec := 0, tv_nsec := 0 } := by
  unfold ns_to_timespec
  split_ifs with h0
  · rfl
  · have : a = 0 := by omega
    subst this
    rfl

theorem toRat_pos_of_gt0 {s : Double} (hpos : s.gt0 = true) (hfin : s.isFinite = true) :
    0 < s.toRat := by
  obtain ⟨ms, es, hms, rfl⟩ := gt0_finite hpos hfin
  have : (0 : ℚ) < (ms : ℚ) := by exact_mod_cast Nat.pos_of_ne_zero hms
  simp only [Double.toRat, Bool.false_eq_true, if_false, one_mul]
  positivity

/-- C9 (amended): relative sleep scaling. For every non-null request `rq` of
`d_req = timespec_to_ns rq` virtual nanoseconds, `nanosleep` (and
`clock_nanosleep` without the absolute flag) passes the request itself to the
real sleep when the sampled speed is `<= 0`; when the speed is finite and `> 0`
and `|d_req|` and `|d_req| / speed` are below `2^53`, a request `d_req >= 0` is
issued as a real sleep of `a div 10^9` seconds and `a mod 10^9` nanoseconds for
an integer `a >= 0` within one nanosecond of `d_req / speed`, and a negative
request is issued as a real sleep of zero length; the return code is the real
sleep's return code. -/
theorem relative_sleep_scaling (st : ClockState) (rq : Timespec) (rem : Option Timespec)
    (u : Timespec) (real : nanosleep_fn) (realc : clock_nanosleep_fn) (clk_id flags : Int)
    (hrel : timer_abstime flags = false) :
    (st.g_speed.le0 = true →
      nanosleep st (some real) (some rq) rem u = real (some rq) rem ∧
      clock_nanosleep st (some realc) clk_id flags (some rq) rem u
        = realc clk_id flags (some rq) rem) ∧
    (st.g_speed.gt0 = true → st.g_speed.isFinite = true →
      (timespec_to_ns rq).natAbs < 2 ^ 53 →
      ((timespec_to_ns rq).natAbs : ℚ) / st.g_speed.toRat < 2 ^ 53 →
      (0 ≤ timespec_to_ns rq →
        ∃ a : Int, 0 ≤ a ∧ |(a : ℚ) - (timespec_to_ns rq : ℚ) / st.g_speed.toRat| < 1 ∧
          (nanosleep st (some real) (some rq) rem u).1
            = (real (some { tv_sec := a / 1000000000, tv_nsec := a % 1000000000 })
                (if rem = none then none else some u)).1 ∧
          (clock_nanosleep st (some realc) clk_id flags (some rq) rem u).1
            = (realc clk_id flags
                (some { tv_sec := a / 1000000000, tv_nsec := a % 1000000000 })
                (if rem = none then none else some u)).1) ∧
      (timespec_to_ns rq < 0 →
        (nanosleep st (some real) (some rq) rem u).1
          = (real (some { tv_sec := 0, tv_nsec := 0 })
              (if rem = none then none else some u)).1 ∧
        (clock_nanosleep st (some realc) clk_id flags (some rq) rem u).1
          = (realc clk_id flags (some { tv_sec := 0, tv_nsec := 0 })
              (if rem = none then none else some u)).1)) := by
  constructor
  · intro hle
    simp [nanosleep, clock_nanosleep, get_speed, hle, hrel]
  · intro hpos hfin hd hq
    have hnear := sleep_duration_near st.g_speed _ hpos hfin hd hq
    have hs := toRat_pos_of_gt0 hpos hfin
    have hn : (nanosleep st (some real) (some rq) rem u).1
        = (real (some (ns_to_timespec
            (toInt64 (fdiv (ofInt64 (timespec_to_ns rq)) st.g_speed))))
            (if rem = none then none else some u)).1 := by
      simp only [nanosleep, get_speed, le0_false_of_gt0 hpos, Bool.false_eq_true, if_false]
      split_ifs <;> rfl
    have hc : (clock_nanosleep st (some realc) clk_id flags (some rq) rem u).1
        = (realc clk_id flags (some (ns_to_timespec
            (toInt64 (fdiv (ofInt64 (timespec_to_ns rq)) st.g_speed))))
            (if rem = none then none else some u)).1 := by
      simp only [clock_nanosleep, get_speed, le0_false_of_gt0 hpos, hrel, Bool.false_eq_true,
        if_false]
      split_ifs <;> rfl
    generalize toInt64 (fdiv (ofInt64 (timespec_to_ns rq)) st.g_speed) = a at hnear hn hc
    rw [abs_lt] at hnear
    constructor
    · intro hd0
      have hq0 : (0 : ℚ) ≤ (timespec_to_ns rq : ℚ) / st.g_speed.toRat :=
        div_nonneg (by exact_mod_cast hd0) (le_of_lt hs)
      have ha : (-1 : ℚ) < (a : ℚ) := by linarith [hnear.1]
      have ha0 : 0 ≤ a := by
        have : -1 < a := by exact_mod_cast ha
        omega
      rw [ns_to_timespec_of_nonneg ha0] at hn hc
      exact ⟨a, ha0, abs_lt.2 hnear, hn, hc⟩
    · intro hd0
      have hq0 : (timespec_to_ns rq : ℚ) / st.g_speed.toRat < 0 :=
        div_neg_of_neg_of_pos (by exact_mod_cast hd0) hs
      have ha : (a : ℚ) < 1 := by linarith [hnear.2]
      have ha0 : a ≤ 0 := by
        have : a < 1 := by exact_mod_cast ha
        omega
      rw [ns_to_timespec_of_nonpos ha0] at hn hc
      exact ⟨hn, hc⟩

theorem nudged_state_toRat : nudged_state.g_speed.toRat = 8388609 / 8388608 := by
  have : nudged_state.g_speed = Double.finite false 8388609 (-23) := by decide
  rw [this]
  norm_num [Double.toRat]

/-- Witness of C9 (amended): a one-second request at speed 0.0 is passed on
unchanged; at speed 2.0 it is issued as a real sleep within one nanosecond of
half a second, and a request of minus one second as a real sleep of zero
length. -/
theorem relative_sleep_scaling_witness :
    timer_abstime 0 = false ∧
    nanosleep frozen_state (some echo_nanosleep) (some { tv_sec := 1, tv_nsec := 0 }) none
        { tv_sec := 0, tv_nsec := 0 }
      = echo_nanosleep (some { tv_sec := 1, tv_nsec := 0 }) none ∧
    (∃ a : Int, 0 ≤ a ∧ |(a : ℚ) - (timespec_to_ns { tv_sec := 1, tv_nsec := 0 } : ℚ)
          / double_state.g_speed.toRat| < 1 ∧
      (nanosleep double_state (some echo_nanosleep) (some { tv_sec := 1, tv_nsec := 0 }) none
          { tv_sec := 0, tv_nsec := 0 }).1
        = (echo_nanosleep (some { tv_sec := a / 1000000000, tv_nsec := a % 1000000000 })
            (if (none : Option Timespec) = none then none
              else some { tv_sec := 0, tv_nsec := 0 })).1 ∧
      (clock_nanosleep double_state (some echo_clock_nanosleep) 1 0
          (some { tv_sec := 1, tv_nsec := 0 }) none { tv_sec := 0, tv_nsec := 0 }).1
        = (echo_clock_nanosleep 1 0
            (some { tv_sec := a / 1000000000, tv_nsec := a % 1000000000 })
            (if (none : Option Timespec) = none then none
              else some { tv_sec := 0, tv_nsec := 0 })).1) ∧
    (nanosleep double_state (some echo_nanosleep) (some { tv_sec := -1, tv_nsec := 0 }) none
        { tv_sec := 0, tv_nsec := 0 }).1
      = (echo_nanosleep (some { tv_sec := 0, tv_nsec := 0 })
          (if (none : Option Timespec) = none then none
            else some { tv_sec := 0, tv_nsec := 0 })).1 :=
  ⟨by decide,
    ((relative_sleep_scaling frozen_state { tv_sec := 1, tv_nsec := 0 } none
      { tv_sec := 0, tv_nsec := 0 } echo_nanosleep echo_clock_nanosleep 1 0 (by decide)).1
      (by decide)).1,
    ((relative_sleep_scaling double_state { tv_sec := 1, tv_nsec := 0 } none
      { tv_sec := 0, tv_nsec := 0 } echo_nanosleep echo_clock_nanosleep 1 0 (by decide)).2
      (by decide) (by decide) (by decide)
      (by
        rw [double_state_toRat]
        have : (timespec_to_ns { tv_sec := 1, tv_nsec := 0 }).natAbs = 1000000000 := by decide
        rw [this]
        norm_num)).1 (by decide),
    (((relative_sleep_scaling double_state { tv_sec := -1, tv_nsec := 0 } none
      { tv_sec := 0, tv_nsec := 0 } echo_nanosleep echo_clock_nanosleep 1 0 (by decide)).2
      (by decide) (by decide) (by decide)
      (by
        rw [double_state_toRat]
        have : (timespec_to_ns { tv_sec := -1, tv_nsec := 0 }).natAbs = 1000000000 := by decide
        rw [this]
        norm_num)).2 (by decide)).1⟩

set_option maxRecDepth 100000 in
/-- C9 (as stated) fails in three ways. At the speed next above 1.0 a request
of 1.073741953 s makes `nanosleep` issue a real sleep of 1073741825 ns, one
more than `d_req / speed` truncated (1073741824). At the speed `2^-149` a
request of one second, whose real duration `10^9 * 2^149` ns does not fit
`int64_t`, makes it issue a real sleep of 0 ns. At speed 2.0 a request of minus
one second makes it issue a real sleep of 0 ns, not of -500000000 ns. -/
theorem relative_sleep_not_truncated_quotient :
    nudged_state.g_speed.gt0 = true ∧
    timespec_to_ns { tv_sec := 1, tv_nsec := 73741953 } = 1073741953 ∧
    ⌊((1073741953 : ℤ) : ℚ) / nudged_state.g_speed.toRat⌋ = 1073741824 ∧
    (nanosleep nudged_state (some echo_nanosleep) (some { tv_sec := 1, tv_nsec := 73741953 })
      none { tv_sec := 0, tv_nsec := 0 }).1 = 1073741825 ∧
    crawl_state.g_speed.gt0 = true ∧
    (nanosleep crawl_state (some echo_nanosleep) (some { tv_sec := 1, tv_nsec := 0 })
      none { tv_sec := 0, tv_nsec := 0 }).1 = 0 ∧
    double_state.g_speed.gt0 = true ∧
    timespec_to_ns { tv_sec := -1, tv_nsec := 0 } = -1000000000 ∧
    toInt64 (fdiv (ofInt64 (-1000000000)) double_state.g_speed) = -500000000 ∧
    (nanosleep double_state (some echo_nanosleep) (some { tv_sec := -1, tv_nsec := 0 })
      none { tv_sec := 0, tv_nsec := 0 }).1 = 0 := by
  refine ⟨by decide, by decide, ?_, by decide, by decide, by decide, by decide, by decide,
    by decide, by decide⟩
  rw [nudged_state_toRat, Int.floor_eq_iff]
  norm_num

/-- The virtual remainder the sleep dispatchers compute, for a finite speed
`> 0` and operands below `2^53`. -/
theorem remainder_near (s : Double) (d : Int) (hpos : s.gt0 = true)
    (hfin : s.isFinite = true) (hd : d.natAbs < 2 ^ 53)
    (hp : (d.natAbs : ℚ) * s.toRat < 2 ^ 53) :
    |((toInt64 (fmul (ofInt64 d) s) : ℤ) : ℚ) - (d : ℚ) * s.toRat| < 1 := by
  obtain ⟨ms, es, _, rfl⟩ := gt0_finite hpos hfin
  have hrat : (Double.finite false ms es).toRat = (ms : ℚ) * (2 : ℚ) ^ es := by
    simp [Double.toRat]
  rw [hrat] at hp ⊢
  obtain ⟨t, ht, hnear⟩ := trunc_fmul_near hd hp
  have hxabs : |(d : ℚ) * ((ms : ℚ) * (2 : ℚ) ^ es)| < 2 ^ 53 := by
    have hnn : (0 : ℚ) ≤ (ms : ℚ) * (2 : ℚ) ^ es := by positivity
    rw [abs_mul, abs_of_nonneg hnn]
    have : |(d : ℚ)| = ((d.natAbs : ℕ) : ℚ) := by
      rw [Nat.cast_natAbs]; push_cast; rfl
    rw [this]
    exact hp
  have htr : inInt64 t := inInt64_of_near hxabs hnear
  have : toInt64 (fmul (ofInt64 d) (Double.finite false ms es)) = t := by
    simp only [toInt64, ht, if_pos htr]
  rw [this]
  exact hnear

/-- C10 (amended): remaining-time round trip. For a finite speed `s > 0` and a
relative sleep with a non-null remainder buffer: when the real sleep succeeds
the caller's remainder buffer is not written; when it is interrupted and
reports the remaining real duration `rr` with `|rr|` and `|rr| * s` below
`2^53` ns, the remainder reported to the caller for `rr >= 0` is `v div 10^9`
seconds and `v mod 10^9` nanoseconds for an integer `v >= 0` within one
nanosecond of `rr * s`, and for a negative `rr` it is zero. The same holds for
`clock_nanosleep` without the absolute flag. -/
theorem remaining_time_round_trip (st : ClockState) (rq rem0 u rr : Timespec)
    (rc clk_id flags : Int) (hrel : timer_abstime flags = false)
    (hpos : st.g_speed.gt0 = true) (hfin : st.g_speed.isFinite = true) :
    (rc = 0 →
      nanosleep st (some (fun _ _ => (rc, some rr))) (some rq) (some rem0) u = (0, some rem0) ∧
      clock_nanosleep st (some (fun _ _ _ _ => (rc, some rr))) clk_id flags (some rq)
        (some rem0) u = (0, some rem0)) ∧
    (rc ≠ 0 → (timespec_to_ns rr).natAbs < 2 ^ 53 →
      ((timespec_to_ns rr).natAbs : ℚ) * st.g_speed.toRat < 2 ^ 53 →
      (0 ≤ timespec_to_ns rr →
        ∃ v : Int, 0 ≤ v ∧ |(v : ℚ) - (timespec_to_ns rr : ℚ) * st.g_speed.toRat| < 1 ∧
          nanosleep st (some (fun _ _ => (rc, some rr))) (some rq) (some rem0) u
            = (rc, some { tv_sec := v / 1000000000, tv_nsec := v % 1000000000 }) ∧
          clock_nanosleep st (some (fun _ _ _ _ => (rc, some rr))) clk_id flags (some rq)
            (some rem0) u
            = (rc, some { tv_sec := v / 1000000000, tv_nsec := v % 1000000000 })) ∧
      (timespec_to_ns rr < 0 →
        nanosleep st (some (fun _ _ => (rc, some rr))) (some rq) (some rem0) u
          = (rc, some { tv_sec := 0, tv_nsec := 0 }) ∧
        clock_nanosleep st (some (fun _ _ _ _ => (rc, some rr))) clk_id flags (some rq)
          (some rem0) u = (rc, some { tv_sec := 0, tv_nsec := 0 }))) := by
  have hle := le0_false_of_gt0 hpos
  constructor
  · intro hrc
    subst hrc
    simp [nanosleep, clock_nanosleep, get_speed, hle, hrel]
  · intro hrc hd hp
    have hnear := remainder_near st.g_speed _ hpos hfin hd hp
    have hs := toRat_pos_of_gt0 hpos hfin
    have hn : nanosleep st (some (fun _ _ => (rc, some rr))) (some rq) (some rem0) u
        = (rc, some (ns_to_timespec (toInt64 (fmul (ofInt64 (timespec_to_ns rr)) st.g_speed)))) := by
      simp [nanosleep, get_speed, hle, hrc]
    have hc : clock_nanosleep st (some (fun _ _ _ _ => (rc, some rr))) clk_id flags (some rq)
        (some rem0) u
        = (rc, some (ns_to_timespec (toInt64 (fmul (ofInt64 (timespec_to_ns rr)) st.g_speed)))) := by
      simp [clock_nanosleep, get_speed, hle, hrel, hrc]
    generalize toInt64 (fmul (ofInt64 (timespec_to_ns rr)) st.g_speed) = v at hnear hn hc
    rw [abs_lt] at hnear
    constructor
    · intro hd0
      have hq0 : (0 : ℚ) ≤ (timespec_to_ns rr : ℚ) * st.g_speed.toRat :=
        mul_nonneg (by exact_mod_cast hd0) (le_of_lt hs)
      have hv : (-1 : ℚ) < (v : ℚ) := by linarith [hnear.1]
      have hv0 : 0 ≤ v := by
        have : -1 < v := by exact_mod_cast hv
        omega
      rw [ns_to_timespec_of_nonneg hv0] at hn hc
      exact ⟨v, hv0, abs_lt.2 hnear, hn, hc⟩
    · intro hd0
      have hq0 : (timespec_to_ns rr : ℚ) * st.g_speed.toRat < 0 :=
        mul_neg_of_neg_of_pos (by exact_mod_cast hd0) hs
      have hv : (v : ℚ) < 1 := by linarith [hnear.2]
      have hv0 : v ≤ 0 := by
        have : v < 1 := by exact_mod_cast hv
        omega
      rw [ns_to_timespec_of_nonpos hv0] at hn hc
      exact ⟨hn, hc⟩

/-- Witness of C10 (amended): at speed 2.0 a real sleep interrupted with one
day and one nanosecond left, and one that reports minus one second left. -/
theorem remaining_time_round_trip_witness :
    timer_abstime 0 = false ∧ double_state.g_speed.gt0 = true ∧
    double_state.g_speed.isFinite = true ∧
    (∃ v : Int, 0 ≤ v ∧ |(v : ℚ) - (timespec_to_ns { tv_sec := 86400, tv_nsec := 1 } : ℚ)
          * double_state.g_speed.toRat| < 1 ∧
      nanosleep double_state (some (fun _ _ => (-1, some { tv_sec := 86400, tv_nsec := 1 })))
          (some { tv_sec := 172800, tv_nsec := 2 }) (some { tv_sec := 7, tv_nsec := 7 })
          { tv_sec := 0, tv_nsec := 0 }
        = (-1, some { tv_sec := v / 1000000000, tv_nsec := v % 1000000000 }) ∧
      clock_nanosleep double_state
          (some (fun _ _ _ _ => (-1, some { tv_sec := 86400, tv_nsec := 1 }))) 1 0
          (some { tv_sec := 172800, tv_nsec := 2 }) (some { tv_sec := 7, tv_nsec := 7 })
          { tv_sec := 0, tv_nsec := 0 }
        = (-1, some { tv_sec := v / 1000000000, tv_nsec := v % 1000000000 })) ∧
    nanosleep double_state (some (fun _ _ => (-1, some { tv_sec := -1, tv_nsec := 0 })))
        (some { tv_sec := 172800, tv_nsec := 2 }) (some { tv_sec := 7, tv_nsec := 7 })
        { tv_sec := 0, tv_nsec := 0 }
      = (-1, some { tv_sec := 0, tv_nsec := 0 }) :=
  ⟨by decide, by decide, by decide,
    ((remaining_time_round_trip double_state { tv_sec := 172800, tv_nsec := 2 }
      { tv_sec := 7, tv_nsec := 7 } { tv_sec := 0, tv_nsec := 0 }
      { tv_sec := 86400, tv_nsec := 1 } (-1) 1 0 (by decide) (by decide) (by decide)).2
      (by decide) (by decide)
      (by
        rw [double_state_toRat]
        have : (timespec_to_ns { tv_sec := 86400, tv_nsec := 1 }).natAbs = 86400000000001 := by
          decide
        rw [this]
        norm_num)).1 (by decide),
    (((remaining_time_round_trip double_state { tv_sec := 172800, tv_nsec := 2 }
      { tv_sec := 7, tv_nsec := 7 } { tv_sec := 0, tv_nsec := 0 }
      { tv_sec := -1, tv_nsec := 0 } (-1) 1 0 (by decide) (by decide) (by decide)).2
      (by decide) (by decide)
      (by
        rw [double_state_toRat]
        have : (timespec_to_ns { tv_sec := -1, tv_nsec := 0 }).natAbs = 1000000000 := by
          decide
        rw [this]
        norm_num)).2 (by decide)).1⟩

set_option maxRecDepth 100000 in
/-- C10 (as stated) fails: at speed 1000.0 a virtual sleep of 172800000 s is
issued as a real sleep of 172800 s; interrupted with one day and one
nanosecond left (`r_real = 86400000000001` ns), the remainder reported is
86400000 s and 992 ns, eight nanoseconds less than `r_real * s`
(86400000 s and 1000 ns). -/
theorem remaining_time_not_product :
    thousand_state.g_speed.gt0 = true ∧
    (nanosleep thousand_state (some echo_nanosleep) (some { tv_sec := 172800000, tv_nsec := 0 })
      none { tv_sec := 0, tv_nsec := 0 }).1 = 172800000000000 ∧
    timespec_to_ns { tv_sec := 86400, tv_nsec := 1 } = 86400000000001 ∧
    nanosleep thousand_state (some interrupted_nanosleep)
        (some { tv_sec := 172800000, tv_nsec := 0 }) (some { tv_sec := 0, tv_nsec := 0 })
        { tv_sec := 0, tv_nsec := 0 }
      = (-1, some { tv_sec := 86400000, tv_nsec := 992 }) ∧
    ns_to_timespec (86400000000001 * 1000) = { tv_sec := 86400000, tv_nsec := 1000 } := by
  decide

/-! ## Absolute-deadline sleeps -/

/-- C11: absolute-deadline sleeps pass through. For every clock id, every
flags value with the absolute-time bit set, every request and remainder
pointer (null or not) and every clock state, `clock_nanosleep` returns what the
real `clock_nanosleep` returns for exactly the same four arguments, remainder
buffer included. -/
theorem absolute_sleep_passes_through (st : ClockState) (real : clock_nanosleep_fn)
    (clk_id flags : Int) (req rem : Option Timespec) (rem_real0 : Timespec)
    (habs : timer_abstime flags = true) :
    clock_nanosleep st (some real) clk_id flags req rem rem_real0
      = real clk_id flags req rem := by
  cases req <;> simp [clock_nanosleep, habs]

/-- Witness of C11: an absolute sleep (`flags = 1`) at speed 1000.0 reaches the
real primitive with the request unchanged. -/
theorem absolute_sleep_passes_through_witness :
    timer_abstime 1 = true ∧
    clock_nanosleep thousand_state (some echo_clock_nanosleep) 1 1
        (some { tv_sec := 5, tv_nsec := 7 }) none { tv_sec := 0, tv_nsec := 0 }
      = echo_clock_nanosleep 1 1 (some { tv_sec := 5, tv_nsec := 7 }) none :=
  ⟨by decide,
    absolute_sleep_passes_through thousand_state echo_clock_nanosleep 1 1
      (some { tv_sec := 5, tv_nsec := 7 }) none { tv_sec := 0, tv_nsec := 0 } (by decide)⟩

/-! ## Clock-read dispatch -/

theorem wrap64_add_wrap64_left (a b : Int) : wrap64 (wrap64 a + b) = wrap64 (a + b) := by
  unfold wrap64
  omega

theorem wrap64_add_wrap64_right (a b : Int) : wrap64 (a + wrap64 b) = wrap64 (a + b) := by
  unfold wrap64
  omega

/-- A non-negative `int64_t` number of nanoseconds survives the round trip
through `struct timespec`. -/
theorem timespec_to_ns_ns_to_timespec {v : Int} (h0 : 0 ≤ v) (hv : inInt64 v) :
    timespec_to_ns (ns_to_timespec v) = v := by
  unfold timespec_to_ns ns_to_timespec
  rw [if_neg (by omega)]
  simp only
  rw [wrap64_add_wrap64_left]
  have : v / 1000000000 * 1000000000 + v % 1000000000 = v := by omega
  rw [this]
  exact wrap64_of_inInt64 hv

theorem is_monotonic_clock_iff (clk_id : Int) :
    is_monotonic_clock clk_id = true ↔
      clk_id = CLOCK_MONOTONIC ∨ clk_id = CLOCK_MONOTONIC_RAW ∨
      clk_id = CLOCK_MONOTONIC_COARSE ∨ clk_id = CLOCK_BOOTTIME := by
  unfold is_monotonic_clock
  split_ifs <;> simp_all

theorem is_realtime_clock_iff (clk_id : Int) :
    is_realtime_clock clk_id = true ↔
      clk_id = CLOCK_REALTIME ∨ clk_id = CLOCK_REALTIME_COARSE := by
  unfold is_realtime_clock
  split_ifs <;> simp_all

theorem clock_classes_disjoint (clk_id : Int) :
    ¬ (is_monotonic_clock clk_id = true ∧ is_realtime_clock clk_id = true) := by
  rw [is_monotonic_clock_iff, is_realtime_clock_iff]
  unfold CLOCK_MONOTONIC CLOCK_MONOTONIC_RAW CLOCK_MONOTONIC_COARSE CLOCK_BOOTTIME
    CLOCK_REALTIME CLOCK_REALTIME_COARSE
  omega

/-- C12 (amended): clock-read dispatch. For every clock id and every
successful real reading `t` (return code 0, non-null buffer), `clock_gettime`
returns the virtual time `v = scale_monotonic_ns` of the reading if the id is
one of `CLOCK_MONOTONIC`, `_RAW`, `_COARSE`, `CLOCK_BOOTTIME`, and
`v = scale_realtime_ns` of the reading if the id is `CLOCK_REALTIME` or
`_COARSE` and scaling is enabled, as `v div 10^9` seconds and `v mod 10^9`
nanoseconds when `v >= 0` and as zero seconds and zero nanoseconds when `v` is
negative; it returns the real reading unmodified otherwise. The two classes
are disjoint. -/
theorem clock_read_dispatch (st : ClockState) (real : clock_gettime_fn) (clk_id : Int)
    (buf t : Timespec) (hreal : real clk_id (some buf) = (0, some t)) :
    (is_monotonic_clock clk_id = true →
      (0 ≤ scale_monotonic_ns st (timespec_to_ns t) →
        clock_gettime st (some real) clk_id (some buf)
          = (0, some { tv_sec := scale_monotonic_ns st (timespec_to_ns t) / 1000000000
                       tv_nsec := scale_monotonic_ns st (timespec_to_ns t) % 1000000000 })) ∧
      (scale_monotonic_ns st (timespec_to_ns t) < 0 →
        clock_gettime st (some real) clk_id (some buf)
          = (0, some { tv_sec := 0, tv_nsec := 0 }))) ∧
    (is_realtime_clock clk_id = true → st.g_scale_realtime = true →
      (0 ≤ scale_realtime_ns st (timespec_to_ns t) →
        clock_gettime st (some real) clk_id (some buf)
          = (0, some { tv_sec := scale_realtime_ns st (timespec_to_ns t) / 1000000000
                       tv_nsec := scale_realtime_ns st (timespec_to_ns t) % 1000000000 })) ∧
      (scale_realtime_ns st (timespec_to_ns t) < 0 →
        clock_gettime st (some real) clk_id (some buf)
          = (0, some { tv_sec := 0, tv_nsec := 0 }))) ∧
    (is_monotonic_clock clk_id = false →
      (is_realtime_clock clk_id = false ∨ st.g_scale_realtime = false) →
      clock_gettime st (some real) clk_id (some buf) = (0, some t)) ∧
    (is_monotonic_clock clk_id = true ↔
      clk_id = CLOCK_MONOTONIC ∨ clk_id = CLOCK_MONOTONIC_RAW ∨
      clk_id = CLOCK_MONOTONIC_COARSE ∨ clk_id = CLOCK_BOOTTIME) ∧
    (is_realtime_clock clk_id = true ↔
      clk_id = CLOCK_REALTIME ∨ clk_id = CLOCK_REALTIME_COARSE) ∧
    ¬ (is_monotonic_clock clk_id = true ∧ is_realtime_clock clk_id = true) := by
  refine ⟨?_, ?_, ?_, is_monotonic_clock_iff clk_id, is_realtime_clock_iff clk_id,
    clock_classes_disjoint clk_id⟩
  · intro hm
    have h : clock_gettime st (some real) clk_id (some buf)
        = (0, some (ns_to_timespec (scale_monotonic_ns st (timespec_to_ns t)))) := by
      simp [clock_gettime, hreal, hm]
    constructor
    · intro h0
      rw [h, ns_to_timespec_of_nonneg h0]
    · intro h0
      rw [h, ns_to_timespec_of_nonpos (le_of_lt h0)]
  · intro hr hs
    have hm : is_monotonic_clock clk_id = false := by
      cases h : is_monotonic_clock clk_id
      · rfl
      · exact absurd ⟨h, hr⟩ (clock_classes_disjoint clk_id)
    have h : clock_gettime st (some real) clk_id (some buf)
        = (0, some (ns_to_timespec (scale_realtime_ns st (timespec_to_ns t)))) := by
      simp [clock_gettime, hreal, hm, hr, hs]
    constructor
    · intro h0
      rw [h, ns_to_timespec_of_nonneg h0]
    · intro h0
      rw [h, ns_to_timespec_of_nonpos (le_of_lt h0)]
  · intro hm hor
    rcases hor with hr | hs
    · simp [clock_gettime, hreal, hm, hr]
    · simp [clock_gettime, hreal, hm, hs]

/-- Witness of C12 (amended): at speed 2.0, anchored at reading 1700 with
virtual time 1700, a `CLOCK_BOOTTIME` reading of 1 s and 1700 ns has the
virtual time 2000001700 ns and is reported as 2 s and 1700 ns. -/
theorem clock_read_dispatch_witness :
    is_monotonic_clock CLOCK_BOOTTIME = true ∧
    scale_monotonic_ns double_state (timespec_to_ns { tv_sec := 1, tv_nsec := 1700 })
      = 2000001700 ∧
    clock_gettime double_state (some (fun _ _ => (0, some { tv_sec := 1, tv_nsec := 1700 })))
        CLOCK_BOOTTIME (some { tv_sec := 0, tv_nsec := 0 })
      = (0, some
          { tv_sec := scale_monotonic_ns double_state
              (timespec_to_ns { tv_sec := 1, tv_nsec := 1700 }) / 1000000000
            tv_nsec := scale_monotonic_ns double_state
              (timespec_to_ns { tv_sec := 1, tv_nsec := 1700 }) % 1000000000 }) :=
  ⟨by decide, by decide,
    ((clock_read_dispatch double_state (fun _ _ => (0, some { tv_sec := 1, tv_nsec := 1700 }))
      CLOCK_BOOTTIME { tv_sec := 0, tv_nsec := 0 } { tv_sec := 1, tv_nsec := 1700 } rfl).1
      (by decide)).1 (by decide)⟩

set_option maxRecDepth 100000 in
/-- C12 (as stated) fails: in a process attached at Monotonic reading 100 s
whose speed was set to 1e9 at that reading, a `CLOCK_MONOTONIC_COARSE` reading
of 99.996 s (the coarse clock lags the anchor by 4 ms) has the virtual time
`-3999900000000000` ns, computed without overflow, but `clock_gettime` returns
zero seconds and zero nanoseconds. -/
theorem clock_read_clamps_negative :
    is_monotonic_clock CLOCK_MONOTONIC_COARSE = true ∧
    late_fast_state.g_real_base_mono_ns = 100000000000 ∧
    late_fast_state.g_scaled_base_mono_ns = 100000000000 ∧
    timespec_to_ns { tv_sec := 99, tv_nsec := 996000000 } = 99996000000 ∧
    toInt64 (fmul (ofInt64 (99996000000 - 100000000000)) late_fast_state.g_speed)
      = -4000000000000000 ∧
    scale_monotonic_ns late_fast_state 99996000000 = -3999900000000000 ∧
    clock_gettime late_fast_state
        (some (fun _ _ => (0, some { tv_sec := 99, tv_nsec := 996000000 })))
        CLOCK_MONOTONIC_COARSE (some { tv_sec := 0, tv_nsec := 0 })
      = (0, some { tv_sec := 0, tv_nsec := 0 }) := by
  decide

/-! ## Failure preservation -/

/-- C15: failure preservation on clock read. For every clock id, every clock
state and every (non-null) output buffer of the caller, `clock_gettime` returns
exactly the return code of the real call, and when that code is non-zero the
caller's buffer is exactly what the real call left in it; the same holds for
`gettimeofday`. -/
theorem failure_preserved (st : ClockState) (real : clock_gettime_fn) (realg : gettimeofday_fn)
    (clk_id : Int) (buf : Timespec) (tvbuf : Timeval) (tz : TzArg) :
    (clock_gettime st (some real) clk_id (some buf)).1 = (real clk_id (some buf)).1 ∧
    ((real clk_id (some buf)).1 ≠ 0 →
      clock_gettime st (some real) clk_id (some buf) = real clk_id (some buf)) ∧
    (gettimeofday st (some realg) (some tvbuf) tz).1 = (realg (some tvbuf) tz).1 ∧
    ((realg (some tvbuf) tz).1 ≠ 0 →
      gettimeofday st (some realg) (some tvbuf) tz = realg (some tvbuf) tz) := by
  refine ⟨?_, ?_, ?_, ?_⟩
  · simp only [clock_gettime]
    generalize real clk_id (some buf) = r
    obtain ⟨rc, b⟩ := r
    cases b <;> repeat (first | rfl | split)
  · intro h
    simp [clock_gettime, h]
  · simp only [gettimeofday]
    generalize realg (some tvbuf) tz = r
    obtain ⟨rc, b⟩ := r
    cases b <;> repeat (first | rfl | split)
  · intro h
    simp [gettimeofday, h]

/-! ## Domain isolation -/

/-- C13: domain isolation. With wall-clock scaling disabled, for every clock
state the three WallClock entry points return exactly what the real primitives
return: `clock_gettime` on `CLOCK_REALTIME` or `CLOCK_REALTIME_COARSE`,
`gettimeofday` and `time` (whatever the status of `real_clock_gettime`);
Monotonic reads of the same state go through `scale_monotonic_ns`. -/
theorem domain_isolation (st : ClockState) (realcg : clock_gettime_fn)
    (realg : gettimeofday_fn) (rt : time_fn) (cg : Option clock_gettime_fn) (clk_id : Int)
    (tp : Option Timespec) (tv : Option Timeval) (tz : TzArg) (tloc : Option Int)
    (ts0 : Timespec) (hoff : st.g_scale_realtime = false)
    (hclk : is_realtime_clock clk_id = true) :
    clock_gettime st (some realcg) clk_id tp = realcg clk_id tp ∧
    gettimeofday st (some realg) tv tz = realg tv tz ∧
    time st (some rt) cg tloc ts0 = some (rt tloc) ∧
    (∀ (mclk : Int) (buf t : Timespec), is_monotonic_clock mclk = true →
      realcg mclk (some buf) = (0, some t) →
      clock_gettime st (some realcg) mclk (some buf)
        = (0, some (ns_to_timespec (scale_monotonic_ns st (timespec_to_ns t))))) := by
  have hm : is_monotonic_clock clk_id = false := by
    cases h : is_monotonic_clock clk_id
    · rfl
    · exact absurd ⟨h, hclk⟩ (clock_classes_disjoint clk_id)
  refine ⟨?_, ?_, ?_, ?_⟩
  · simp only [clock_gettime, hm, hoff]
    generalize realcg clk_id tp = r
    obtain ⟨rc, b⟩ := r
    cases b <;> repeat (first | rfl | split)
  · simp only [gettimeofday, hoff]
    generalize realg tv tz = r
    obtain ⟨rc, b⟩ := r
    cases b <;> repeat (first | rfl | split)
  · simp [time, hoff]
  · intro mclk buf t hmc hre
    simp [clock_gettime, hre, hmc]

set_option maxRecDepth 100000 in
/-- Witness of C13: at speed 2.0 with scaling disabled the three WallClock
entry points return the real readings, while a `CLOCK_MONOTONIC` read of the
same real reading is scaled. -/
theorem domain_isolation_witness :
    double_state.g_scale_realtime = false ∧ is_realtime_clock CLOCK_REALTIME = true ∧
    clock_gettime double_state (some fixed_clock_gettime) CLOCK_REALTIME
        (some { tv_sec := 0, tv_nsec := 0 })
      = (0, some { tv_sec := 1790000000, tv_nsec := 5000 }) ∧
    gettimeofday double_state (some fixed_gettimeofday) (some { tv_sec := 0, tv_usec := 0 }) none
      = (0, some { tv_sec := 1790000000, tv_usec := 5 }) ∧
    time double_state (some fixed_time) none (some 0) { tv_sec := 0, tv_nsec := 0 }
      = some (1790000000, some 1790000000) ∧
    clock_gettime double_state (some fixed_clock_gettime) CLOCK_MONOTONIC
        (some { tv_sec := 0, tv_nsec := 0 })
      = (0, some { tv_sec := 3580000000, tv_nsec := 8356 }) :=
  have h := domain_isolation double_state fixed_clock_gettime fixed_gettimeofday fixed_time none
    CLOCK_REALTIME (some { tv_sec := 0, tv_nsec := 0 }) (some { tv_sec := 0, tv_usec := 0 })
    none (some 0) { tv_sec := 0, tv_nsec := 0 } (by decide) (by decide)
  ⟨by decide, by decide, h.1, h.2.1, h.2.2.1, by decide⟩

/-! ## No distortion by default -/

/-- At speed 1.0 a delta of magnitude at most `2^53` is converted, multiplied
and converted back exactly. -/
theorem toInt64_fmul_one {x : Int} (hx : x.natAbs ≤ 2 ^ 53) :
    toInt64 (fmul (ofInt64 x) one) = x := by
  rcases Nat.lt_or_ge x.natAbs (2 ^ 53) with hlt | hge
  · have hprod : (x.natAbs : ℚ) * (((1 : ℕ) : ℚ) * (2 : ℚ) ^ (0 : Int)) < 2 ^ 53 := by
      rw [Nat.cast_one, zpow_zero, mul_one, mul_one]
      exact_mod_cast hlt
    obtain ⟨t, ht, hnear⟩ := trunc_fmul_near hlt hprod
    have htx : t = x := by
      have h1 : |((t - x : ℤ) : ℚ)| < 1 := by
        have : ((t - x : ℤ) : ℚ) = (t : ℚ) - (x : ℚ) * (((1 : ℕ) : ℚ) * (2 : ℚ) ^ (0 : Int)) := by
          push_cast; simp
        rw [this]; exact hnear
      have h2 : |t - x| < 1 := by exact_mod_cast h1
      rw [abs_lt] at h2
      omega
    have hin : inInt64 t := by
      rw [htx]
      unfold inInt64 INT64_MIN INT64_MAX
      have : (2 : Nat) ^ 53 = 9007199254740992 := by norm_num
      omega
    subst htx
    have hone : one = Double.finite false 1 0 := rfl
    rw [hone]
    simp only [toInt64, ht, if_pos hin]
  · have heq : x.natAbs = 2 ^ 53 := le_antisymm hx hge
    have h2 : (2 : Nat) ^ 53 = 9007199254740992 := by norm_num
    have hcase : x = 9007199254740992 ∨ x = -9007199254740992 := by omega
    rcases hcase with rfl | rfl <;> decide

/-- The affine transform with equal anchors and speed 1.0 is the identity on
readings within `2^53` of the anchor. -/
theorem scale_identity (base r : Int) (hr : inInt64 r) (hd : (r - base).natAbs ≤ 2 ^ 53) :
    wrap64 (base + toInt64 (fmul (ofInt64 (wrap64 (r - base))) one)) = r := by
  have hin : inInt64 (r - base) := by
    unfold inInt64 INT64_MIN INT64_MAX
    have : (2 : Nat) ^ 53 = 9007199254740992 := by norm_num
    omega
  rw [wrap64_of_inInt64 hin, toInt64_fmul_one hd]
  have : base + (r - base) = r := by omega
  rw [this]
  exact wrap64_of_inInt64 hr

theorem ns_to_timespec_timespec_to_ns {t : Timespec} (hs : 0 ≤ t.tv_sec)
    (hn : 0 ≤ t.tv_nsec ∧ t.tv_nsec < 1000000000)
    (hin : inInt64 (t.tv_sec * 1000000000 + t.tv_nsec)) :
    ns_to_timespec (timespec_to_ns t) = t := by
  unfold timespec_to_ns
  rw [wrap64_add_wrap64_left, wrap64_of_inInt64 hin]
  unfold ns_to_timespec
  rw [if_neg (by omega)]
  cases t with
  | mk sec nsec =>
    simp only at hs hn hin ⊢
    congr 1 <;> omega

/-- C14 (amended): no distortion by default. In the initial state (both
anchors of each domain equal to the real reading at attach, speed 1.0), for
every real Monotonic reading `rm` and WallClock reading `rw` that are `int64_t`
values within `2^53` ns (about 104 days) of the reading at attach,
`scale_monotonic_ns rm = rm` and `scale_realtime_ns rw = rw`; and
`clock_gettime` on a Monotonic-class clock returns a normalised real timespec
of `rm` nanoseconds unchanged. -/
theorem no_distortion_by_default (mono_now rt_now : Int) (scale_rt : Bool) (rm rw : Int)
    (hrm : inInt64 rm) (hdm : (rm - mono_now).natAbs ≤ 2 ^ 53)
    (hrw : inInt64 rw) (hdw : (rw - rt_now).natAbs ≤ 2 ^ 53) :
    scale_monotonic_ns (init_state mono_now rt_now scale_rt) rm = rm ∧
    scale_realtime_ns (init_state mono_now rt_now scale_rt) rw = rw ∧
    (∀ (clk_id : Int) (t buf : Timespec), is_monotonic_clock clk_id = true →
      0 ≤ t.tv_sec → 0 ≤ t.tv_nsec ∧ t.tv_nsec < 1000000000 →
      t.tv_sec * 1000000000 + t.tv_nsec = rm →
      clock_gettime (init_state mono_now rt_now scale_rt) (some (fun _ _ => (0, some t)))
        clk_id (some buf) = (0, some t)) := by
  have h1 : scale_monotonic_ns (init_state mono_now rt_now scale_rt) rm = rm :=
    scale_identity mono_now rm hrm hdm
  refine ⟨h1, scale_identity rt_now rw hrw hdw, ?_⟩
  intro clk_id t buf hclk hs hn hsum
  have hin : inInt64 (t.tv_sec * 1000000000 + t.tv_nsec) := by rw [hsum]; exact hrm
  have hns : timespec_to_ns t = rm := by
    unfold timespec_to_ns
    rw [wrap64_add_wrap64_left, hsum, wrap64_of_inInt64 hrm]
  rw [clock_gettime_monotonic _ clk_id t buf hclk, hns, h1, ← hns,
    ns_to_timespec_timespec_to_ns hs hn hin]

/-- Witness of C14 (amended): attached at 5 s (Monotonic) and at 1790000000 s
(WallClock), read one hour later. -/
theorem no_distortion_by_default_witness :
    inInt64 3605000000000 ∧ ((3605000000000 : Int) - 5000000000).natAbs ≤ 2 ^ 53 ∧
    inInt64 1790003600000000000 ∧
    ((1790003600000000000 : Int) - 1790000000000000000).natAbs ≤ 2 ^ 53 ∧
    scale_monotonic_ns (init_state 5000000000 1790000000000000000 true) 3605000000000
      = 3605000000000 ∧
    scale_realtime_ns (init_state 5000000000 1790000000000000000 true) 1790003600000000000
      = 1790003600000000000 :=
  have h := no_distortion_by_default 5000000000 1790000000000000000 true 3605000000000
    1790003600000000000 (by decide) (by decide) (by decide) (by decide)
  ⟨by decide, by decide, by decide, by decide, h.1, h.2.1⟩

/-- C14 (as stated) fails: in the initial state of a process attached at
Monotonic reading 5 s, the real reading `2^53 + 1` ns later (104 days and a
bit) is reported one nanosecond early: `(double)(2^53 + 1)` is `2^53`. -/
theorem distortion_after_104_days :
    scale_monotonic_ns (init_state 5000000000 1790000000000000000 false)
      (5000000000 + 9007199254740993) = 5000000000 + 9007199254740992 := by
  decide

/-! ## Unresolved primitives -/

/-- Initialisation calls through `real_clock_gettime` whenever that symbol is
unresolved, whatever the other symbols are. -/
theorem init_real_symbols_unresolved (syms : RealSymbols) (scale_rt : Bool) (ts0 : Timespec)
    (h : syms.real_clock_gettime = none) :
    init_real_symbols syms scale_rt ts0 = none ∧ ensure_init syms scale_rt ts0 none = none := by
  simp [ensure_init, init_real_symbols, real_monotonic_ns, h]

/-- Initialisation completes whenever `real_clock_gettime` is resolved, and the
first `ensure_init()` then yields the state `init_state` describes. -/
theorem init_real_symbols_resolved (syms : RealSymbols) (scale_rt : Bool) (ts0 : Timespec)
    (cg : clock_gettime_fn) (h : syms.real_clock_gettime = some cg) :
    ∃ m w, ensure_init syms scale_rt ts0 none = some (init_state m w scale_rt) := by
  simp only [ensure_init, init_real_symbols, real_monotonic_ns, real_realtime_ns, h]
  split_ifs <;> exact ⟨_, _, rfl⟩

/-- C16 (code bug): fail closed per dispatcher is broken by two missing guards.
In a process where `dlsym` found every symbol except `clock_gettime`,
`real_monotonic_ns` calls through the null `real_clock_gettime`, so
`init_real_symbols`, and with it the first `ensure_init()` (the constructor, or
the top of whichever entry point is called first), calls an unresolved
primitive and no dispatcher reaches its own `return -1`: a first call
`nanosleep(&req, NULL)`, whose own primitive is resolved, does not get to its
body. In a process where `dlsym` found every symbol except `nanosleep`,
initialisation completes and `nanosleep` returns -1 without writing the
remainder, and `sleep(1)` returns the indeterminate content of its local `rem`
(7 here), not a failure code. -/
theorem init_calls_unresolved_primitive :
    clock_gettime_missing.real_clock_gettime = none ∧
    clock_gettime_missing.real_nanosleep = some ok_nanosleep ∧
    real_monotonic_ns clock_gettime_missing.real_clock_gettime { tv_sec := 0, tv_nsec := 0 }
      = none ∧
    init_real_symbols clock_gettime_missing false { tv_sec := 0, tv_nsec := 0 } = none ∧
    ensure_init clock_gettime_missing false { tv_sec := 0, tv_nsec := 0 } none = none ∧
    (ensure_init clock_gettime_missing false { tv_sec := 0, tv_nsec := 0 } none).map
        (fun st => nanosleep st clock_gettime_missing.real_nanosleep
          (some { tv_sec := 1, tv_nsec := 0 }) none { tv_sec := 0, tv_nsec := 0 })
      = none ∧
    nanosleep_missing.real_nanosleep = none ∧
    ensure_init nanosleep_missing false { tv_sec := 0, tv_nsec := 0 } none
      = some (init_state 1790000000000005000 1790000000000005000 false) ∧
    nanosleep (init_state 1790000000000005000 1790000000000005000 false)
        nanosleep_missing.real_nanosleep (some { tv_sec := 1, tv_nsec := 0 })
        (some { tv_sec := 7, tv_nsec := 0 }) { tv_sec := 0, tv_nsec := 0 }
      = (-1, some { tv_sec := 7, tv_nsec := 0 }) ∧
    sleep (init_state 1790000000000005000 1790000000000005000 false) nanosleep_missing 1
      { tv_sec := 7, tv_nsec := 0 } { tv_sec := 0, tv_nsec := 0 } = 7 :=
  ⟨rfl, rfl, rfl, rfl, rfl, rfl, rfl, by rfl, by decide, by decide⟩

/-! ## WallClock granularities -/

theorem scale_realtime_ns_wrap64 (st : ClockState) (x : Int) :
    scale_realtime_ns st (wrap64 x) = scale_realtime_ns st x := by
  have h : wrap64 (wrap64 x - st.g_real_base_rt_ns) = wrap64 (x - st.g_real_base_rt_ns) := by
    unfold wrap64; omega
  simp only [scale_realtime_ns, h]

theorem wrap64_add_wrap64_both (a b : Int) : wrap64 (wrap64 a + wrap64 b) = wrap64 (a + b) := by
  unfold wrap64
  omega

/-- C17 (amended): WallClock granularities agree on non-negative virtual
times. With wall-clock scaling enabled, for every clock state and every real
wall-clock reading of `s` seconds and `u` microseconds whose virtual time
`v = scale_realtime_ns (s * 10^9 + u * 1000)` is not negative: `gettimeofday`
reports `tv_sec = v / 10^9` and `tv_usec = (v mod 10^9) / 1000`, `time` returns
`v / 10^9` and stores it through a non-null argument, and `clock_gettime` on a
WallClock-class id reports `tv_sec = v / 10^9` and `tv_nsec = v mod 10^9`. -/
theorem wallclock_granularities_agree (st : ClockState) (s u : Int) (clk_id : Int)
    (tv0 : Timeval) (tz : TzArg) (rt : time_fn) (tloc : Option Int) (ts0 buf : Timespec)
    (hon : st.g_scale_realtime = true) (hclk : is_realtime_clock clk_id = true)
    (hv : 0 ≤ scale_realtime_ns st (s * 1000000000 + u * 1000)) :
    gettimeofday st (some (fun _ _ => (0, some { tv_sec := s, tv_usec := u }))) (some tv0) tz
      = (0, some { tv_sec := scale_realtime_ns st (s * 1000000000 + u * 1000) / 1000000000
                   tv_usec := scale_realtime_ns st (s * 1000000000 + u * 1000)
                     % 1000000000 / 1000 }) ∧
    time st (some rt) (some (fun _ _ => (0, some { tv_sec := s, tv_nsec := u * 1000 }))) tloc ts0
      = some (scale_realtime_ns st (s * 1000000000 + u * 1000) / 1000000000,
          if tloc = none then none
          else some (scale_realtime_ns st (s * 1000000000 + u * 1000) / 1000000000)) ∧
    clock_gettime st (some (fun _ _ => (0, some { tv_sec := s, tv_nsec := u * 1000 }))) clk_id
        (some buf)
      = (0, some { tv_sec := scale_realtime_ns st (s * 1000000000 + u * 1000) / 1000000000
                   tv_nsec := scale_realtime_ns st (s * 1000000000 + u * 1000)
                     % 1000000000 }) := by
  have hm : is_monotonic_clock clk_id = false := by
    cases h : is_monotonic_clock clk_id
    · rfl
    · exact absurd ⟨h, hclk⟩ (clock_classes_disjoint clk_id)
  have hg : scale_realtime_ns st (wrap64 (wrap64 (s * 1000000000) + wrap64 (u * 1000)))
      = scale_realtime_ns st (s * 1000000000 + u * 1000) := by
    rw [wrap64_add_wrap64_both, scale_realtime_ns_wrap64]
  have ht : scale_realtime_ns st (timespec_to_ns { tv_sec := s, tv_nsec := u * 1000 })
      = scale_realtime_ns st (s * 1000000000 + u * 1000) := by
    unfold timespec_to_ns
    simp only
    rw [wrap64_add_wrap64_left, scale_realtime_ns_wrap64]
  generalize scale_realtime_ns st (s * 1000000000 + u * 1000) = v at hv hg ht
  have hdiv : Int.tdiv v 1000000000 = v / 1000000000 :=
    Int.tdiv_eq_ediv hv (by decide)
  have hmod : Int.tmod v 1000000000 = v % 1000000000 :=
    Int.tmod_eq_emod hv (by decide)
  have hdiv2 : Int.tdiv (v % 1000000000) 1000 = v % 1000000000 / 1000 :=
    Int.tdiv_eq_ediv (by omega) (by decide)
  refine ⟨?_, ?_, ?_⟩
  · simp [gettimeofday, hon, hg, hdiv, hmod, hdiv2]
  · simp [time, hon, ht, hdiv]
  · simp [clock_gettime, hm, hon, hclk, ht, ns_to_timespec, not_lt.2 hv]

set_option maxRecDepth 100000 in
/-- Witness of C17 (amended): at speed 1e9, two real seconds and five
microseconds after the anchor at 1790000000 s. -/
theorem wallclock_granularities_agree_witness :
    fast_wall_state.g_scale_realtime = true ∧ is_realtime_clock CLOCK_REALTIME = true ∧
    0 ≤ scale_realtime_ns fast_wall_state (1790000002 * 1000000000 + 5 * 1000) ∧
    gettimeofday fast_wall_state
        (some (fun _ _ => (0, some { tv_sec := 1790000002, tv_usec := 5 })))
        (some { tv_sec := 0, tv_usec := 0 }) none
      = (0, some
          { tv_sec := scale_realtime_ns fast_wall_state (1790000002 * 1000000000 + 5 * 1000)
              / 1000000000
            tv_usec := scale_realtime_ns fast_wall_state (1790000002 * 1000000000 + 5 * 1000)
              % 1000000000 / 1000 }) :=
  ⟨by decide, by decide, by decide,
    (wallclock_granularities_agree fast_wall_state 1790000002 5 CLOCK_REALTIME
      { tv_sec := 0, tv_usec := 0 } none fixed_time none { tv_sec := 0, tv_nsec := 0 }
      { tv_sec := 0, tv_nsec := 0 } (by decide) (by decide) (by decide)).1⟩

set_option maxRecDepth 100000 in
/-- C17 (as stated) fails: at speed 1e9, eight real seconds after the anchor at
1790000000 s, the virtual time has wrapped around `int64_t` to
`v = -8656744073709551616`; `gettimeofday` reports `tv_sec = -8656744073` and
`time` returns the same, but `clock_gettime` reports `tv_sec = 0` and
`tv_nsec = 0`. -/
theorem wallclock_granularities_disagree :
    fast_wall_state.g_scale_realtime = true ∧
    scale_realtime_ns fast_wall_state (1790000008 * 1000000000 + 0 * 1000)
      = -8656744073709551616 ∧
    gettimeofday fast_wall_state
        (some (fun _ _ => (0, some { tv_sec := 1790000008, tv_usec := 0 })))
        (some { tv_sec := 0, tv_usec := 0 }) none
      = (0, some { tv_sec := -8656744073, tv_usec := -709551 }) ∧
    time fast_wall_state (some fixed_time)
        (some (fun _ _ => (0, some { tv_sec := 1790000008, tv_nsec := 0 }))) none
        { tv_sec := 0, tv_nsec := 0 }
      = some (-8656744073, none) ∧
    clock_gettime fast_wall_state
        (some (fun _ _ => (0, some { tv_sec := 1790000008, tv_nsec := 0 }))) CLOCK_REALTIME
        (some { tv_sec := 0, tv_nsec := 0 })
      = (0, some { tv_sec := 0, tv_nsec := 0 }) := by
  decide

/-! ## The remainder of an interrupted sleep -/

/-- Rounding an even number, or the odd number next above it, to a multiple of
`2^sh` (`sh >= 2`) adds at most half a unit to the even number. -/
theorem roundMant_mul_le_even {M b sh : Nat} (hb : b ≤ 1) (hM : M % 2 = 0) (hsh : 2 ≤ sh) :
    roundMant (M + b) sh * 2 ^ sh ≤ M + 2 ^ (sh - 1) := by
  obtain ⟨j, rfl⟩ : ∃ j, sh = j + 2 := ⟨sh - 2, by omega⟩
  have e1 : 2 ^ (j + 2) = 4 * 2 ^ j := by rw [pow_add]; ring
  have e2 : 2 ^ (j + 2 - 1) = 2 * 2 ^ j := by
    rw [show j + 2 - 1 = j + 1 from rfl, pow_succ]; ring
  have hP : 0 < 2 ^ j := Nat.pow_pos (by decide)
  have hdm := Nat.div_add_mod (M + b) (2 ^ (j + 2))
  have hlt := Nat.mod_lt (M + b) (Nat.pow_pos (by decide : 0 < 2) : 0 < 2 ^ (j + 2))
  rw [e2]
  unfold roundMant
  generalize hq : (M + b) / 2 ^ (j + 2) = q at hdm
  generalize hr : (M + b) % 2 ^ (j + 2) = rm at hdm hlt
  rw [e1] at hdm hlt ⊢
  generalize 2 ^ j = P at hP hdm hlt
  have e3 : (q + 1) * (4 * P) = 4 * (P * q) + 4 * P := by ring
  have e4 : q * (4 * P) = 4 * (P * q) := by ring
  have e5 : 4 * P * q = 4 * (P * q) := by ring
  rw [e5] at hdm
  split_ifs with h1 h2 h3
  · rw [e4]; omega
  · rw [e3]; omega
  · rw [e4]; omega
  · rw [e3]
    generalize P * q = u at hdm
    omega

/-- Rounding does not cross a half-integer `j + 1/2` that is itself a binary64
value: a magnitude of at most `j + 1/2` truncates to at most `j` after
rounding (negative exponent). -/
theorem truncMag_roundUnits_le_half {N : Nat} {e : Int} {j : Nat} (he : e < 0)
    (hj : 2 * j + 1 < 2 ^ 53) (h : N ≤ (2 * j + 1) * 2 ^ ((-e).toNat - 1)) :
    truncMag (roundUnits N e) e ≤ j := by
  obtain ⟨k, hk⟩ : ∃ k : Nat, (-e).toNat = k + 1 := ⟨(-e).toNat - 1, by omega⟩
  rw [hk, Nat.add_sub_cancel] at h
  have hPk : 0 < 2 ^ k := Nat.pow_pos (by decide)
  have hN : N < 2 ^ (53 + k) := by
    have : (2 * j + 1) * 2 ^ k < 2 ^ 53 * 2 ^ k := Nat.mul_lt_mul_of_pos_right hj hPk
    rw [pow_add]
    omega
  have hbl := bitlen_le_of_lt hN
  have hsh : roundShift N e ≤ k := by
    unfold roundShift EMIN
    omega
  have htm : truncMag (roundUnits N e) e
      = roundMant N (roundShift N e) * 2 ^ roundShift N e / 2 ^ (k + 1) := by
    unfold truncMag roundUnits
    rw [if_neg (by omega), hk]
  rw [htm]
  generalize roundShift N e = sh at hsh
  have hsplit : 2 ^ k = 2 ^ (k - sh) * 2 ^ sh := by
    rw [← pow_add]; congr 1; omega
  have h2 : N ≤ (2 * j + 1) * 2 ^ (k - sh) * 2 ^ sh := by
    rw [mul_assoc, ← hsplit]; exact h
  have h3 := roundMant_le_of_le_mul h2
  have h4 : roundMant N sh * 2 ^ sh ≤ (2 * j + 1) * 2 ^ k := by
    calc roundMant N sh * 2 ^ sh ≤ (2 * j + 1) * 2 ^ (k - sh) * 2 ^ sh :=
          Nat.mul_le_mul_right _ h3
      _ = (2 * j + 1) * 2 ^ k := by rw [mul_assoc, ← hsplit]
  have hlt : roundMant N sh * 2 ^ sh / 2 ^ (k + 1) < j + 1 := by
    rw [Nat.div_lt_iff_lt_mul (Nat.pow_pos (by decide))]
    have e1 : (j + 1) * 2 ^ (k + 1) = (2 * j + 1) * 2 ^ k + 2 ^ k := by rw [pow_succ]; ring
    omega
  omega

theorem smallVal_mono {N N1 : Nat} {e : Int} (h : N ≤ N1) (hs : smallVal N1 e) :
    smallVal N e := by
  unfold smallVal at hs ⊢
  split_ifs at hs ⊢ with he
  · exact lt_of_le_of_lt (Nat.mul_le_mul_right _ h) hs
  · omega

set_option maxRecDepth 100000 in
theorem roundUnits_two_pow_53 : roundUnits (2 ^ 53) 0 = 2 ^ 53 := by
  decide

theorem roundUnits_le_two_pow_53 {n : Nat} (h : n ≤ 2 ^ 53) : roundUnits n 0 = n := by
  rcases Nat.lt_or_ge n (2 ^ 53) with h1 | h1
  · exact roundUnits_small h1
  · have : n = 2 ^ 53 := Nat.le_antisymm h h1
    rw [this]
    exact roundUnits_two_pow_53

/-- Size of the extended quotient `2 * (n * 2^K / ms) + sticky` with
`K = bitlen ms + 55`, for `1 <= n < 2^52`: between 57 and 109 bits. -/
theorem quot_bitlen {n ms : Nat} (hn : n ≠ 0) (hn52 : n < 2 ^ 52) (hms : ms ≠ 0) {b : Nat}
    (hb : b ≤ 1) :
    56 < bitlen (2 * (n * 2 ^ (bitlen ms + 55) / ms) + b) ∧
    bitlen (2 * (n * 2 ^ (bitlen ms + 55) / ms) + b) ≤ 109 := by
  have hmpos : 0 < ms := Nat.pos_of_ne_zero hms
  have h1 := lt_two_pow_bitlen ms
  have h2 := two_pow_bitlen_le hms
  have hL := bitlen_pos hms
  obtain ⟨l, hl⟩ : ∃ l, bitlen ms = l + 1 := ⟨bitlen ms - 1, by omega⟩
  rw [hl] at h1 h2 ⊢
  rw [Nat.add_sub_cancel] at h2
  have e1 : 2 ^ (l + 1) = 2 * 2 ^ l := by rw [pow_succ]; ring
  have e2 : n * 2 ^ (l + 1 + 55) = 2 ^ 56 * (n * 2 ^ l) := by
    rw [show l + 1 + 55 = l + 56 from by omega, pow_add]; ring
  rw [e1] at h1
  rw [e2]
  generalize 2 ^ l = p at h1 h2
  have hnp : p ≤ n * p := Nat.le_mul_of_pos_left _ (Nat.pos_of_ne_zero hn)
  have hnp2 : n * p ≤ (2 ^ 52 - 1) * p := Nat.mul_le_mul_right _ (by omega)
  have hlow : 2 ^ 55 ≤ 2 ^ 56 * (n * p) / ms := by
    rw [Nat.le_div_iff_mul_le hmpos]
    omega
  have hupp : 2 ^ 56 * (n * p) / ms < 2 ^ 108 := by
    rw [Nat.div_lt_iff_lt_mul hmpos]
    omega
  constructor
  · apply lt_bitlen_of_le
    omega
  · apply bitlen_le_of_lt
    omega

/-- The issued real duration, multiplied back by the speed, exceeds the request
by at most half a nanosecond. In the unit `2^e` of the extended quotient, with
`K = bitlen ms + 55`: `T * 2^(-e) * ms <= (2 * n + 1) * 2^K` for the truncated
rounded quotient `T` (with `2^e` moved to the right-hand side when `e >= 0`). -/
theorem quot_trunc_bound {n ms : Nat} (e : Int) (hn : n ≠ 0) (hn52 : n < 2 ^ 52) (hms : ms ≠ 0)
    {b : Nat} (hb : b ≤ 1) :
    truncMag (roundUnits (2 * (n * 2 ^ (bitlen ms + 55) / ms) + b) e) e * 2 ^ (-e).toNat * ms
      ≤ (2 * n + 1) * 2 ^ (bitlen ms + 55) * 2 ^ e.toNat := by
  obtain ⟨hb1, hb2⟩ := quot_bitlen hn hn52 hms hb
  have hmpos : 0 < ms := Nat.pos_of_ne_zero hms
  have hms2 := lt_two_pow_bitlen ms
  have hA : n * 2 ^ (bitlen ms + 55) / ms * ms ≤ n * 2 ^ (bitlen ms + 55) :=
    Nat.div_mul_le_self _ _
  have hK : 2 ^ (bitlen ms + 55) = 2 ^ 55 * 2 ^ bitlen ms := by rw [pow_add]; ring
  generalize hAA : n * 2 ^ (bitlen ms + 55) = A at *
  generalize hNN : 2 * (A / ms) + b = N at *
  have hshdef : roundShift N e = max (bitlen N - 53) (EMIN - e).toNat := rfl
  have hmain : roundShift N e ≤ 56 →
      roundUnits N e * ms ≤ (2 * n + 1) * 2 ^ (bitlen ms + 55) := by
    intro hsh
    have hsh2 : 2 ≤ roundShift N e := by rw [hshdef]; omega
    have hQ : roundUnits N e ≤ 2 * (A / ms) + 2 ^ (roundShift N e - 1) := by
      have h0 := @roundMant_mul_le_even (2 * (A / ms)) b (roundShift N e) hb (by omega) hsh2
      rw [hNN] at h0
      exact h0
    have hP : 2 ^ (roundShift N e - 1) ≤ 2 ^ 55 := Nat.pow_le_pow_right (by decide) (by omega)
    calc roundUnits N e * ms
        ≤ (2 * (A / ms) + 2 ^ 55) * ms := Nat.mul_le_mul_right _ (by omega)
      _ = 2 * (A / ms * ms) + 2 ^ 55 * ms := by ring
      _ ≤ 2 * A + 2 ^ 55 * 2 ^ bitlen ms := by
          have := Nat.mul_le_mul_left (2 ^ 55) (Nat.le_of_lt hms2)
          omega
      _ = (2 * n + 1) * 2 ^ (bitlen ms + 55) := by rw [hK, ← hAA, hK]; ring
  by_cases he : e < 0
  · have htm : truncMag (roundUnits N e) e = roundUnits N e / 2 ^ (-e).toNat := by
      unfold truncMag
      rw [if_neg (by omega)]
    have he0 : e.toNat = 0 := by omega
    rw [htm, he0, pow_zero, Nat.mul_one]
    by_cases hsh : roundShift N e ≤ 56
    · have h1 : roundUnits N e / 2 ^ (-e).toNat * 2 ^ (-e).toNat ≤ roundUnits N e :=
        Nat.div_mul_le_self _ _
      exact le_trans (Nat.mul_le_mul_right _ h1) (hmain hsh)
    · have hsh1 : roundShift N e = (EMIN - e).toNat := by rw [hshdef]; omega
      have hk1 : (-e).toNat = roundShift N e + 1074 := by
        rw [hsh1]; unfold EMIN; unfold EMIN at hsh1; omega
      have hNlt : N < 2 ^ 109 := lt_of_lt_of_le (lt_two_pow_bitlen N)
        (Nat.pow_le_pow_right (by decide) hb2)
      unfold roundUnits
      generalize roundShift N e = sh at hsh hk1 ⊢
      have hq : N / 2 ^ sh < 2 ^ 53 := by
        rw [Nat.div_lt_iff_lt_mul (Nat.pow_pos (by decide))]
        have : 2 ^ 109 ≤ 2 ^ 53 * 2 ^ sh := by
          rw [← pow_add]
          exact Nat.pow_le_pow_right (by decide) (by omega)
        omega
      have hm := roundMant_le_div_succ N sh
      have hQ : roundMant N sh * 2 ^ sh < 2 ^ (-e).toNat := by
        rw [hk1]
        have h53 : roundMant N sh ≤ 2 ^ 53 := by omega
        calc roundMant N sh * 2 ^ sh ≤ 2 ^ 53 * 2 ^ sh := Nat.mul_le_mul_right _ h53
          _ = 2 ^ (53 + sh) := by rw [pow_add]
          _ < 2 ^ (sh + 1074) := Nat.pow_lt_pow_right (by decide) (by omega)
      rw [Nat.div_eq_of_lt hQ, Nat.zero_mul, Nat.zero_mul]
      exact Nat.zero_le _
  · have he0 : 0 ≤ e := by omega
    have htm : truncMag (roundUnits N e) e = roundUnits N e * 2 ^ e.toNat := by
      unfold truncMag
      rw [if_pos he0]
    have hn0 : (-e).toNat = 0 := by omega
    have hsh : roundShift N e ≤ 56 := by
      rw [hshdef]; unfold EMIN; omega
    rw [htm, hn0, pow_zero, Nat.mul_one]
    calc roundUnits N e * 2 ^ e.toNat * ms = roundUnits N e * ms * 2 ^ e.toNat := by ring
      _ ≤ (2 * n + 1) * 2 ^ (bitlen ms + 55) * 2 ^ e.toNat :=
          Nat.mul_le_mul_right _ (hmain hsh)

/-- A multiple `T` of the speed that exceeds `n < 2^52` by at most a half is
below `2^53` as a product and truncates to at most `n` after rounding. The
bound `T * speed <= n + 1/2` is given with the exponent of the speed split as
`es = k1 - j1 - (K + 1)`. -/
theorem mulMag_le_of_bound {T ms n K k1 j1 : Nat} {es : Int} (hn52 : n < 2 ^ 52)
    (hT : roundUnits T 0 = T) (hes : es + ((K : Int) + 1) + (j1 : Int) = (k1 : Int))
    (h : T * 2 ^ k1 * ms ≤ (2 * n + 1) * 2 ^ K * 2 ^ j1) :
    smallVal (T * ms) es ∧ mulMag T ms es ≤ n := by
  unfold mulMag
  rw [hT]
  by_cases he : 0 ≤ es
  · obtain ⟨E, hE⟩ : ∃ E : Nat, es.toNat = E := ⟨_, rfl⟩
    have hk : k1 = E + 1 + (K + j1) := by omega
    have hPK : 0 < 2 ^ (K + j1) := Nat.pow_pos (by decide)
    have e1 : T * 2 ^ k1 * ms = 2 * (T * ms * 2 ^ E) * 2 ^ (K + j1) := by
      rw [hk, pow_add, pow_add]; ring
    have e2 : (2 * n + 1) * 2 ^ K * 2 ^ j1 = (2 * n + 1) * 2 ^ (K + j1) := by
      rw [pow_add]; ring
    rw [e1, e2] at h
    have h2 : 2 * (T * ms * 2 ^ E) ≤ 2 * n + 1 := Nat.le_of_mul_le_mul_right h hPK
    have h3 : T * ms * 2 ^ E ≤ n := by omega
    have hle : T * ms ≤ T * ms * 2 ^ E := Nat.le_mul_of_pos_right _ (Nat.pow_pos (by decide))
    have hsm : smallVal (T * ms) es := by
      unfold smallVal
      rw [if_pos he, hE]
      omega
    refine ⟨hsm, ?_⟩
    have hbl : bitlen (T * ms) ≤ 53 := bitlen_le_of_lt (by omega)
    have hsh : roundShift (T * ms) es = 0 := by
      unfold roundShift EMIN
      omega
    rw [roundUnits_of_shift_zero hsh]
    unfold truncMag
    rw [if_pos he, hE]
    exact h3
  · have hes0 : es < 0 := by omega
    obtain ⟨kk, hkk⟩ : ∃ kk : Nat, (-es).toNat = kk + 1 := ⟨(-es).toNat - 1, by omega⟩
    have hK : K + j1 = k1 + kk := by omega
    have hPk : 0 < 2 ^ k1 := Nat.pow_pos (by decide)
    have e1 : T * 2 ^ k1 * ms = T * ms * 2 ^ k1 := by ring
    have e2 : (2 * n + 1) * 2 ^ K * 2 ^ j1 = (2 * n + 1) * 2 ^ kk * 2 ^ k1 := by
      rw [mul_assoc, ← pow_add, hK, pow_add]; ring
    rw [e1, e2] at h
    have h2 : T * ms ≤ (2 * n + 1) * 2 ^ kk := Nat.le_of_mul_le_mul_right h hPk
    have hsm : smallVal (T * ms) es := by
      unfold smallVal
      rw [if_neg he, hkk]
      have : (2 * n + 1) * 2 ^ kk < 2 ^ 53 * 2 ^ kk :=
        Nat.mul_lt_mul_of_pos_right (by omega) (Nat.pow_pos (by decide))
      have e3 : 2 ^ (53 + (kk + 1)) = 2 * (2 ^ 53 * 2 ^ kk) := by
        rw [show 53 + (kk + 1) = (53 + kk) + 1 from by omega, pow_succ, pow_add]; ring
      omega
    refine ⟨hsm, ?_⟩
    apply truncMag_roundUnits_le_half hes0 (by omega : 2 * n + 1 < 2 ^ 53)
    rw [hkk, Nat.add_sub_cancel]
    exact h2

theorem toInt64_finite_pos {m : Nat} {e : Int} (h : truncMag m e ≤ 2 ^ 53) :
    toInt64 (Double.finite false m e) = (truncMag m e : Int) := by
  have hin : inInt64 (truncMag m e : Int) := by
    unfold inInt64 INT64_MIN INT64_MAX
    constructor <;> omega
  simp only [toInt64, Double.trunc, Bool.false_eq_true, if_false, if_pos hin]

theorem inInt64_toInt64 (d : Double) : inInt64 (toInt64 d) := by
  unfold toInt64
  split
  · split_ifs with h
    · exact h
    · unfold inInt64 INT64_MIN INT64_MAX; decide
  · unfold inInt64 INT64_MIN INT64_MAX; decide

theorem timespec_to_ns_ns_to_timespec_nonneg {x : Int} (hx : inInt64 x) :
    0 ≤ timespec_to_ns (ns_to_timespec x) := by
  by_cases h : x < 0
  · have : ns_to_timespec x = { tv_sec := 0, tv_nsec := 0 } := by
      unfold ns_to_timespec
      rw [if_pos h]
    rw [this]
    decide
  · rw [timespec_to_ns_ns_to_timespec (by omega) hx]
    omega

/-- An integer `c * 2^j` with `c <= 2^53` is a binary64 value. -/
theorem roundUnits_mul_two_pow {c : Nat} (j : Nat) (hc : c ≤ 2 ^ 53) :
    roundUnits (c * 2 ^ j) 0 = c * 2 ^ j := by
  have hdvd : 2 ^ (bitlen (c * 2 ^ j) - 53) ∣ c * 2 ^ j := by
    rcases Nat.lt_or_ge c (2 ^ 53) with h1 | h1
    · have h2 : c * 2 ^ j < 2 ^ (53 + j) := by
        rw [pow_add]
        exact Nat.mul_lt_mul_of_pos_right h1 (Nat.pow_pos (by decide))
      have hb := bitlen_le_of_lt h2
      exact Dvd.dvd.mul_left (Nat.pow_dvd_pow 2 (by omega)) c
    · have hc1 : c = 2 ^ 53 := Nat.le_antisymm hc h1
      subst hc1
      have h2 : 2 ^ 53 * 2 ^ j < 2 ^ (54 + j) := by
        rw [← pow_add]
        exact Nat.pow_lt_pow_right (by decide) (by omega)
      have hb := bitlen_le_of_lt h2
      have h3 : 2 ^ 53 * 2 ^ j = 2 ^ (53 + j) := by rw [pow_add]
      rw [h3] at hb ⊢
      exact Nat.pow_dvd_pow 2 (by omega)
  unfold roundUnits
  rw [roundShift_zero_exp, roundMant_of_mod_eq_zero (Nat.mod_eq_zero_of_dvd hdvd)]
  exact Nat.div_mul_cancel hdvd

/-- The significand rounding produces is at most `2^53`. -/
theorem roundMant_roundShift_le (N : Nat) (e : Int) : roundMant N (roundShift N e) ≤ 2 ^ 53 := by
  have h1 := lt_two_pow_bitlen N
  have hsh : bitlen N ≤ 53 + roundShift N e := by unfold roundShift; omega
  have h2 : N < 2 ^ 53 * 2 ^ roundShift N e := by
    rw [← pow_add]
    exact lt_of_lt_of_le h1 (Nat.pow_le_pow_right (by decide) hsh)
  have h3 : N / 2 ^ roundShift N e < 2 ^ 53 := by
    rw [Nat.div_lt_iff_lt_mul (Nat.pow_pos (by decide))]
    exact h2
  have := roundMant_le_div_succ N (roundShift N e)
  omega

/-- The truncation of a binary64 value is a binary64 value. -/
theorem roundUnits_truncMag (N : Nat) (e : Int) :
    roundUnits (truncMag (roundUnits N e) e) 0 = truncMag (roundUnits N e) e := by
  have hm := roundMant_roundShift_le N e
  have hT : truncMag (roundUnits N e) e
      = truncMag (roundMant N (roundShift N e)) (e + (roundShift N e : Nat)) := by
    unfold roundUnits
    rw [truncMag_shift]
  rw [hT]
  generalize roundMant N (roundShift N e) = c at hm
  generalize e + (roundShift N e : Nat) = x
  unfold truncMag
  split_ifs with hx
  · exact roundUnits_mul_two_pow _ hm
  · exact roundUnits_le_two_pow_53 (le_trans (Nat.div_le_self _ _) hm)

/-- The real duration issued (after the clamp of `ns_to_timespec`) is between 0
and the truncated rounded quotient. -/
theorem issued_le (N : Nat) (e : Int) :
    timespec_to_ns (ns_to_timespec (toInt64 (roundFin false N e)))
      ≤ (truncMag (roundUnits N e) e : Int) := by
  have hin := inInt64_toInt64 (roundFin false N e)
  have key : toInt64 (roundFin false N e) = (truncMag (roundUnits N e) e : Int) ∨
      toInt64 (roundFin false N e) = INT64_MIN := by
    have hT : truncMag (roundUnits N e) e
        = truncMag (roundMant N (roundShift N e)) (e + (roundShift N e : Nat)) := by
      unfold roundUnits
      rw [truncMag_shift]
    rw [hT]
    unfold roundFin
    simp only
    split_ifs with hov
    · right; rfl
    · simp only [toInt64, Double.trunc, Bool.false_eq_true, if_false]
      split_ifs
      · left; rfl
      · right; rfl
  rcases key with h | h
  · rw [h] at hin ⊢
    rw [timespec_to_ns_ns_to_timespec (Int.natCast_nonneg _) hin]
  · rw [h]
    have : timespec_to_ns (ns_to_timespec INT64_MIN) = 0 := by decide
    rw [this]
    exact Int.natCast_nonneg _

/-- The virtual remainder is between 0 and the request: for a finite speed
`ms * 2^es > 0`, a request of `0 <= d < 2^52` ns, and a remaining real duration
`R` between 0 and the duration issued. -/
theorem remainder_le_request {ms : Nat} {es : Int} (hms : ms ≠ 0) {d : Int} (hd0 : 0 ≤ d)
    (hd : d < 2 ^ 52) {R : Int} (hR0 : 0 ≤ R)
    (hR : R ≤ timespec_to_ns (ns_to_timespec
      (toInt64 (fdiv (ofInt64 d) (Double.finite false ms es))))) :
    0 ≤ toInt64 (fmul (ofInt64 R) (Double.finite false ms es)) ∧
    toInt64 (fmul (ofInt64 R) (Double.finite false ms es)) ≤ d := by
  by_cases hz : d = 0
  · subst hz
    have h0 : toInt64 (fdiv (ofInt64 0) (Double.finite false ms es)) = 0 := by
      rw [ofInt64_zero]
      simp only [fdiv, if_neg hms, Nat.zero_mul, Nat.zero_div, Nat.mul_zero, Nat.zero_mod,
        if_true, Nat.add_zero, roundFin_zero, toInt64_finite_zero]
    rw [h0] at hR
    have h1 : timespec_to_ns (ns_to_timespec 0) = 0 := by decide
    rw [h1] at hR
    have hR' : R = 0 := by omega
    subst hR'
    rw [ofInt64_zero, toInt64_fmul_zero_left]
    exact ⟨le_refl _, le_refl _⟩
  · have hn0 : d.natAbs ≠ 0 := by omega
    have hn52 : d.natAbs < 2 ^ 52 := by omega
    have hn53 : d.natAbs < 2 ^ 53 := by omega
    have hb : (if d.natAbs * 2 ^ (bitlen ms + 55) % ms = 0 then 0 else 1) ≤ 1 := by
      split_ifs <;> omega
    have hdneg : decide (d < 0) = false := by simp; omega
    rw [ofInt64_eq, roundUnits_small hn53, hdneg] at hR
    simp only [fdiv, if_neg hms, Bool.xor_false] at hR
    have hRT := le_trans hR (issued_le _ _)
    have hbound := @quot_trunc_bound d.natAbs ms
      (0 - es - ((bitlen ms + 55 : ℕ) : Int) - 1) hn0 hn52 hms _ hb
    generalize hTT : truncMag (roundUnits (2 * (d.natAbs * 2 ^ (bitlen ms + 55) / ms)
        + (if d.natAbs * 2 ^ (bitlen ms + 55) % ms = 0 then 0 else 1))
        (0 - es - ((bitlen ms + 55 : ℕ) : Int) - 1))
      (0 - es - ((bitlen ms + 55 : ℕ) : Int) - 1) = T at hRT hbound
    have hTd : roundUnits T 0 = T := by
      rw [← hTT]
      exact roundUnits_truncMag _ _
    obtain ⟨hsm, hmul⟩ := mulMag_le_of_bound hn52 hTd
      (by omega : es + (((bitlen ms + 55 : ℕ) : Int) + 1)
        + (((0 - es - ((bitlen ms + 55 : ℕ) : Int) - 1).toNat : ℕ) : Int)
        = (((-(0 - es - ((bitlen ms + 55 : ℕ) : Int) - 1)).toNat : ℕ) : Int)) hbound
    have hRn : R.natAbs ≤ T := by omega
    have hru : roundUnits R.natAbs 0 ≤ T := by
      have := @roundUnits_mono R.natAbs T 0 hRn
      rw [hTd] at this
      exact this
    have hsmR : smallVal (roundUnits R.natAbs 0 * ms) es :=
      smallVal_mono (Nat.mul_le_mul_right _ hru) hsm
    have hmono := mulMag_mono ms es hRn
    have hneg : decide (R < 0) = false := by simp; omega
    rw [ofInt64_eq, hneg]
    simp only [fmul, zero_add, Bool.xor_false]
    rw [roundFin_of_smallVal _ hsmR]
    have htr := truncMag_shift (roundMant (roundUnits R.natAbs 0 * ms)
        (roundShift (roundUnits R.natAbs 0 * ms) es))
      (roundShift (roundUnits R.natAbs 0 * ms) es) es
    rw [← roundUnits] at htr
    have hval : truncMag (roundMant (roundUnits R.natAbs 0 * ms)
          (roundShift (roundUnits R.natAbs 0 * ms) es))
        (es + (roundShift (roundUnits R.natAbs 0 * ms) es : Nat)) = mulMag R.natAbs ms es := by
      rw [← htr]; rfl
    rw [toInt64_finite_pos (by rw [hval]; omega), hval]
    omega

/-! ## Re-anchoring at an unchanged speed -/

/-- Rounding to a multiple of `2^sh` adds at most half a unit. -/
theorem roundMant_mul_le_half {N sh : Nat} (hsh : 1 ≤ sh) :
    roundMant N sh * 2 ^ sh ≤ N + 2 ^ (sh - 1) := by
  obtain ⟨j, rfl⟩ : ∃ j, sh = j + 1 := ⟨sh - 1, by omega⟩
  have e1 : 2 ^ (j + 1) = 2 * 2 ^ j := by rw [pow_succ]; ring
  have hP : 0 < 2 ^ j := Nat.pow_pos (by decide)
  have hdm := Nat.div_add_mod N (2 ^ (j + 1))
  have hlt := Nat.mod_lt N (Nat.pow_pos (by decide : 0 < 2) : 0 < 2 ^ (j + 1))
  rw [Nat.add_sub_cancel]
  unfold roundMant
  generalize hq : N / 2 ^ (j + 1) = q at hdm
  generalize hr : N % 2 ^ (j + 1) = rm at hdm hlt
  rw [e1] at hdm hlt ⊢
  generalize 2 ^ j = P at hP hdm hlt
  have e3 : (q + 1) * (2 * P) = 2 * P * q + 2 * P := by ring
  have e4 : q * (2 * P) = 2 * P * q := by ring
  split_ifs with h1 h2 h3
  · rw [e4]; omega
  · rw [e3]; omega
  · rw [e4]; omega
  · rw [e3]; omega

/-- Below `2^53` rounding followed by truncation adds at most a half
(negative exponent `e = -k`): `2 * T * 2^k <= 2 * N + 2^k`. -/
theorem truncMag_roundUnits_half_up {N : Nat} {e : Int} (he : e < 0)
    (h : N < 2 ^ (53 + (-e).toNat)) :
    2 * (truncMag (roundUnits N e) e * 2 ^ (-e).toNat) ≤ 2 * N + 2 ^ (-e).toNat := by
  have hsh := roundShift_le_of_small he h
  have htm : truncMag (roundUnits N e) e = roundUnits N e / 2 ^ (-e).toNat := by
    unfold truncMag
    rw [if_neg (by omega)]
  rw [htm]
  have h1 : roundUnits N e / 2 ^ (-e).toNat * 2 ^ (-e).toNat ≤ roundUnits N e :=
    Nat.div_mul_le_self _ _
  have hP : 0 < 2 ^ (-e).toNat := Nat.pow_pos (by decide)
  by_cases h0 : roundShift N e = 0
  · rw [roundUnits_of_shift_zero h0] at h1 ⊢
    omega
  · have h2 : roundUnits N e ≤ N + 2 ^ (roundShift N e - 1) :=
      roundMant_mul_le_half (by omega)
    have h3 : 2 * 2 ^ (roundShift N e - 1) ≤ 2 ^ (-e).toNat := by
      rw [← pow_succ']
      exact Nat.pow_le_pow_right (by decide) (by omega)
    omega

/-- Below `2^53` the truncated rounded value exceeds the exact value by at
most a half. -/
theorem truncMag_roundUnits_rat_up {N : Nat} {e : Int} (h : smallVal N e) :
    ((truncMag (roundUnits N e) e : ℕ) : ℚ) ≤ (N : ℚ) * (2 : ℚ) ^ e + 1 / 2 := by
  unfold smallVal at h
  split_ifs at h with he
  · have hN : N < 2 ^ 53 :=
      lt_of_le_of_lt (Nat.le_mul_of_pos_right N (Nat.pow_pos (by decide))) h
    have hb := bitlen_le_of_lt hN
    have hsh : roundShift N e = 0 := by
      unfold roundShift EMIN; omega
    rw [roundUnits_of_shift_zero hsh]
    have e1 : (2 : ℚ) ^ e = ((2 ^ e.toNat : ℕ) : ℚ) := two_zpow_of_nonneg he
    unfold truncMag
    rw [if_pos he, e1]
    push_cast
    linarith
  · have he1 : e < 0 := by omega
    have h1 := truncMag_roundUnits_half_up he1 h
    generalize truncMag (roundUnits N e) e = t at h1 ⊢
    have e1 : (2 : ℚ) ^ e = ((2 : ℚ) ^ (-e).toNat)⁻¹ := two_zpow_of_neg he1
    generalize (-e).toNat = k at h1 e1
    have hP : (0 : ℚ) < 2 ^ k := by positivity
    have q1 : 2 * ((t : ℚ) * 2 ^ k) ≤ 2 * (N : ℚ) + 2 ^ k := by exact_mod_cast h1
    rw [e1, ← div_eq_mul_inv]
    have : (t : ℚ) - 1 / 2 ≤ (N : ℚ) / 2 ^ k := by
      rw [le_div_iff₀ hP]; linarith
    linarith

/-- The product `(double)d * speed` truncated, for a finite speed `>= 0` and a
non-negative operand, both operand and product below `2^53`: at most a half
above the exact product. -/
theorem product_le_half (s : Double) (d : Int) (hge : s.ge0 = true)
    (hfin : s.isFinite = true) (hd0 : 0 ≤ d) (hd : d < 2 ^ 53)
    (hp : (d : ℚ) * s.toRat < 2 ^ 53) :
    ((toInt64 (fmul (ofInt64 d) s) : ℤ) : ℚ) ≤ (d : ℚ) * s.toRat + 1 / 2 := by
  have hnat : ((d.natAbs : ℕ) : ℚ) = (d : ℚ) := by
    rw [Nat.cast_natAbs, abs_of_nonneg hd0]
  cases s with
  | nan => simp [Double.isFinite] at hfin
  | inf n => simp [Double.isFinite] at hfin
  | finite ns ms es =>
    by_cases hms : ms = 0
    · subst hms
      rw [ofInt64_eq, toInt64_fmul_zero_right]
      simp [Double.toRat]
    · have hns : ns = false := by
        simp only [Double.ge0, Bool.or_eq_true, Bool.not_eq_true', decide_eq_true_eq] at hge
        rcases hge with h | h
        · exact h
        · exact absurd h hms
      subst hns
      have hrat : (Double.finite false ms es).toRat = (ms : ℚ) * (2 : ℚ) ^ es := by
        simp [Double.toRat]
      rw [hrat] at hp ⊢
      have hsmall : smallVal (d.natAbs * ms) es := by
        apply smallVal_of_rat
        push_cast
        rw [mul_assoc, hnat]
        exact hp
      have hup := truncMag_roundUnits_rat_up hsmall
      have hnear := truncMag_roundUnits_rat hsmall
      have hneg : decide (d < 0) = false := by simp; omega
      rw [ofInt64_eq, roundUnits_small (by omega : d.natAbs < 2 ^ 53), hneg]
      simp only [fmul, zero_add, Bool.xor_false]
      rw [roundFin_of_smallVal _ hsmall]
      have htr := truncMag_shift (roundMant (d.natAbs * ms) (roundShift (d.natAbs * ms) es))
        (roundShift (d.natAbs * ms) es) es
      rw [← roundUnits] at htr
      push_cast at hup hnear
      rw [mul_assoc, hnat] at hup hnear
      have hT : truncMag (roundUnits (d.natAbs * ms) es) es ≤ 2 ^ 53 := by
        rw [abs_lt] at hnear
        have h1 : ((truncMag (roundUnits (d.natAbs * ms) es) es : ℕ) : ℚ) < 2 ^ 53 + 1 := by
          linarith [hnear.2]
        have h2 : truncMag (roundUnits (d.natAbs * ms) es) es < 2 ^ 53 + 1 := by
          exact_mod_cast h1
        omega
      rw [toInt64_finite_pos (by rw [← htr]; exact hT), ← htr]
      exact_mod_cast hup

/-- The product `(double)d * speed` truncated, for a finite speed `>= 0` and a
non-negative operand, both operand and product below `2^53`: within one of the
exact product. -/
theorem product_near_ge0 (s : Double) (d : Int) (hge : s.ge0 = true)
    (hfin : s.isFinite = true) (hd0 : 0 ≤ d) (hd : d < 2 ^ 53)
    (hp : (d : ℚ) * s.toRat < 2 ^ 53) :
    |((toInt64 (fmul (ofInt64 d) s) : ℤ) : ℚ) - (d : ℚ) * s.toRat| < 1 := by
  have hnat : ((d.natAbs : ℕ) : ℚ) = (d : ℚ) := by
    rw [Nat.cast_natAbs, abs_of_nonneg hd0]
  cases s with
  | nan => simp [Double.isFinite] at hfin
  | inf n => simp [Double.isFinite] at hfin
  | finite ns ms es =>
    by_cases hms : ms = 0
    · subst hms
      rw [ofInt64_eq, toInt64_fmul_zero_right]
      simp [Double.toRat]
    · have hns : ns = false := by
        simp only [Double.ge0, Bool.or_eq_true, Bool.not_eq_true', decide_eq_true_eq] at hge
        rcases hge with h | h
        · exact h
        · exact absurd h hms
      subst hns
      apply remainder_near
      · simp [Double.gt0, hms]
      · rfl
      · omega
      · rw [hnat]; exact hp

/-- C20 (amended): re-anchoring at an unchanged speed loses at most two
nanoseconds and gains at most one. For every clock state with a finite speed
`s >= 0`, every real reading `now >= real_base` and every later reading
`r >= now`, with `r - real_base` and `(r - real_base) * s` below `2^53` and the
virtual anchor within `2^62` of zero, calling `update_speed(s)` at `now` lowers
`scale_monotonic_ns(r)` by at most 2 ns and raises it by at most 1 ns. -/
theorem reanchor_drift (st : ClockState) (now w r : Int)
    (hge : st.g_speed.ge0 = true) (hfin : st.g_speed.isFinite = true)
    (hnow : st.g_real_base_mono_ns ≤ now) (hr : now ≤ r)
    (hd : r - st.g_real_base_mono_ns < 2 ^ 53)
    (hp : ((r - st.g_real_base_mono_ns : ℤ) : ℚ) * st.g_speed.toRat < 2 ^ 53)
    (hvb : st.g_scaled_base_mono_ns.natAbs ≤ 2 ^ 62) :
    scale_monotonic_ns st r - 2 ≤ scale_monotonic_ns (update_speed st now w st.g_speed) r ∧
    scale_monotonic_ns (update_speed st now w st.g_speed) r ≤ scale_monotonic_ns st r + 1 := by
  obtain ⟨s, rb, vb, rbw, vbw, fl⟩ := st
  simp only at hge hfin hnow hr hd hp hvb
  have hs0 : (0 : ℚ) ≤ s.toRat := by
    cases s with
    | nan => simp [Double.toRat]
    | inf n => simp [Double.toRat]
    | finite ns ms es =>
      by_cases hms : ms = 0
      · subst hms; simp [Double.toRat]
      · have hns : ns = false := by
          simp only [Double.ge0, Bool.or_eq_true, Bool.not_eq_true', decide_eq_true_eq] at hge
          rcases hge with h | h
          · exact h
          · exact absurd h hms
        subst hns
        simp only [Double.toRat, Bool.false_eq_true, if_false, one_mul]
        positivity
  have hq1 : ((now - rb : ℤ) : ℚ) ≤ ((r - rb : ℤ) : ℚ) := by exact_mod_cast (by omega)
  have hq2 : ((r - now : ℤ) : ℚ) ≤ ((r - rb : ℤ) : ℚ) := by exact_mod_cast (by omega)
  have hp1 : ((now - rb : ℤ) : ℚ) * s.toRat < 2 ^ 53 :=
    lt_of_le_of_lt (mul_le_mul_of_nonneg_right hq1 hs0) hp
  have hp2 : ((r - now : ℤ) : ℚ) * s.toRat < 2 ^ 53 :=
    lt_of_le_of_lt (mul_le_mul_of_nonneg_right hq2 hs0) hp
  have n0 := product_near_ge0 s (r - rb) hge hfin (by omega) hd hp
  have n1 := product_near_ge0 s (now - rb) hge hfin (by omega) (by omega) hp1
  have n2 := product_near_ge0 s (r - now) hge hfin (by omega) (by omega) hp2
  have u1 := product_le_half s (now - rb) hge hfin (by omega) (by omega) hp1
  have u2 := product_le_half s (r - now) hge hfin (by omega) (by omega) hp2
  have hn0 : (0 : ℚ) ≤ ((r - rb : ℤ) : ℚ) := by exact_mod_cast (by omega)
  have hn1 : (0 : ℚ) ≤ ((now - rb : ℤ) : ℚ) := by exact_mod_cast (by omega)
  have hn2 : (0 : ℚ) ≤ ((r - now : ℤ) : ℚ) := by exact_mod_cast (by omega)
  have hw0 : wrap64 (r - rb) = r - rb :=
    wrap64_of_inInt64 (by unfold inInt64 INT64_MIN INT64_MAX; constructor <;> omega)
  have hw1 : wrap64 (now - rb) = now - rb :=
    wrap64_of_inInt64 (by unfold inInt64 INT64_MIN INT64_MAX; constructor <;> omega)
  have hw2 : wrap64 (r - now) = r - now :=
    wrap64_of_inInt64 (by unfold inInt64 INT64_MIN INT64_MAX; constructor <;> omega)
  simp only [scale_monotonic_ns, update_speed, hw0, hw1, hw2]
  generalize toInt64 (fmul (ofInt64 (r - rb)) s) = B at n0
  generalize toInt64 (fmul (ofInt64 (now - rb)) s) = A1 at n1 u1
  generalize toInt64 (fmul (ofInt64 (r - now)) s) = A2 at n2 u2
  rw [abs_lt] at n0 n1 n2
  have e0 := mul_nonneg hn0 hs0
  have e1 := mul_nonneg hn1 hs0
  have e2 := mul_nonneg hn2 hs0
  have hsum : ((r - rb : ℤ) : ℚ) * s.toRat
      = ((now - rb : ℤ) : ℚ) * s.toRat + ((r - now : ℤ) : ℚ) * s.toRat := by
    push_cast; ring
  have bB1 : (B : ℚ) < 2 ^ 53 + 1 := by linarith [n0.2]
  have bB2 : (-1 : ℚ) < (B : ℚ) := by linarith [n0.1]
  have bA1 : (A1 : ℚ) < 2 ^ 53 + 1 := by linarith [n1.2]
  have bA1' : (-1 : ℚ) < (A1 : ℚ) := by linarith [n1.1]
  have bA2 : (A2 : ℚ) < 2 ^ 53 + 1 := by linarith [n2.2]
  have bA2' : (-1 : ℚ) < (A2 : ℚ) := by linarith [n2.1]
  have d1 : ((A1 + A2 - B : ℤ) : ℚ) < 2 := by push_cast; linarith [n0.1, u1, u2]
  have d2 : (-3 : ℚ) < ((A1 + A2 - B : ℤ) : ℚ) := by push_cast; linarith [n0.2, n1.1, n2.1]
  have iB1 : B < 2 ^ 53 + 1 := by exact_mod_cast bB1
  have iB2 : -1 < B := by exact_mod_cast bB2
  have iA1 : A1 < 2 ^ 53 + 1 := by exact_mod_cast bA1
  have iA1' : -1 < A1 := by exact_mod_cast bA1'
  have iA2 : A2 < 2 ^ 53 + 1 := by exact_mod_cast bA2
  have iA2' : -1 < A2 := by exact_mod_cast bA2'
  have id1 : A1 + A2 - B < 2 := by exact_mod_cast d1
  have id2 : -3 < A1 + A2 - B := by exact_mod_cast d2
  have hvb' : -(2 ^ 62) ≤ vb ∧ vb ≤ 2 ^ 62 := by omega
  have hwB : wrap64 (vb + B) = vb + B :=
    wrap64_of_inInt64 (by unfold inInt64 INT64_MIN INT64_MAX; constructor <;> omega)
  have hwA1 : wrap64 (vb + A1) = vb + A1 :=
    wrap64_of_inInt64 (by unfold inInt64 INT64_MIN INT64_MAX; constructor <;> omega)
  have hwA2 : wrap64 (vb + A1 + A2) = vb + A1 + A2 :=
    wrap64_of_inInt64 (by unfold inInt64 INT64_MIN INT64_MAX; constructor <;> omega)
  rw [hwB, hwA1, hwA2]
  constructor <;> omega

/-- Witness of C20 (amended): speed 2.0, anchor `(1700, 1700)`, re-anchored
at reading 1705 and read at 1709. -/
theorem reanchor_drift_witness :
    double_state.g_speed.ge0 = true ∧ double_state.g_speed.isFinite = true ∧
    scale_monotonic_ns double_state 1709 - 2
      ≤ scale_monotonic_ns (update_speed double_state 1705 0 double_state.g_speed) 1709 ∧
    scale_monotonic_ns (update_speed double_state 1705 0 double_state.g_speed) 1709
      ≤ scale_monotonic_ns double_state 1709 + 1 :=
  ⟨by decide, by decide,
    reanchor_drift double_state 1705 0 1709 (by decide) (by decide) (by decide) (by decide)
      (by decide)
      (by
        have h : double_state.g_real_base_mono_ns = 1700 := by decide
        rw [h, double_state_toRat]
        norm_num)
      (by decide)⟩

set_option maxRecDepth 100000 in
/-- C20 (as stated) fails: at speed 0.1 (the float) with the anchor `(0, 0)`,
re-anchoring at reading 738197499 raises the value at reading 2080374769 from
208037479 to 208037480 (a gain), and re-anchoring at reading 67108859 lowers
the value at reading 2684354540 from 268435458 to 268435456 (a loss of two
nanoseconds). -/
theorem reanchor_gains_and_loses_two :
    tenth_state.g_speed.ge0 = true ∧
    tenth_state.g_real_base_mono_ns = 0 ∧
    scale_monotonic_ns tenth_state 2080374769 = 208037479 ∧
    scale_monotonic_ns (update_speed tenth_state 738197499 0 tenth_state.g_speed) 2080374769
      = 208037480 ∧
    scale_monotonic_ns tenth_state 2684354540 = 268435458 ∧
    scale_monotonic_ns (update_speed tenth_state 67108859 0 tenth_state.g_speed) 2684354540
      = 268435456 := by
  decide



/-! ## The remainder of an interrupted sleep, every request -/

/-- Rounding raises a value by at most one part in `2^53`, unless the result
truncates to zero (a subnormal result far below 1). -/
theorem roundUnits_rel (N : Nat) (e : Int) :
    roundUnits N e * 2 ^ 53 ≤ (2 ^ 53 + 1) * N ∨ truncMag (roundUnits N e) e = 0 := by
  have hshdef : roundShift N e = max (bitlen N - 53) (EMIN - e).toNat := rfl
  by_cases h0 : roundShift N e = 0
  · left
    rw [roundUnits_of_shift_zero h0]
    omega
  · by_cases hn : roundShift N e = bitlen N - 53
    · left
      have h1 : roundUnits N e ≤ N + 2 ^ (roundShift N e - 1) :=
        roundMant_mul_le_half (by omega)
      have hN0 : N ≠ 0 := by
        intro h
        subst h
        rw [bitlen_zero] at hn
        omega
      have h2 := two_pow_bitlen_le hN0
      have h3 : 2 ^ (roundShift N e - 1) * 2 ^ 53 = 2 ^ (bitlen N - 1) := by
        rw [← pow_add]
        congr 1
        omega
      generalize 2 ^ (roundShift N e - 1) = p at h1 h3
      generalize roundUnits N e = Q at h1
      omega
    · right
      have hsh1 : roundShift N e = (EMIN - e).toNat := by
        rw [hshdef] at hn ⊢
        omega
      have hk : (-e).toNat = roundShift N e + 1074 := by
        unfold EMIN at hsh1
        omega
      have hm := roundMant_roundShift_le N e
      have he : ¬ 0 ≤ e := by omega
      unfold truncMag roundUnits
      rw [if_neg he, hk]
      apply Nat.div_eq_of_lt
      calc roundMant N (roundShift N e) * 2 ^ roundShift N e
          ≤ 2 ^ 53 * 2 ^ roundShift N e := Nat.mul_le_mul_right _ hm
        _ = 2 ^ (53 + roundShift N e) := by rw [pow_add]
        _ < 2 ^ (roundShift N e + 1074) := Nat.pow_lt_pow_right (by decide) (by omega)

/-- Truncation never raises a magnitude: `T * 2^(-e) <= X * 2^e` with the
exponent split by sign. -/
theorem truncMag_scaled (X : Nat) (e : Int) :
    truncMag X e * 2 ^ (-e).toNat ≤ X * 2 ^ e.toNat := by
  unfold truncMag
  split_ifs with he
  · have h0 : (-e).toNat = 0 := by omega
    rw [h0, pow_zero, Nat.mul_one]
  · have h0 : e.toNat = 0 := by omega
    rw [h0, pow_zero, Nat.mul_one]
    exact Nat.div_mul_le_self _ _

/-- Rounding and truncating together raise a value by at most one part in
`2^53`. -/
theorem truncMag_roundUnits_rel (N : Nat) (e : Int) :
    truncMag (roundUnits N e) e * 2 ^ (-e).toNat * 2 ^ 53
      ≤ (2 ^ 53 + 1) * N * 2 ^ e.toNat := by
  rcases roundUnits_rel N e with h | h
  · have h1 := truncMag_scaled (roundUnits N e) e
    calc truncMag (roundUnits N e) e * 2 ^ (-e).toNat * 2 ^ 53
        ≤ roundUnits N e * 2 ^ e.toNat * 2 ^ 53 := Nat.mul_le_mul_right _ h1
      _ = roundUnits N e * 2 ^ 53 * 2 ^ e.toNat := by ring
      _ ≤ (2 ^ 53 + 1) * N * 2 ^ e.toNat := Nat.mul_le_mul_right _ h
  · rw [h, Nat.zero_mul, Nat.zero_mul]
    exact Nat.zero_le _

/-- The conversion `(double)n` raises `n` by at most one part in `2^53`. -/
theorem ofInt64_rel (n : Nat) : roundUnits n 0 * 2 ^ 53 ≤ (2 ^ 53 + 1) * n := by
  have h := truncMag_roundUnits_rel n 0
  have h1 : truncMag (roundUnits n 0) 0 = roundUnits n 0 := by
    unfold truncMag
    simp
  rw [h1] at h
  simpa using h

/-- The conversion of a rounded value to `int64_t` is the truncated magnitude
or, out of range, `INT64_MIN`. -/
theorem toInt64_roundFin (N : Nat) (e : Int) :
    toInt64 (roundFin false N e) = (truncMag (roundUnits N e) e : Int) ∨
      toInt64 (roundFin false N e) = INT64_MIN := by
  have hT : truncMag (roundUnits N e) e
      = truncMag (roundMant N (roundShift N e)) (e + (roundShift N e : Nat)) := by
    unfold roundUnits
    rw [truncMag_shift]
  rw [hT]
  unfold roundFin
  simp only
  split_ifs with hov
  · right; rfl
  · simp only [toInt64, Double.trunc, Bool.false_eq_true, if_false]
    split_ifs
    · left; rfl
    · right; rfl

/-- The quotient and the product compose: with each rounding raising its value
by at most one part in `2^53`, the product of the issued duration and the
speed is at most `(1 + 2^-53)^2 * (D + 1/2)`, where `D` is the request as a
double. The exponents of the quotient (`j1 - k1`) and of the speed (`jj - kk`)
add up to `-(K + 1)`. -/
theorem chain_bound {V T N D ms K k1 j1 kk jj : Nat}
    (hN : N * ms ≤ (2 * D + 1) * 2 ^ K)
    (h1 : T * 2 ^ k1 * 2 ^ 53 ≤ (2 ^ 53 + 1) * N * 2 ^ j1)
    (h2 : V * 2 ^ kk * 2 ^ 53 ≤ (2 ^ 53 + 1) * (T * ms) * 2 ^ jj)
    (hexp : j1 + jj + K + 1 = k1 + kk) :
    V * 2 ^ 107 ≤ (2 ^ 53 + 1) * (2 ^ 53 + 1) * (2 * D + 1) := by
  have hp : 2 ^ k1 * 2 ^ kk = 2 ^ j1 * 2 ^ jj * 2 ^ K * 2 := by
    rw [← pow_add, ← hexp, pow_add, pow_add, pow_add, pow_one]
  have ha : 0 < 2 ^ k1 := Nat.pow_pos (by decide)
  have hb : 0 < 2 ^ kk := Nat.pow_pos (by decide)
  have hc : 0 < 2 ^ j1 := Nat.pow_pos (by decide)
  have hd : 0 < 2 ^ jj := Nat.pow_pos (by decide)
  have hg : 0 < 2 ^ K := Nat.pow_pos (by decide)
  generalize 2 ^ k1 = a at hp ha h1
  generalize 2 ^ kk = b at hp hb h2
  generalize 2 ^ j1 = c at hp hc h1
  generalize 2 ^ jj = f at hp hd h2
  generalize 2 ^ K = g at hp hg hN
  have hpos : 0 < c * f * g := Nat.mul_pos (Nat.mul_pos hc hd) hg
  apply Nat.le_of_mul_le_mul_right _ hpos
  calc V * 2 ^ 107 * (c * f * g) = V * 2 ^ 106 * (c * f * g * 2) := by ring
    _ = V * 2 ^ 106 * (a * b) := by rw [hp]
    _ = V * b * 2 ^ 53 * (a * 2 ^ 53) := by ring
    _ ≤ (2 ^ 53 + 1) * (T * ms) * f * (a * 2 ^ 53) := Nat.mul_le_mul_right _ h2
    _ = (2 ^ 53 + 1) * f * ms * (T * a * 2 ^ 53) := by ring
    _ ≤ (2 ^ 53 + 1) * f * ms * ((2 ^ 53 + 1) * N * c) := Nat.mul_le_mul_left _ h1
    _ = (2 ^ 53 + 1) * (2 ^ 53 + 1) * c * f * (N * ms) := by ring
    _ ≤ (2 ^ 53 + 1) * (2 ^ 53 + 1) * c * f * ((2 * D + 1) * g) := Nat.mul_le_mul_left _ hN
    _ = (2 ^ 53 + 1) * (2 ^ 53 + 1) * (2 * D + 1) * (c * f * g) := by ring

/-- The virtual remainder exceeds no request by more than one part in `2^51`
plus one nanosecond: for a finite speed `ms * 2^es > 0`, a request of
`0 <= d < 2^63` ns, and a remaining real duration `R` between 0 and the
duration issued. -/
theorem remainder_le_general {ms : Nat} {es : Int} (hms : ms ≠ 0) {d : Int} (hd0 : 0 ≤ d)
    (hd : d < 2 ^ 63) {R : Int} (hR0 : 0 ≤ R)
    (hR : R ≤ timespec_to_ns (ns_to_timespec
      (toInt64 (fdiv (ofInt64 d) (Double.finite false ms es))))) :
    toInt64 (fmul (ofInt64 R) (Double.finite false ms es)) ≤ d + d / 2 ^ 51 + 1 := by
  have hb : (if roundUnits d.natAbs 0 * 2 ^ (bitlen ms + 55) % ms = 0 then 0 else 1) ≤ 1 := by
    split_ifs <;> omega
  have hdneg : decide (d < 0) = false := by simp; omega
  rw [ofInt64_eq, hdneg] at hR
  simp only [fdiv, if_neg hms, Bool.xor_false] at hR
  have hRT := le_trans hR (issued_le _ _)
  have hneg : decide (R < 0) = false := by simp; omega
  rw [ofInt64_eq, hneg]
  simp only [fmul, zero_add, Bool.xor_false]
  rcases toInt64_roundFin (roundUnits R.natAbs 0 * ms) es with h | h
  · rw [h]
    have h1 := truncMag_roundUnits_rel (2 * (roundUnits d.natAbs 0 * 2 ^ (bitlen ms + 55) / ms)
        + (if roundUnits d.natAbs 0 * 2 ^ (bitlen ms + 55) % ms = 0 then 0 else 1))
      (0 - es - ((bitlen ms + 55 : ℕ) : Int) - 1)
    have hTd := roundUnits_truncMag (2 * (roundUnits d.natAbs 0 * 2 ^ (bitlen ms + 55) / ms)
        + (if roundUnits d.natAbs 0 * 2 ^ (bitlen ms + 55) % ms = 0 then 0 else 1))
      (0 - es - ((bitlen ms + 55 : ℕ) : Int) - 1)
    have hD := ofInt64_rel d.natAbs
    have hms2 := lt_two_pow_bitlen ms
    have hA := Nat.div_mul_le_self (roundUnits d.natAbs 0 * 2 ^ (bitlen ms + 55)) ms
    have hK : 2 ^ (bitlen ms + 55) = 2 ^ 55 * 2 ^ bitlen ms := by rw [pow_add]; ring
    have hN : (2 * (roundUnits d.natAbs 0 * 2 ^ (bitlen ms + 55) / ms)
        + (if roundUnits d.natAbs 0 * 2 ^ (bitlen ms + 55) % ms = 0 then 0 else 1)) * ms
        ≤ (2 * roundUnits d.natAbs 0 + 1) * 2 ^ (bitlen ms + 55) := by
      generalize (if roundUnits d.natAbs 0 * 2 ^ (bitlen ms + 55) % ms = 0 then 0 else 1) = b
        at hb
      have hbm : b * ms ≤ ms := by
        have := Nat.mul_le_mul_right ms hb
        omega
      have hP : 0 < 2 ^ bitlen ms := Nat.pow_pos (by decide)
      calc (2 * (roundUnits d.natAbs 0 * 2 ^ (bitlen ms + 55) / ms) + b) * ms
          = 2 * (roundUnits d.natAbs 0 * 2 ^ (bitlen ms + 55) / ms * ms) + b * ms := by ring
        _ ≤ 2 * (roundUnits d.natAbs 0 * 2 ^ (bitlen ms + 55)) + 2 ^ (bitlen ms + 55) := by
            rw [hK] at hA ⊢
            omega
        _ = (2 * roundUnits d.natAbs 0 + 1) * 2 ^ (bitlen ms + 55) := by ring
    generalize hTT : truncMag (roundUnits (2 * (roundUnits d.natAbs 0 * 2 ^ (bitlen ms + 55) / ms)
        + (if roundUnits d.natAbs 0 * 2 ^ (bitlen ms + 55) % ms = 0 then 0 else 1))
        (0 - es - ((bitlen ms + 55 : ℕ) : Int) - 1))
      (0 - es - ((bitlen ms + 55 : ℕ) : Int) - 1) = T at hRT h1 hTd
    generalize (2 * (roundUnits d.natAbs 0 * 2 ^ (bitlen ms + 55) / ms)
        + (if roundUnits d.natAbs 0 * 2 ^ (bitlen ms + 55) % ms = 0 then 0 else 1)) = N
      at h1 hN
    have hRn : R.natAbs ≤ T := by omega
    have hmono : truncMag (roundUnits (roundUnits R.natAbs 0 * ms) es) es
        ≤ truncMag (roundUnits (T * ms) es) es := by
      have := mulMag_mono ms es hRn
      unfold mulMag at this
      rw [hTd] at this
      exact this
    have h2 := truncMag_roundUnits_rel (T * ms) es
    have hM := chain_bound hN h1 h2
      (by omega : (0 - es - ((bitlen ms + 55 : ℕ) : Int) - 1).toNat + es.toNat
        + (bitlen ms + 55) + 1
        = (-(0 - es - ((bitlen ms + 55 : ℕ) : Int) - 1)).toNat + (-es).toNat)
    generalize truncMag (roundUnits (T * ms) es) es = V at hmono hM
    generalize truncMag (roundUnits (roundUnits R.natAbs 0 * ms) es) es = W at hmono
    generalize roundUnits d.natAbs 0 = D at hD hM
    have hn : (d.natAbs : Int) = d := by omega
    have hn63 : d.natAbs < 2 ^ 63 := by omega
    generalize d.natAbs = n at hD hn hn63
    have hV : V ≤ n + n / 2 ^ 51 + 1 := by
      norm_num at hM hD hn63 ⊢
      omega
    omega
  · rw [h]
    unfold INT64_MIN
    omega

/-- The virtual remainder for every speed `> 0`, `+inf` included: it is the
timespec of a number of nanoseconds between 0 and the request plus one part in
`2^51` plus one, and at most the request when that is below `2^52`. -/
theorem remainder_bound (s : Double) (hpos : s.gt0 = true) {d : Int} (hd0 : 0 ≤ d)
    (hd : d < 2 ^ 63) {R : Int} (hR0 : 0 ≤ R)
    (hR : R ≤ timespec_to_ns (ns_to_timespec (toInt64 (fdiv (ofInt64 d) s)))) :
    ∃ v : Int, 0 ≤ v ∧ v ≤ d + d / 2 ^ 51 + 1 ∧ (d < 2 ^ 52 → v ≤ d) ∧
      ns_to_timespec (toInt64 (fmul (ofInt64 R) s))
        = { tv_sec := v / 1000000000, tv_nsec := v % 1000000000 } := by
  cases s with
  | nan => simp [Double.gt0] at hpos
  | inf n =>
    have hn : n = false := by simpa [Double.gt0] using hpos
    subst hn
    have h0 : toInt64 (fdiv (ofInt64 d) (Double.inf false)) = 0 := by
      simp only [ofInt64, fdiv, toInt64_finite_zero]
    rw [h0] at hR
    have h1 : timespec_to_ns (ns_to_timespec 0) = 0 := by decide
    rw [h1] at hR
    have hR1 : R = 0 := by omega
    subst hR1
    have h2 : toInt64 (fmul (ofInt64 0) (Double.inf false)) = INT64_MIN := by
      rw [ofInt64_zero]
      rfl
    rw [h2]
    refine ⟨0, le_refl _, by omega, fun _ => hd0, by decide⟩
  | finite ns ms es =>
    simp only [Double.gt0, Bool.and_eq_true, Bool.not_eq_true', decide_eq_true_eq] at hpos
    obtain ⟨hns, hms⟩ := hpos
    subst hns
    have hgen := remainder_le_general hms hd0 hd hR0 hR
    by_cases hw : toInt64 (fmul (ofInt64 R) (Double.finite false ms es)) < 0
    · refine ⟨0, le_refl _, by omega, fun _ => hd0, ?_⟩
      rw [ns_to_timespec_of_nonpos (le_of_lt hw)]
      rfl
    · refine ⟨toInt64 (fmul (ofInt64 R) (Double.finite false ms es)), by omega, hgen, ?_,
        ns_to_timespec_of_nonneg (by omega)⟩
      intro h52
      exact (remainder_le_request hms hd0 h52 hR0 hR).2

/-- C19 (amended): the reported remainder never exceeds a request below `2^52`
ns, and exceeds no request by more than one part in `2^51` plus one
nanosecond. For every speed `> 0` (`+inf` included) and every relative request
of `d >= 0` virtual nanoseconds, if the real sleep, whenever it is interrupted,
reports a remaining real duration between 0 and the real duration it was asked
to sleep, then the remainder `nanosleep` writes back is `v div 10^9` seconds and
`v mod 10^9` nanoseconds for an integer `v` with `0 <= v <= d + d / 2^51 + 1`,
and with `v <= d` when `d < 2^52`; consequently `sleep(seconds)` returns a value
`<= seconds` for every `seconds`. -/
theorem remainder_within_request (st : ClockState) (real : nanosleep_fn)
    (rq rem0 u : Timespec) (hpos : st.g_speed.gt0 = true) (hd0 : 0 ≤ timespec_to_ns rq)
    (hreal : ∀ adj : Timespec, 0 ≤ timespec_to_ns adj → (real (some adj) (some u)).1 ≠ 0 →
      ∃ rr, (real (some adj) (some u)).2 = some rr ∧ 0 ≤ timespec_to_ns rr ∧
        timespec_to_ns rr ≤ timespec_to_ns adj) :
    ((nanosleep st (some real) (some rq) (some rem0) u).1 ≠ 0 →
      ∃ v : Int, 0 ≤ v ∧ v ≤ timespec_to_ns rq + timespec_to_ns rq / 2 ^ 51 + 1 ∧
        (timespec_to_ns rq < 2 ^ 52 → v ≤ timespec_to_ns rq) ∧
        (nanosleep st (some real) (some rq) (some rem0) u).2
          = some { tv_sec := v / 1000000000, tv_nsec := v % 1000000000 }) ∧
    (∀ (syms : RealSymbols) (seconds : Nat) (rem1 : Timespec),
      syms.real_nanosleep = some real → seconds < 4294967296 →
      sleep st syms seconds rem1 u ≤ (seconds : Int)) := by
  have hle : st.g_speed.le0 = false := by
    cases hs : st.g_speed with
    | nan => rw [hs] at hpos; simp [Double.gt0] at hpos
    | inf n =>
      rw [hs] at hpos
      simpa [Double.gt0, Double.le0] using hpos
    | finite n m e =>
      rw [hs] at hpos
      simp only [Double.gt0, Bool.and_eq_true, Bool.not_eq_true', decide_eq_true_eq] at hpos
      simp [Double.le0, hpos.1, hpos.2]
  have hns : ∀ (rq1 rem1 : Timespec) x, 0 ≤ timespec_to_ns rq1 →
      (nanosleep st (some real) (some rq1) (some rem1) u) = x → x.1 ≠ 0 →
      ∃ v : Int, 0 ≤ v ∧ v ≤ timespec_to_ns rq1 + timespec_to_ns rq1 / 2 ^ 51 + 1 ∧
        (timespec_to_ns rq1 < 2 ^ 52 → v ≤ timespec_to_ns rq1) ∧
        x.2 = some { tv_sec := v / 1000000000, tv_nsec := v % 1000000000 } := by
    intro rq1 rem1 x hq0 hx hrc
    simp only [nanosleep, get_speed, hle, Bool.false_eq_true, if_false, reduceCtorEq,
      ne_eq, not_false_eq_true, and_true] at hx
    generalize hadj : ns_to_timespec
      (toInt64 (fdiv (ofInt64 (timespec_to_ns rq1)) st.g_speed)) = adj at hx
    by_cases h1 : (real (some adj) (some u)).1 = 0
    · rw [if_neg (by simp [h1])] at hx
      rw [← hx] at hrc
      exact absurd h1 hrc
    · rw [if_pos (by simpa using h1)] at hx
      have hadj0 : 0 ≤ timespec_to_ns adj := by
        rw [← hadj]
        exact timespec_to_ns_ns_to_timespec_nonneg (inInt64_toInt64 _)
      obtain ⟨rr, hrr, hr0, hr1⟩ := hreal adj hadj0 h1
      rw [hrr] at hx
      simp only [Option.getD_some] at hx
      rw [← hadj] at hr1
      have hin : inInt64 (timespec_to_ns rq1) := inInt64_wrap64 _
      have h63 : timespec_to_ns rq1 < 2 ^ 63 := by
        unfold inInt64 INT64_MAX at hin
        omega
      obtain ⟨v, hv0, hv1, hv2, hv3⟩ := remainder_bound st.g_speed hpos hq0 h63 hr0 hr1
      exact ⟨v, hv0, hv1, hv2, by rw [← hx, hv3]⟩
  refine ⟨hns rq rem0 _ hd0 rfl, ?_⟩
  intro syms seconds rem1 hsy hsec
  unfold sleep
  rw [hsy, Nat.mod_eq_of_lt hsec]
  have hrq : timespec_to_ns { tv_sec := (seconds : Int), tv_nsec := 0 }
      = (seconds : Int) * 1000000000 := by
    unfold timespec_to_ns
    simp only
    rw [wrap64_add_zero, wrap64_of_inInt64]
    unfold inInt64 INT64_MIN INT64_MAX
    constructor <;> omega
  split_ifs with h0
  · exact Int.natCast_nonneg _
  · obtain ⟨v, hv0, hv1, -, hv3⟩ :=
      hns { tv_sec := (seconds : Int), tv_nsec := 0 } rem1 _ (by rw [hrq]; omega) rfl h0
    rw [hv3]
    simp only [Option.getD_some]
    rw [hrq] at hv1
    omega

/-- Witness of C19 (amended): at speed 2.0 a request of three seconds, the
real sleep interrupted at once with the whole issued duration left. -/
theorem remainder_within_request_witness :
    double_state.g_speed.gt0 = true ∧
    0 ≤ timespec_to_ns { tv_sec := 3, tv_nsec := 0 } ∧
    (nanosleep double_state (some whole_left_nanosleep) (some { tv_sec := 3, tv_nsec := 0 })
      (some { tv_sec := 0, tv_nsec := 0 }) { tv_sec := 0, tv_nsec := 0 }).1 ≠ 0 ∧
    (∃ v : Int, 0 ≤ v ∧
      v ≤ timespec_to_ns { tv_sec := 3, tv_nsec := 0 }
        + timespec_to_ns { tv_sec := 3, tv_nsec := 0 } / 2 ^ 51 + 1 ∧
      (timespec_to_ns { tv_sec := 3, tv_nsec := 0 } < 2 ^ 52 →
        v ≤ timespec_to_ns { tv_sec := 3, tv_nsec := 0 }) ∧
      (nanosleep double_state (some whole_left_nanosleep) (some { tv_sec := 3, tv_nsec := 0 })
        (some { tv_sec := 0, tv_nsec := 0 }) { tv_sec := 0, tv_nsec := 0 }).2
        = some { tv_sec := v / 1000000000, tv_nsec := v % 1000000000 }) ∧
    sleep double_state all_resolved 3 { tv_sec := 0, tv_nsec := 0 }
      { tv_sec := 0, tv_nsec := 0 } ≤ ((3 : ℕ) : Int) :=
  have h := remainder_within_request double_state whole_left_nanosleep
    { tv_sec := 3, tv_nsec := 0 } { tv_sec := 0, tv_nsec := 0 } { tv_sec := 0, tv_nsec := 0 }
    (by decide) (by decide)
    (fun adj h0 _ => ⟨adj, rfl, h0, le_refl _⟩)
  ⟨by decide, by decide, by decide, h.1 (by decide),
    h.2 all_resolved 3 { tv_sec := 0, tv_nsec := 0 } rfl (by decide)⟩

set_option maxRecDepth 100000 in
/-- C19 (as stated) fails. At speed 3.0 a request of `d = 3 * 2^52 + 2` ns
(13510798 s and 882111490 ns) is issued as a real sleep of `2^52 + 1` ns; when
the real sleep is interrupted at once and reports the whole issued duration
as left, the remainder written back is 13510798 s and 882111492 ns, two
nanoseconds more than the request. At the speed `0.5 + 2^-18` (the float
`40 00 00 3f`) a request of 4503633 s and 987305473 ns, just above `2^52` ns,
is issued as 9007199255134208 ns and comes back one nanosecond longer. -/
theorem remainder_exceeds_request :
    three_state.g_speed.gt0 = true ∧
    timespec_to_ns { tv_sec := 13510798, tv_nsec := 882111490 } = 13510798882111490 ∧
    toInt64 (fdiv (ofInt64 13510798882111490) three_state.g_speed) = 4503599627370497 ∧
    nanosleep three_state (some whole_left_nanosleep)
        (some { tv_sec := 13510798, tv_nsec := 882111490 })
        (some { tv_sec := 0, tv_nsec := 0 }) { tv_sec := 0, tv_nsec := 0 }
      = (-1, some { tv_sec := 13510798, tv_nsec := 882111492 }) ∧
    half_plus_state.g_speed.gt0 = true ∧
    timespec_to_ns { tv_sec := 4503633, tv_nsec := 987305473 } = 4503633987305473 ∧
    toInt64 (fdiv (ofInt64 4503633987305473) half_plus_state.g_speed) = 9007199255134208 ∧
    nanosleep half_plus_state (some whole_left_nanosleep)
        (some { tv_sec := 4503633, tv_nsec := 987305473 })
        (some { tv_sec := 0, tv_nsec := 0 }) { tv_sec := 0, tv_nsec := 0 }
      = (-1, some { tv_sec := 4503633, tv_nsec := 987305474 }) := by
  decide

end XSpeedHack
